import Mathlib

/-!
# CodeMie Code: provider configuration, schema adaptation and tool registry

A shallow embedding of `src/code/tools/mcp.ts`, of the parts of
`src/code/index.ts` that build the registry, bridge slash commands, forward
stream events, run a task non-interactively and dispose of the MCP client, of
`src/code/tools/diff-utils.ts` and of `src/utils/exec.ts`. The module of the
agent is not among the sources: its `chatStream` is a parameter, and the session
history is modelled from the specification.

Conventions of the embedding:

* JavaScript values are the values `JSON.parse` can produce, plus `undefined`
  and the built-in functions that an object inherits from its prototype.
  Numbers are carried as integers: the code only looks at their type tag and at
  whether they are zero.
* An object is the list of its own enumerable properties in enumeration order.
  A JavaScript object never holds the same key twice; theorems that depend on
  it say so with `DistinctKeys`.
* A read with a fixed name (`config.env`, `prop.type`, ...) is an own-property
  read: none of the fixed names the code reads is a member of a prototype. A
  read or an assignment with a computed name (`configs[name]`,
  `process.env[varName]`, `serverConfigs[serverName] = ...`) goes through the
  prototype: a name that is not an own property gives the inherited member, and
  an assignment to `__proto__` sets the prototype instead of adding a key.
* A thrown exception is the `error` side of `Except JSError`; `try`/`catch` is a
  `match` on it. A thrown value is an error object that carries a `message`.
* What the program writes is a list of writes in order; the colours that
  `chalk` adds are left out. `process.exit(n)` ends the function with code `n`.
* Events of the outside world (the events of a child process, the events and
  the outcome of a run of the agent) are given as lists in order of occurrence.
-/

namespace CodeMie

/-! ## JavaScript values -/

/-- JavaScript values reachable from `JSON.parse`, plus `undefined` and the
built-in functions, which are given by their name. -/
inductive JSValue where
  | undefined : JSValue
  | null : JSValue
  | bool (b : Bool) : JSValue
  | num (n : Int) : JSValue
  | str (s : String) : JSValue
  | arr (items : List JSValue) : JSValue
  | obj (props : List (String × JSValue)) : JSValue
  | native (name : String) : JSValue

/-- Exceptions the modelled code can meet. -/
inductive JSError where
  | typeError (msg : String) : JSError
  | syntaxError : JSError
  | ioError : JSError
  | other (msg : String) : JSError

/-- JavaScript truthiness (`if (v)`, `v && ...`, `!v`). -/
def JSValue.truthy : JSValue → Bool
  | .undefined => false
  | .null => false
  | .bool b => b
  | .num n => n != 0
  | .str s => s != ""
  | .arr _ => true
  | .obj _ => true
  | .native _ => true

/-- The value is `null` or `undefined`: exactly the values on which a property
read throws. -/
def JSValue.isNullish : JSValue → Bool
  | .undefined => true
  | .null => true
  | _ => false

/-- Own-property lookup in an object's property list; `undefined` when absent. -/
def lookupProp (props : List (String × JSValue)) (key : String) : JSValue :=
  (props.lookup key).getD .undefined

/-- Assignment `o[key] = v` on an object: overwrite in place when the key is
already an own property, append otherwise. -/
def setKey {α : Type} : List (String × α) → String → α → List (String × α)
  | [], key, v => [(key, v)]
  | (k, w) :: rest, key, v =>
    if k = key then (k, v) :: rest else (k, w) :: setKey rest key v

/-- Property read `v.field` for a field name that is neither an array index nor
`length` (every name the source reads is of that kind): a `TypeError` on `null`
and `undefined`, the own property on an object, `undefined` on anything else. -/
def JSValue.getField (v : JSValue) (field : String) : Except JSError JSValue :=
  match v with
  | .undefined => .error (.typeError ("Cannot read properties of undefined (reading " ++ field ++ ")"))
  | .null => .error (.typeError ("Cannot read properties of null (reading " ++ field ++ ")"))
  | .obj props => .ok (lookupProp props field)
  | _ => .ok .undefined

/-- The value of the property read `v.field` where it does not throw. -/
def JSValue.field (v : JSValue) (field : String) : JSValue :=
  match v with
  | .obj props => lookupProp props field
  | _ => .undefined

/-- Own enumerable string-keyed properties, as `Object.entries` lists them:
the properties of an object, the indexed elements of an array, the indexed
characters of a string, nothing for a number, a boolean or a built-in function,
and a `TypeError` for `null` and `undefined`. -/
def objectEntries : JSValue → Except JSError (List (String × JSValue))
  | .undefined => .error (.typeError "Cannot convert undefined or null to object")
  | .null => .error (.typeError "Cannot convert undefined or null to object")
  | .obj props => .ok props
  | .arr items => .ok (items.enum.map fun p => (toString p.1, p.2))
  | .str s => .ok (s.toList.enum.map fun p => (toString p.1, JSValue.str (String.singleton p.2)))
  | _ => .ok []

/-- The keys of `objectEntries`, as `Object.keys` lists them. -/
def objectKeys (v : JSValue) : Except JSError (List String) :=
  (objectEntries v).map fun es => es.map Prod.fst

/-- The names of the members of `Object.prototype`, which every object made by
`{}` or by `JSON.parse` inherits. -/
def objectPrototypeNames : List String :=
  ["constructor", "__defineGetter__", "__defineSetter__", "hasOwnProperty",
   "__lookupGetter__", "__lookupSetter__", "isPrototypeOf", "propertyIsEnumerable",
   "toString", "valueOf", "__proto__", "toLocaleString"]

/-- The names of the members of `Array.prototype` (ECMAScript 2023), which
every array inherits before those of `Object.prototype`. -/
def arrayPrototypeNames : List String :=
  ["constructor", "at", "concat", "copyWithin", "fill", "find", "findIndex", "findLast",
   "findLastIndex", "lastIndexOf", "pop", "push", "reverse", "shift", "unshift", "slice",
   "sort", "splice", "includes", "indexOf", "join", "keys", "entries", "values", "forEach",
   "filter", "flat", "flatMap", "map", "every", "some", "reduce", "reduceRight",
   "toLocaleString", "toString", "toReversed", "toSorted", "toSpliced", "with"]

/-- The prototype of an object that the code builds from `{}`:
`Object.prototype` as long as nothing is assigned to `__proto__`, the object or
array assigned to it, or no prototype after `null` was assigned. -/
inductive Prototype where
  | standard : Prototype
  | replaced (v : JSValue) : Prototype
  | removed : Prototype

/-- The setter of `__proto__`: an object, an array or a function becomes the
prototype, `null` removes it, and any other value is ignored. -/
def Prototype.assign (proto : Prototype) (v : JSValue) : Prototype :=
  match v with
  | .obj _ => .replaced v
  | .arr _ => .replaced v
  | .native _ => .replaced v
  | .null => .removed
  | _ => proto

/-- What a read of `name` finds on `Object.prototype`: the getter of `__proto__`
gives the prototype of the object that is read, `constructor` is the function
`Object`, every other member is the function of that name, and any other name
is `undefined`. -/
def objectPrototypeMember (prototypeOfReceiver : JSValue) (name : String) : JSValue :=
  if name = "__proto__" then prototypeOfReceiver
  else if name = "constructor" then .native "Object"
  else if name ∈ objectPrototypeNames then .native name
  else .undefined

/-- The own properties of an array under a computed name: `length` and the
indices. -/
def arrayOwn (items : List JSValue) (name : String) : Option JSValue :=
  if name = "length" then some (.num items.length)
  else (items.enum.map fun p => (toString p.1, p.2)).lookup name

/-- The read `o[name]` with a computed name on an object built by the code, with
own properties `props` and prototype `proto`: the own property when there is
one, otherwise what the prototype chain gives. `Object.prototype` itself reads
as an empty object and `Array.prototype` as an empty array. A function is never
assigned as prototype by the code; its chain is read as that of a plain
object. -/
def readComputed (props : List (String × JSValue)) (proto : Prototype) (name : String) :
    JSValue :=
  match props.lookup name with
  | some v => v
  | none =>
    match proto with
    | .standard => objectPrototypeMember (.obj []) name
    | .removed => .undefined
    | .replaced (.obj inherited) =>
      match inherited.lookup name with
      | some v => v
      | none => objectPrototypeMember (.obj inherited) name
    | .replaced (.arr items) =>
      match arrayOwn items name with
      | some v => v
      | none =>
        if name = "__proto__" then .arr items
        else if name = "constructor" then .native "Array"
        else if name ∈ arrayPrototypeNames then .native name
        else objectPrototypeMember (.arr items) name
    | .replaced v => objectPrototypeMember v name

/-- The assignment `o[name] = v` with a computed name on an object built by the
code: an own property is overwritten in place; `__proto__` reaches the setter
of `Object.prototype`, unless the object has no prototype or inherits a data
property of that name from a parsed object; any other name becomes a new own
property. -/
def writeComputed (props : List (String × JSValue)) (proto : Prototype) (name : String)
    (v : JSValue) : List (String × JSValue) × Prototype :=
  if name = "__proto__" ∧ (props.lookup name).isNone = true then
    match proto with
    | .removed => (setKey props name v, proto)
    | .replaced (.obj inherited) =>
      if (inherited.lookup name).isSome then (setKey props name v, proto)
      else (props, proto.assign v)
    | _ => (props, proto.assign v)
  else (setKey props name v, proto)

/-- The own properties of `target` after `Object.assign(target, src)` on a
target without own properties named `__proto__`: every own enumerable property
of `src` is assigned, and the assignment of `__proto__` adds no key; a `null` or
`undefined` source is ignored. A parsed object holds a key once. -/
def objectAssign (target : List (String × JSValue)) (src : JSValue) : List (String × JSValue) :=
  match objectEntries src with
  | .ok es => (es.filter fun p => p.1 != "__proto__").foldl (fun acc p => setKey acc p.1 p.2) target
  | .error _ => target

/-- The prototype of `target` after `Object.assign(target, src)`: the value of
the key `__proto__` of `src`, when it has one, goes to the setter. -/
def assignedPrototype (proto : Prototype) (src : JSValue) : Prototype :=
  match objectEntries src with
  | .ok es =>
    match es.lookup "__proto__" with
    | some v => proto.assign v
    | none => proto
  | .error _ => proto

/-- No key occurs twice in a property list. -/
def DistinctKeys {α : Type} (props : List (String × α)) : Prop :=
  (props.map Prod.fst).Nodup

/-! ## Strings -/

/-- Substring test of `String.prototype.includes` on character lists. -/
def includesChars (sub : List Char) : List Char → Bool
  | [] => sub.isEmpty
  | c :: rest => sub.isPrefixOf (c :: rest) || includesChars sub rest

/-- Substring test `s.includes(sub)`. -/
def jsIncludes (s sub : String) : Bool :=
  includesChars sub.toList s.toList

/-- The variables of the process environment: the value of `name` when the
variable is set, `none` when it is unset. -/
abbrev ProcessEnv := String → Option String

/-! ## `MCPTools.interpolateEnvVars` -/

/-- The character `$`. -/
def dollar : Char := Char.ofNat 36

/-- The opening brace. -/
def lbrace : Char := Char.ofNat 123

/-- The closing brace. -/
def rbrace : Char := Char.ofNat 125

/-- The longest run of characters other than the closing brace at the head of the
input, and what follows it: the greedy `[^}]+` of the pattern. -/
def spanName : List Char → List Char × List Char
  | [] => ([], [])
  | c :: rest =>
    if c = rbrace then ([], c :: rest)
    else ((c :: (spanName rest).1), (spanName rest).2)

/-- An attempt to match the pattern `\$\{([^}]+)\}` at the head of the input: the
captured name on success. The run `[^}]+` must be non-empty and be followed by
a closing brace; backtracking cannot help, since a shorter run is followed by
a character that is not a closing brace. -/
def matchPlaceholder : List Char → Option (List Char)
  | c :: d :: body =>
    if c = dollar ∧ d = lbrace then
      match spanName body with
      | (name, e :: _) => if name ≠ [] ∧ e = rbrace then some name else none
      | (_, []) => none
    else none
  | _ => none

/-- The source text that `String(f)` gives for the built-in function `name`. -/
def functionSource (name : String) : String :=
  "function " ++ name ++ "() \x7b [native code] \x7d"

/-- The text that the replacement inserts for a name that is not a variable of
the environment: `process.env` inherits from `Object.prototype`, so a member
name reads as that member, which is truthy, and `replace` converts it to text;
any other name reads as `undefined` and gives the empty text. -/
def inheritedEnvText (name : String) : String :=
  if name = "__proto__" then "[object Object]"
  else if name = "constructor" then functionSource "Object"
  else if name ∈ objectPrototypeNames then functionSource name
  else ""

/-- The callback of the replacement, `process.env[varName] || ''`, as the text
that `replace` inserts. -/
def envOrEmpty (E : ProcessEnv) (varName : List Char) : List Char :=
  match E (String.mk varName) with
  | some v => if v ≠ "" then v.toList else []
  | none => (inheritedEnvText (String.mk varName)).toList

/-- Global replacement `value.replace(/\$\{([^}]+)\}/g, callback)`, scanning from
the left: `skip` counts the characters of the match just replaced that are
still to be passed over; at any other position a match is replaced by the
callback's result and a character that starts no match is copied. -/
def replacePlaceholders (E : ProcessEnv) : Nat → List Char → List Char
  | _, [] => []
  | skip + 1, _ :: rest => replacePlaceholders E skip rest
  | 0, c :: rest =>
    match matchPlaceholder (c :: rest) with
    | some name => envOrEmpty E name ++ replacePlaceholders E (name.length + 2) rest
    | none => c :: replacePlaceholders E 0 rest

/-- Source: `MCPTools.interpolateEnvVars`. -/
def MCPTools.interpolateEnvVars (E : ProcessEnv) (value : String) : String :=
  String.mk (replacePlaceholders E 0 value.toList)

/-- The character list begins with a placeholder: the two opening characters, a
non-empty `name` free of closing braces, a closing brace, then `tail`. -/
def PlaceholderAt (s name tail : List Char) : Prop :=
  s = dollar :: lbrace :: (name ++ rbrace :: tail) ∧ name ≠ [] ∧ rbrace ∉ name

/-- A placeholder name: a non-empty run of characters other than the closing brace. -/
def IsPlaceholderName (name : String) : Prop :=
  name ≠ "" ∧ rbrace ∉ name.toList

/-- The string begins with a placeholder occurrence `${name}`. -/
def BeginsWithPlaceholder (s : String) : Prop :=
  ∃ name tail, IsPlaceholderName name ∧ s = "$\x7b" ++ name ++ "\x7d" ++ tail

/-! ## `MCPTools.loadMCPConfigs` -/

/-- What `fs.readFile` followed by `JSON.parse` meets for one configuration
file: the file cannot be read, its text is not JSON, or it parses to a value. -/
inductive ConfigFile where
  | unreadable : ConfigFile
  | unparseable : ConfigFile
  | parsed (v : JSValue) : ConfigFile

/-- The expression `JSON.parse(await fs.readFile(path, 'utf-8'))`. -/
def readJSON : ConfigFile → Except JSError JSValue
  | .unreadable => .error .ioError
  | .unparseable => .error .syntaxError
  | .parsed v => .ok v

/-- The mutable locals `configs` and `hasGlobalServers` of `loadMCPConfigs`;
`configs` is held as its own properties and its prototype. -/
structure LoadState where
  configs : List (String × JSValue)
  hasGlobalServers : Bool
  prototype : Prototype

/-- Body of the first `try` block (source lines 70-74). -/
def loadGlobal (st : LoadState) (globalFile : ConfigFile) : Except JSError LoadState := do
  let globalConfig ← readJSON globalFile
  let mcpServers ← globalConfig.getField "mcpServers"
  if mcpServers.truthy then
    let keys ← objectKeys mcpServers
    if keys.length > 0 then
      pure ⟨objectAssign st.configs mcpServers, true, assignedPrototype st.prototype mcpServers⟩
    else pure st
  else pure st

/-- Body of the second `try` block (source lines 84-92). It runs only when
nothing was assigned to `configs`, whose prototype is still `Object.prototype`:
the guard `!configs[name]` is false for every member name of that prototype, so
the assignment is never reached for `__proto__`. -/
def loadBundled (configs : List (String × JSValue)) (bundledFile : ConfigFile) :
    Except JSError (List (String × JSValue)) := do
  let bundled ← readJSON bundledFile
  let mcpServers ← bundled.getField "mcpServers"
  if mcpServers.truthy then
    let entries ← objectEntries mcpServers
    pure (entries.foldl
      (fun acc p =>
        if !(readComputed acc .standard p.1).truthy then setKey acc p.1 p.2 else acc) configs)
  else pure configs

/-- Source selection (source lines 64-96): the global source when it defines
servers, otherwise the bundled one; a failure inside either `try` is swallowed. -/
def selectConfigs (globalFile bundledFile : ConfigFile) : List (String × JSValue) :=
  let st0 : LoadState := ⟨[], false, .standard⟩
  let st1 : LoadState :=
    match loadGlobal st0 globalFile with
    | .ok st => st
    | .error _ => st0
  if !st1.hasGlobalServers then
    match loadBundled st1.configs bundledFile with
    | .ok configs => configs
    | .error _ => st1.configs
  else st1.configs

/-- The prototype of `configs` when `loadMCPConfigs` returns: what the first
`try` block has made of it; the second one never changes it. -/
def selectPrototype (globalFile : ConfigFile) : Prototype :=
  match loadGlobal ⟨[], false, .standard⟩ globalFile with
  | .ok st => st.prototype
  | .error _ => .standard

/-- One step of the inner loop (source lines 101-105) on an object `env`:
`if (typeof value === 'string' && value.includes('${')) env[key] = interpolate(value)`. -/
def injectEntry (E : ProcessEnv) (env : List (String × JSValue)) (p : String × JSValue) :
    List (String × JSValue) :=
  match p.2 with
  | .str value =>
    if jsIncludes value "$\x7b" then setKey env p.1 (.str (MCPTools.interpolateEnvVars E value))
    else env
  | _ => env

/-- The same step on an element of an array `env` (the key is the element's index). -/
def injectElement (E : ProcessEnv) (value : JSValue) : JSValue :=
  match value with
  | .str s => if jsIncludes s "$\x7b" then .str (MCPTools.interpolateEnvVars E s) else value
  | _ => value

/-- The inner loop over `Object.entries(config.env)` (source lines 101-105), for a
truthy `env`. An object is updated key by key and an array index by index; the
entries of a string are single characters, which never include the two
characters of the placeholder opening, and a number or boolean has no entry. -/
def injectEnvMap (E : ProcessEnv) (env : JSValue) : JSValue :=
  match env with
  | .obj props => .obj (props.foldl (injectEntry E) props)
  | .arr items => .arr (items.map (injectElement E))
  | other => other

/-- Body of the outer loop (source lines 100-106) for one `config`: reading
`config.env` throws on `null`; the update of `config.env` is in place. -/
def injectConfig (E : ProcessEnv) (config : JSValue) : Except JSError JSValue := do
  let env ← config.getField "env"
  if env.truthy then
    match config with
    | .obj props => pure (.obj (setKey props "env" (injectEnvMap E env)))
    | other => pure other
  else pure config

/-- The outer loop `for (const config of Object.values(configs))` (source lines
99-107); the first throwing iteration ends it. -/
def injectAll (E : ProcessEnv) : List (String × JSValue) → Except JSError (List (String × JSValue))
  | [] => .ok []
  | (name, config) :: rest =>
    match injectConfig E config with
    | .error e => .error e
    | .ok config1 =>
      match injectAll E rest with
      | .error e => .error e
      | .ok rest1 => .ok ((name, config1) :: rest1)

/-- Source: `MCPTools.loadMCPConfigs`, with the process environment and the
outcome of reading the two files as parameters. The result is the own
properties of the object returned; `selectPrototype` gives its prototype. -/
def MCPTools.loadMCPConfigs (E : ProcessEnv) (globalFile bundledFile : ConfigFile) :
    Except JSError (List (String × JSValue)) :=
  injectAll E (selectConfigs globalFile bundledFile)

/-- The global source defines no provider: the file is unreadable or
unparseable, the parsed value has no (truthy) `mcpServers`, or `mcpServers` has
no key. -/
inductive GlobalDefinesNone : ConfigFile → Prop where
  | unreadable : GlobalDefinesNone .unreadable
  | unparseable : GlobalDefinesNone .unparseable
  | notAnObject (v : JSValue) (e : JSError) (h : v.getField "mcpServers" = .error e) :
      GlobalDefinesNone (.parsed v)
  | noProviderMap (v m : JSValue) (h : v.getField "mcpServers" = .ok m) (hf : m.truthy = false) :
      GlobalDefinesNone (.parsed v)
  | emptyProviderMap (v m : JSValue) (h : v.getField "mcpServers" = .ok m)
      (hk : objectKeys m = .ok []) : GlobalDefinesNone (.parsed v)

/-- The providers a bundled source defines: none when the file is unreadable or
unparseable or has no (truthy) `mcpServers`, otherwise the own entries of
`mcpServers`. -/
inductive BundledProviders : ConfigFile → List (String × JSValue) → Prop where
  | unreadable : BundledProviders .unreadable []
  | unparseable : BundledProviders .unparseable []
  | notAnObject (v : JSValue) (e : JSError) (h : v.getField "mcpServers" = .error e) :
      BundledProviders (.parsed v) []
  | noProviderMap (v m : JSValue) (h : v.getField "mcpServers" = .ok m) (hf : m.truthy = false) :
      BundledProviders (.parsed v) []
  | providerMap (v m : JSValue) (es : List (String × JSValue))
      (h : v.getField "mcpServers" = .ok m) (ht : m.truthy = true)
      (he : objectEntries m = .ok es) (hd : DistinctKeys es) : BundledProviders (.parsed v) es

/-! ### Sample data -/

/-- A process environment with `TOKEN=abc` and nothing else. -/
def tokenEnv : ProcessEnv := fun name => if name = "TOKEN" then some "abc" else none

/-- The empty process environment. -/
def emptyEnv : ProcessEnv := fun _ => none

/-- Provider definition `X`: an `env` map with one placeholder. -/
def sampleX : JSValue :=
  .obj [("command", .str "serve-x"), ("env", .obj [("API_KEY", .str "$\x7bTOKEN\x7d"), ("PORT", .num 8080)])]

/-- Provider definition `Y`. -/
def sampleY : JSValue := .obj [("command", .str "serve-y")]

/-- Provider definition `Z`. -/
def sampleZ : JSValue := .obj [("command", .str "serve-z")]

/-- Global source `{serverA: X}`. -/
def sampleGlobal : JSValue := .obj [("mcpServers", .obj [("serverA", sampleX)])]

/-- Bundled source `{serverA: Y, serverB: Z}`. -/
def sampleBundled : JSValue := .obj [("mcpServers", .obj [("serverA", sampleY), ("serverB", sampleZ)])]

/-- A global source with the providers `__proto__` and `serverA`. -/
def protoGlobal : JSValue :=
  .obj [("mcpServers", .obj [("__proto__", sampleY), ("serverA", sampleX)])]

/-- A bundled source with the providers `toString` and `serverB`. -/
def memberBundled : JSValue :=
  .obj [("mcpServers", .obj [("toString", sampleY), ("serverB", sampleZ)])]

/-- A global source whose only provider entry is `null`. -/
def nullEntryGlobal : JSValue := .obj [("mcpServers", .obj [("broken", .null)])]

/-! ## `WrappedMCPTool.convertSchema` -/

/-- The zod types `convertSchema` can build (source lines 160-172). -/
inductive ZodKind where
  | string : ZodKind
  | number : ZodKind
  | boolean : ZodKind
  | arrayOfAny : ZodKind
  | openObject : ZodKind
  | any : ZodKind
  deriving DecidableEq

/-- A zod type as `convertSchema` leaves it: the base type, the text given to
`.describe(...)` if any, and whether `.optional()` was applied. The wrapper
made by `.optional()` keeps the description of the type it wraps. -/
structure ZodType where
  kind : ZodKind
  description : Option JSValue
  isOptional : Bool

/-- The method `zodType.describe(description)`. -/
def ZodType.describe (t : ZodType) (description : JSValue) : ZodType :=
  { t with description := some description }

/-- The method `zodType.optional()`. -/
def ZodType.optional (t : ZodType) : ZodType :=
  { t with isOptional := true }

/-- The object `shape` handed to `z.object(shape)`, the parameter contract, as
what `shape[key]` reads for every key that was assigned: the own properties in
the order of their first assignment and, under `__proto__`, the zod type that
the assignment `shape['__proto__'] = zodType` has made the prototype of `shape`.
The keys of the contract are the own ones: `contractKeys`. -/
abbrev ParameterContract := List (String × ZodType)

/-- The keys of the contract, `Object.keys(shape)`: every assigned key except
`__proto__`, whose assignment sets the prototype and adds no key. -/
def contractKeys (shape : ParameterContract) : List String :=
  (shape.map Prod.fst).filter fun key => key != "__proto__"

/-- Validation of one value by a zod base type: `z.string()`, `z.number()` and
`z.boolean()` accept the values of that JavaScript type, `z.array(z.any())` any
array, `z.object({}).passthrough()` any non-null non-array object, and `z.any()`
every value, `undefined` included. -/
def ZodKind.accepts : ZodKind → JSValue → Bool
  | .string, .str _ => true
  | .number, .num _ => true
  | .boolean, .bool _ => true
  | .arrayOfAny, .arr _ => true
  | .openObject, .obj _ => true
  | .any, _ => true
  | _, _ => false

/-- Validation of one value by a zod type: an optional type accepts
`undefined`, otherwise the base type decides. -/
def ZodType.accepts (t : ZodType) (v : JSValue) : Bool :=
  match t.isOptional, v with
  | true, .undefined => true
  | _, _ => t.kind.accepts v

/-- Validation of an input by `z.object(shape)`: the input must be a non-null,
non-array object, and every key of the contract must accept the input's value
under that key, `undefined` when the input lacks it; keys outside the contract
are dropped without complaint. -/
def zodObjectAccepts (shape : ParameterContract) (input : JSValue) : Bool :=
  match input with
  | .obj props => shape.all fun p => p.1 == "__proto__" || p.2.accepts (lookupProp props p.1)
  | _ => false

/-- The test `typeof prop === 'object' && prop !== null`. -/
def JSValue.isObjectType : JSValue → Bool
  | .obj _ => true
  | .arr _ => true
  | _ => false

/-- Strict equality `v === s` with a string constant. -/
def JSValue.strictEqStr : JSValue → String → Bool
  | .str t, s => t == s
  | _, _ => false

/-- The chain of `if (prop.type === ...)` of source lines 160-172. -/
def zodKindOfType (ty : JSValue) : ZodKind :=
  if ty.strictEqStr "string" then .string
  else if ty.strictEqStr "number" || ty.strictEqStr "integer" then .number
  else if ty.strictEqStr "boolean" then .boolean
  else if ty.strictEqStr "array" then .arrayOfAny
  else if ty.strictEqStr "object" then .openObject
  else .any

/-- The call `mcpSchema.required.includes(key)` on a truthy `required`:
`Array.prototype.includes` on an array (a string key equals only an equal
string element), `String.prototype.includes` on a string, and a `TypeError`
on any other value, which has no method `includes`. -/
def requiredIncludes (required : JSValue) (key : String) : Except JSError Bool :=
  match required with
  | .arr items => .ok (items.any fun x => x.strictEqStr key)
  | .str s => .ok (jsIncludes s key)
  | _ => .error (.typeError "mcpSchema.required.includes is not a function")

/-- Source lines 158-172: the zod type chosen from `prop.type`. -/
def declaredType (prop : JSValue) : Except JSError ZodType := do
  let ty ← prop.getField "type"
  pure ⟨zodKindOfType ty, none, false⟩

/-- Source lines 174-177: `if (prop.description) zodType = zodType.describe(prop.description)`. -/
def addDescription (prop : JSValue) (zodType : ZodType) : Except JSError ZodType := do
  let description ← prop.getField "description"
  if description.truthy then pure (zodType.describe description) else pure zodType

/-- Source lines 179-182:
`if (mcpSchema.required && !mcpSchema.required.includes(key)) zodType = zodType.optional()`. -/
def makeOptional (mcpSchema : JSValue) (key : String) (zodType : ZodType) :
    Except JSError ZodType := do
  let required ← mcpSchema.getField "required"
  if required.truthy then
    let listed ← requiredIncludes required key
    if !listed then pure zodType.optional else pure zodType
  else pure zodType

/-- Body of the loop of `convertSchema` (source lines 157-185) for one entry
`[key, prop]` of `mcpSchema.properties`. The assignment `shape[key] = zodType`
is recorded under `key`; for the key `__proto__` it sets the prototype of
`shape` and adds no key to the contract (see `ParameterContract`). What zod
makes of later assignments to a `shape` whose prototype is a zod type is not
modelled: theorems on the keys of the contract take a properties map without
that key. -/
def convertProperty (mcpSchema : JSValue) (shape : ParameterContract) (key : String)
    (prop : JSValue) : Except JSError ParameterContract :=
  if prop.isObjectType then do
    let zodType ← declaredType prop
    let zodType ← addDescription prop zodType
    let zodType ← makeOptional mcpSchema key zodType
    pure (setKey shape key zodType)
  else pure shape

/-- The loop `for (const [key, prop] of Object.entries(mcpSchema.properties))`;
the first throwing iteration ends it. -/
def convertEntries (mcpSchema : JSValue) :
    ParameterContract → List (String × JSValue) → Except JSError ParameterContract
  | shape, [] => .ok shape
  | shape, (key, prop) :: rest =>
    match convertProperty mcpSchema shape key prop with
    | .error e => .error e
    | .ok shape1 => convertEntries mcpSchema shape1 rest

/-- Source: `WrappedMCPTool.convertSchema`. The read `mcpSchema?.properties` is
`undefined` on `null` and `undefined`. -/
def WrappedMCPTool.convertSchema (mcpSchema : JSValue) : Except JSError ParameterContract := do
  let properties ← if mcpSchema.isNullish then pure JSValue.undefined
    else mcpSchema.getField "properties"
  if properties.truthy then
    let entries ← objectEntries properties
    convertEntries mcpSchema [] entries
  else pure []

/-- The values of `mcpSchema.required` on which source line 180 does not throw:
a falsy value (the field is absent, `null`, ...), a list, or a string. -/
def RequiredUsable (required : JSValue) : Prop :=
  required.truthy = false ∨ (∃ items, required = .arr items) ∨ (∃ s, required = .str s)

/-- Whether the loop body makes the entry of `key` optional, for a usable
`required`: never for a falsy one, otherwise iff `includes(key)` is false. -/
def optionalFlag (required : JSValue) (key : String) : Bool :=
  match required with
  | .arr items => !(items.any fun x => x.strictEqStr key)
  | .str s => if s = "" then false else !(jsIncludes s key)
  | _ => false

/-- The contract entry the loop body builds from an object-valued `prop`. -/
def contractEntry (isOptional : Bool) (prop : JSValue) : ZodType :=
  ⟨zodKindOfType (prop.field "type"),
   if (prop.field "description").truthy then some (prop.field "description") else none,
   isOptional⟩

/-- The contract expected from a list of property entries: one entry per key
bound to a non-null object, in order. -/
def contractOf (required : JSValue) (entries : List (String × JSValue)) : ParameterContract :=
  entries.filterMap fun p =>
    if p.2.isObjectType then some (p.1, contractEntry (optionalFlag required p.1) p.2) else none

/-! ### Sample schemas -/

/-- Properties `{a: string, b: integer}`. -/
def sampleProps : List (String × JSValue) :=
  [("a", .obj [("type", .str "string")]), ("b", .obj [("type", .str "integer")])]

/-- Schema with properties `{a: string, b: integer}` and required `[a]`. -/
def sampleSchema : JSValue :=
  .obj [("type", .str "object"), ("properties", .obj sampleProps), ("required", .arr [.str "a"])]

/-- The same properties without any required-list. -/
def noRequiredSchema : JSValue :=
  .obj [("type", .str "object"), ("properties", .obj sampleProps)]

/-- A required property declared by an `enum` only, without `type`. -/
def enumSchema : JSValue :=
  .obj [("type", .str "object"),
    ("properties", .obj [("order", .obj [("enum", .arr [.str "asc", .str "desc"])])]),
    ("required", .arr [.str "order"])]

/-- Properties of which one is bound to `null` and one to a string. -/
def mixedProps : List (String × JSValue) :=
  [("a", .obj [("type", .str "string")]), ("b", .null), ("c", .str "string")]

/-- Schema over `mixedProps`. -/
def mixedSchema : JSValue :=
  .obj [("type", .str "object"), ("properties", .obj mixedProps)]

/-- Schema with the properties `__proto__` and `a`, both declared `string`, and
both listed as required. -/
def protoPropsSchema : JSValue :=
  .obj [("type", .str "object"),
    ("properties", .obj [("__proto__", .obj [("type", .str "string")]),
                         ("a", .obj [("type", .str "string")])]),
    ("required", .arr [.str "__proto__", .str "a"])]

/-- Schema whose `properties` is an array of property objects. -/
def arrayPropsSchema : JSValue :=
  .obj [("type", .str "object"), ("properties", .arr [.obj [("type", .str "string")]])]

/-- Schema whose `required` is `true` instead of a list. -/
def badRequiredSchema : JSValue :=
  .obj [("type", .str "object"), ("properties", .obj [("a", .obj [("type", .str "string")])]),
    ("required", .bool true)]

/-! ## `MCPTools` and `CodeMieCode.performInitialization` -/

/-- A tool as the MCP client returns it: `name`, `description` and the JSON
schema held in `schema`. -/
structure RemoteTool where
  name : String
  description : String
  schema : JSValue

/-- A `MultiServerMCPClient`, by the outcome of its calls. -/
structure MCPClient where
  getTools : Except JSError (List RemoteTool)
  close : Except JSError Unit

/-- Source: class `WrappedMCPTool`, the fields set by its constructor. -/
structure WrappedMCPTool where
  name : String
  description : String
  schema : ParameterContract

/-- Source: the constructor of `WrappedMCPTool` (source lines 134-140). -/
def WrappedMCPTool.new (mcpTool : RemoteTool) : Except JSError WrappedMCPTool := do
  let name := "mcp_" ++ mcpTool.name
  let description := "[MCP Tool] " ++ mcpTool.description
  let schema ← WrappedMCPTool.convertSchema mcpTool.schema
  pure ⟨name, description, schema⟩

/-- The call `mcpTools.map((tool) => new WrappedMCPTool(tool))`; the first
throwing constructor ends it. -/
def wrapAll : List RemoteTool → Except JSError (List WrappedMCPTool)
  | [] => .ok []
  | tool :: rest =>
    match WrappedMCPTool.new tool with
    | .error e => .error e
    | .ok wrapped =>
      match wrapAll rest with
      | .error e => .error e
      | .ok others => .ok (wrapped :: others)

/-- Source: the fields of class `MCPTools`. -/
structure MCPTools where
  mcpClient : Option MCPClient
  enabledServers : List String

/-- Source: `new MCPTools(rootDir)`. -/
def MCPTools.fresh : MCPTools := ⟨none, []⟩

/-- The locals `serverConfigs`, held as its own properties and its prototype,
and `failedServers` of `initialize`. -/
structure Selection where
  serverConfigs : List (String × JSValue)
  prototype : Prototype
  failedServers : List String

/-- Body of the loop of source lines 26-33 for one `serverName`: the read
`configs[serverName]` and the assignment `serverConfigs[serverName] = ...` both
go through the prototype. -/
def selectStep (configs : List (String × JSValue)) (prototype : Prototype) (acc : Selection)
    (serverName : String) : Selection :=
  if (readComputed configs prototype serverName).truthy then
    let written := writeComputed acc.serverConfigs acc.prototype serverName
      (readComputed configs prototype serverName)
    ⟨written.1, written.2, acc.failedServers⟩
  else ⟨acc.serverConfigs, acc.prototype, acc.failedServers ++ [serverName]⟩

/-- The loop of source lines 26-33: the own properties of `serverConfigs` and
`failedServers` after the names of `serversToUse` have been visited in order,
for a `configs` with the given own properties and prototype. -/
def selectServers (configs : List (String × JSValue)) (prototype : Prototype)
    (serversToUse : List String) : List (String × JSValue) × List String :=
  let final := serversToUse.foldl (selectStep configs prototype) ⟨[], .standard, []⟩
  (final.serverConfigs, final.failedServers)

/-- Source: `MCPTools.initialize`. The parameters are the process environment,
the two configuration files and the constructor `new MultiServerMCPClient`,
which is given the own properties of `serverConfigs`; the result is the state
of the object afterwards and either the thrown error or the list
`failedServers` of skipped names. -/
def MCPTools.initialize (E : ProcessEnv) (globalFile bundledFile : ConfigFile)
    (newClient : List (String × JSValue) → Except JSError MCPClient)
    (self : MCPTools) (servers : Option (List String)) :
    MCPTools × Except JSError (List String) :=
  match MCPTools.loadMCPConfigs E globalFile bundledFile with
  | .error e => (self, .error e)
  | .ok configs =>
    let serversToUse := servers.getD (configs.map Prod.fst)
    let self1 : MCPTools := { self with enabledServers := serversToUse }
    let selected := selectServers configs (selectPrototype globalFile) serversToUse
    let serverConfigs := selected.1
    let failedServers := selected.2
    if serverConfigs.length > 0 then
      match newClient serverConfigs with
      | .error e => (self1, .error e)
      | .ok client => ({ self1 with mcpClient := some client }, .ok failedServers)
    else (self1, .ok failedServers)

/-- Source: `MCPTools.getTools`. -/
def MCPTools.getTools (self : MCPTools) : List WrappedMCPTool :=
  match self.mcpClient with
  | none => []
  | some client =>
    match client.getTools.bind wrapAll with
    | .ok tools => tools
    | .error _ => []

/-- A descriptor listed by one of the local sources (filesystem, command, git). -/
structure LocalTool where
  name : String
  description : String

/-- An element of the registry handed to the agent. -/
inductive RegisteredTool where
  | builtin (tool : LocalTool) : RegisteredTool
  | mcp (tool : WrappedMCPTool) : RegisteredTool

/-- What `performInitialization` meets outside its own code: the outcome of
`getTools()` on the three local sources, the configured `mcpServers`, the
process environment, the two configuration files and the MCP client
constructor. -/
structure InitEnvironment where
  filesystemTools : Except JSError (List LocalTool)
  commandTools : Except JSError (List LocalTool)
  gitTools : Except JSError (List LocalTool)
  mcpServers : Option (List String)
  processEnv : ProcessEnv
  globalFile : ConfigFile
  bundledFile : ConfigFile
  newClient : List (String × JSValue) → Except JSError MCPClient

/-- The fields of `CodeMieCode` that `performInitialization` sets: the tools
given to `new CodeMieAgent(config, tools)` and `this.mcpTools`. -/
structure CodeMieCode where
  agentTools : List RegisteredTool
  mcpTools : Option MCPTools

/-- Source lines 77-78: `this.mcpTools = new MCPTools(...)` followed by
`await this.mcpTools.initialize(this.config.mcpServers)`. -/
def mcpInitOutcome (env : InitEnvironment) : MCPTools × Except JSError (List String) :=
  MCPTools.initialize env.processEnv env.globalFile env.bundledFile env.newClient
    MCPTools.fresh env.mcpServers

/-- Body of the `try` block of source lines 77-83, on the tools collected so
far: the tools afterwards, or the error thrown. -/
def collectMCPTools (env : InitEnvironment) (tools : List RegisteredTool) :
    MCPTools × Except JSError (List RegisteredTool) :=
  let r := mcpInitOutcome env
  match r.2 with
  | .error e => (r.1, .error e)
  | .ok _ =>
    let mcpToolsList := r.1.getTools
    if mcpToolsList.length > 0 then
      (r.1, .ok (tools ++ mcpToolsList.map RegisteredTool.mcp))
    else (r.1, .ok tools)

/-- Source: `CodeMieCode.performInitialization`. -/
def CodeMieCode.performInitialization (env : InitEnvironment) : Except JSError CodeMieCode := do
  let tools : List RegisteredTool := []
  let filesystemTools ← env.filesystemTools
  let tools := tools ++ filesystemTools.map RegisteredTool.builtin
  let commandTools ← env.commandTools
  let tools := tools ++ commandTools.map RegisteredTool.builtin
  let gitTools ← env.gitTools
  let tools := tools ++ gitTools.map RegisteredTool.builtin
  let r := collectMCPTools env tools
  let tools :=
    match r.2 with
    | .ok tools1 => tools1
    | .error _ => tools
  pure ⟨tools, some r.1⟩

/-! ### Sample environments -/

/-- A remote tool `get_current_time` with one string parameter. -/
def timeTool : RemoteTool :=
  ⟨"get_current_time", "Get current time",
    .obj [("type", .str "object"),
      ("properties", .obj [("timezone", .obj [("type", .str "string")])]),
      ("required", .arr [.str "timezone"])]⟩

/-- A client whose listing returns `timeTool`. -/
def timeClient : MCPClient := ⟨.ok [timeTool], .ok ()⟩

/-- Every source lists its tools; the global configuration defines one server. -/
def healthyEnv : InitEnvironment :=
  { filesystemTools := .ok [⟨"read_file", "Read a file"⟩, ⟨"write_file", "Write a file"⟩]
    commandTools := .ok [⟨"execute_command", "Run a shell command"⟩]
    gitTools := .ok [⟨"git_status", "Show the git status"⟩]
    mcpServers := none
    processEnv := emptyEnv
    globalFile := .parsed (.obj [("mcpServers", .obj [("time", sampleY)])])
    bundledFile := .unreadable
    newClient := fun _ => .ok timeClient }

/-- The MCP source throws during `initialize`: its configuration has a `null` entry. -/
def mcpFailsEnv : InitEnvironment :=
  { healthyEnv with globalFile := .parsed nullEntryGlobal }

/-- The filesystem source throws while listing; the other three are healthy. -/
def filesystemFailsEnv : InitEnvironment :=
  { healthyEnv with filesystemTools := .error (.other "filesystem tools unavailable") }

/-! ## `WrappedMCPTool._call` and the registry names -/

/-- The `message` of a thrown error object. The two errors of `readJSON` are
always swallowed by `loadMCPConfigs`; they carry a fixed text. -/
def JSError.message : JSError → String
  | .typeError msg => msg
  | .syntaxError => "Unexpected token in JSON"
  | .ioError => "ENOENT: no such file or directory"
  | .other msg => msg

/-- The call `JSON.stringify(value)`: `undefined` for `undefined` and for a
function, otherwise the JSON text of the value, which `serialize` gives. -/
def jsonStringify (serialize : JSValue → String) : JSValue → JSValue
  | .undefined => .undefined
  | .native _ => .undefined
  | v => .str (serialize v)

/-- Source: `WrappedMCPTool._call`. The parameters are the behaviour of
`this.mcpTool.invoke` (the value it resolves to, or the error it rejects with)
and the text serialization used by `JSON.stringify`; the result is the value
the method resolves to, or the error it rejects with. -/
def WrappedMCPTool._call (invoke : JSValue → Except JSError JSValue)
    (serialize : JSValue → String) (inputs : JSValue) : Except JSError JSValue :=
  match invoke inputs with
  | .ok result =>
    match result with
    | .str _ => .ok result
    | _ => .ok (jsonStringify serialize result)
  | .error error => .ok (.str ("MCP Error: " ++ error.message))

/-- The tools one connected MCP server exposes. -/
structure ServerListing where
  server : String
  tools : List RemoteTool

/-- The list `MultiServerMCPClient.getTools()` resolves to: the tools of every
connected server in one array, each under its remote name (in
`tests/test-mcp-time-server.js` the tool `get_current_time` of the server
`time` is found as `mcp_get_current_time`). -/
def listAllServers (listings : List ServerListing) : List RemoteTool :=
  (listings.map fun l => l.tools).flatten

/-- The `name` of a registry element. -/
def RegisteredTool.name : RegisteredTool → String
  | .builtin tool => tool.name
  | .mcp tool => tool.name

/-! ## `MCPTools.dispose` and `CodeMieCode.dispose` -/

/-- Source: `MCPTools.dispose`. `closeCall` is what `await this.mcpClient.close()`
does at this call; the result is the state afterwards and the outcome of the
call. -/
def MCPTools.dispose (closeCall : MCPClient → Except JSError Unit) (self : MCPTools) :
    MCPTools × Except JSError Unit :=
  match self.mcpClient with
  | some client =>
    match closeCall client with
    | .ok _ => (self, .ok ())
    | .error _ => (self, .ok ())
  | none => (self, .ok ())

/-- Source: `CodeMieCode.dispose`. -/
def CodeMieCode.dispose (closeCall : MCPClient → Except JSError Unit) (self : CodeMieCode) :
    CodeMieCode × Except JSError Unit :=
  match self.mcpTools with
  | some mcpTools =>
    let r := mcpTools.dispose closeCall
    ({ self with mcpTools := some r.1 }, r.2)
  | none => (self, .ok ())

/-- Consecutive calls of `MCPTools.dispose`, one for each behaviour of `close`
in `closeCalls`: the state after the last call and the outcomes in order. -/
def MCPTools.disposeRepeatedly :
    List (MCPClient → Except JSError Unit) → MCPTools → MCPTools × List (Except JSError Unit)
  | [], self => (self, [])
  | closeCall :: rest, self =>
    let r := self.dispose closeCall
    let r2 := MCPTools.disposeRepeatedly rest r.1
    (r2.1, r.2 :: r2.2)

/-- Consecutive calls of `CodeMieCode.dispose`, as `MCPTools.disposeRepeatedly`. -/
def CodeMieCode.disposeRepeatedly :
    List (MCPClient → Except JSError Unit) → CodeMieCode →
      CodeMieCode × List (Except JSError Unit)
  | [], self => (self, [])
  | closeCall :: rest, self =>
    let r := self.dispose closeCall
    let r2 := CodeMieCode.disposeRepeatedly rest r.1
    (r2.1, r.2 :: r2.2)

/-! ## The slash-command bridge -/

/-- White space and line terminators of ECMAScript, which `String.prototype.trim`
removes. -/
def isJSWhitespace (c : Char) : Bool :=
  c.toNat ∈ [0x09, 0x0A, 0x0B, 0x0C, 0x0D, 0x20, 0xA0, 0x1680, 0x2028, 0x2029, 0x202F, 0x205F,
    0x3000, 0xFEFF] || (0x2000 ≤ c.toNat && c.toNat ≤ 0x200A)

/-- The method `s.trim()`. -/
def jsTrim (s : String) : String :=
  String.mk ((s.toList.dropWhile isJSWhitespace).reverse.dropWhile isJSWhitespace).reverse

/-- The error `execSync` throws when the command fails: its `message` and the
captured `stdout` and `stderr`, `none` when the field is absent or `null`. -/
structure ExecError where
  message : String
  stdout : Option String
  stderr : Option String

/-- What `execSync` does: return the captured standard output, or throw. -/
inductive ExecOutcome where
  | success (output : String) : ExecOutcome
  | failure (error : ExecError) : ExecOutcome

/-- What distinguishes one `execSync` call from another: the command line and
whether `CODEMIE_IN_ASSISTANT` is added to the environment (working directory,
encoding, buffer size and stdio are the same in both callers). -/
structure ExecRequest where
  commandLine : String
  inAssistant : Bool

/-- The template `codemie ${command} ${args.join(' ')}`. -/
def slashCommandLine (command : String) (args : List String) : String :=
  "codemie " ++ command ++ " " ++ " ".intercalate args

/-- The expression `value || ''` on an optional string. -/
def orEmpty (value : Option String) : String :=
  value.getD ""

/-- The expression `[stdout, stderr].filter(Boolean).join('\n')`. -/
def combineOutputs (stdout stderr : String) : String :=
  "\n".intercalate ([stdout, stderr].filter fun s => s != "")

/-- Source: `CodeMieCode.handleSlashCommand`. -/
def CodeMieCode.handleSlashCommand (execSync : ExecRequest → ExecOutcome) (command : String)
    (args : List String) : Except JSError String :=
  let fullCommand := slashCommandLine command args
  match execSync ⟨fullCommand, true⟩ with
  | .success output => .ok output
  | .failure error =>
    if orEmpty error.stderr != "" || orEmpty error.stdout != "" then
      let stderr := jsTrim (orEmpty error.stderr)
      let stdout := jsTrim (orEmpty error.stdout)
      let combined := combineOutputs stdout stderr
      .error (.other (if combined != "" then combined else error.message))
    else .error (.other ("Command failed: " ++ error.message))

/-- Source: `CodeMieCode.executeSlashCommand`: the error of `execSync` is not
caught. -/
def CodeMieCode.executeSlashCommand (execSync : ExecRequest → ExecOutcome) (command : String)
    (args : List String) : Except JSError String :=
  let fullCommand := slashCommandLine command args
  match execSync ⟨fullCommand, false⟩ with
  | .success output => .ok output
  | .failure error => .error (.other error.message)

/-! ## The streaming handler of `startInteractive` -/

/-- The events delivered to the event sink. -/
inductive StreamEvent where
  | thinking_start : StreamEvent
  | thinking_end : StreamEvent
  | content_chunk (content : String) : StreamEvent
  | tool_call_start (toolName : String) (toolArgs : JSValue) : StreamEvent
  | tool_call_result (toolName : String) (result : Option String) : StreamEvent
  | tool_call_error (toolName : String) (error : String) : StreamEvent
  | complete : StreamEvent
  | error (error : String) : StreamEvent
  | cancelled : StreamEvent

/-- The terminal events: `complete`, `error` and `cancelled`. -/
def StreamEvent.isTerminal : StreamEvent → Bool
  | .complete => true
  | .error _ => true
  | .cancelled => true
  | _ => false

/-- One call of the agent's `chatStream` as its caller sees it: the events it
delivers to `onEvent`, in order, and then its return or its rejection. -/
structure ChatStreamRun where
  events : List StreamEvent
  outcome : Except JSError Unit

/-- Source: the handler `onSubmitStream` of `startInteractive` (source lines
112-124). The result is the list of events the sink has received when the
handler returns, and the outcome of the handler. -/
def onSubmitStream (chatStream : String → ChatStreamRun) (message : String) :
    List StreamEvent × Except JSError Unit :=
  let run := chatStream message
  match run.outcome with
  | .ok _ => (run.events, .ok ())
  | .error error =>
    if error.message = "Execution cancelled by user" then (run.events, .ok ())
    else
      (run.events ++
        [StreamEvent.error (if error.message != "" then error.message else "An error occurred")],
       .ok ())

/-- The events hold exactly one terminal event, and it is the last one. -/
def OneTerminalLast (events : List StreamEvent) : Prop :=
  (events.filter StreamEvent.isTerminal).length = 1 ∧
    events.getLast?.map StreamEvent.isTerminal = some true

instance (events : List StreamEvent) : Decidable (OneTerminalLast events) := by
  unfold OneTerminalLast
  infer_instance

/-! ### Sample data for `initialize`, the registry names and the bridge -/

/-- A resolved configuration map with the single server `time`. -/
def timeConfigs : List (String × JSValue) := [("time", sampleY)]

/-- Two servers that both expose a tool named `search`. -/
def twoSearchServers : List ServerListing :=
  [⟨"alpha", [⟨"search", "Search the alpha index", .obj []⟩]⟩,
   ⟨"beta", [⟨"search", "Search the beta index", .obj []⟩]⟩]

/-- A client connected to `twoSearchServers`. -/
def twoSearchClient : MCPClient := ⟨.ok (listAllServers twoSearchServers), .ok ()⟩

/-- A remote tool whose `invoke` rejects with the message `connection lost`. -/
def failingInvoke : JSValue → Except JSError JSValue :=
  fun _ => .error (.other "connection lost")

/-- A remote tool whose `invoke` resolves to `undefined`. -/
def voidInvoke : JSValue → Except JSError JSValue :=
  fun _ => .ok .undefined

/-- A text serialization that is of no consequence in the samples. -/
def sampleSerialize : JSValue → String :=
  fun _ => "null"

/-- A command that fails with a message on both streams. -/
def failedCommand : ExecError :=
  ⟨"Command failed: codemie frobnicate \nerror: unknown command",
    some "Usage: codemie [options]\n", some "error: unknown command\n"⟩

/-- An `execSync` that fails with `failedCommand` on every call. -/
def failingExec : ExecRequest → ExecOutcome :=
  fun _ => .failure failedCommand

/-- A `close` that raises. -/
def raisingClose : MCPClient → Except JSError Unit :=
  fun _ => .error (.other "transport already closed")

/-- A run that delivers an `error` event and then rejects with the same error. -/
def errorThenRejectRun : String → ChatStreamRun :=
  fun _ => ⟨[.thinking_start, .error "Model request failed"],
    .error (.other "Model request failed")⟩

/-- A run that delivers text and `complete`, then returns. -/
def completedRun : String → ChatStreamRun :=
  fun _ => ⟨[.thinking_start, .thinking_end, .content_chunk "4", .complete], .ok ()⟩

/-! ### Sample data for the registry and the descriptions -/

/-- Two local sources that both list a descriptor named `read_file`; no MCP
server is configured. -/
def duplicateLocalEnv : InitEnvironment :=
  { healthyEnv with
    commandTools := .ok [⟨"read_file", "Read a file through the shell"⟩]
    globalFile := .unreadable }

/-- A property with a description, declared `integer` and not required. -/
def describedProps : List (String × JSValue) :=
  [("limit", .obj [("type", .str "integer"), ("description", .str "Maximum number of rows")])]

/-- Schema over `describedProps` with an empty required-list. -/
def describedSchema : JSValue :=
  .obj [("type", .str "object"), ("properties", .obj describedProps), ("required", .arr [])]

/-- Schema whose only property has the empty text as description. -/
def emptyDescriptionSchema : JSValue :=
  .obj [("type", .str "object"),
        ("properties", .obj [("q", .obj [("type", .str "string"), ("description", .str "")])]),
        ("required", .arr [.str "q"])]

/-! ## The unified diff of `diff-utils.ts` -/

/-- The backtick character. -/
def backtick : Char := Char.ofNat 96

/-- Lengths of the matches of the regular expression made of one or more
backticks, with the global flag: the maximal runs of backticks, left to right.
`run` is the length of the run being read. -/
def backtickRunsAux : Nat → List Char → List Nat
  | run, [] => if run = 0 then [] else [run]
  | run, c :: rest =>
    if c = backtick then backtickRunsAux (run + 1) rest
    else if run = 0 then backtickRunsAux 0 rest
    else run :: backtickRunsAux 0 rest

/-- The lengths `m.length` of the elements of `patch.match(...) || []`. -/
def backtickRuns (patch : String) : List Nat :=
  backtickRunsAux 0 patch.toList

/-- The expression `(...).reduce((max, m) => Math.max(max, m.length), 0)`. -/
def longestBacktickRun (patch : String) : Nat :=
  (backtickRuns patch).foldl max 0

/-- The constant `numBackticks` of `createUnifiedDiff`. -/
def numBackticks (patch : String) : Nat :=
  max 3 (longestBacktickRun patch + 1)

/-- The constant `fence`: the backtick repeated `numBackticks` times. -/
def fence (patch : String) : String :=
  String.mk (List.replicate (numBackticks patch) backtick)

/-- Source: `createUnifiedDiff` (diff-utils.ts lines 3-21). `createPatch` is the
function of the `diff` package; it is called with the file path, the two
contents and the two headers. -/
def createUnifiedDiff (createPatch : String → String → String → String → String → String)
    (oldContent newContent filePath : String) : String :=
  let patch := createPatch filePath oldContent newContent "original" "modified"
  fence patch ++ "diff\n" ++ patch ++ fence patch ++ "\n\n"

/-! ## The helper `exec` of `utils/exec.ts` -/

/-- What happens after `spawn`, in order of occurrence: a chunk on the standard
output or the standard error of the child, the `error` event with the message of
its error, the `close` event with the exit code (`none` for `null`: the process
was ended by a signal), and the expiry of the timer. -/
inductive ChildEvent where
  | stdoutData (chunk : String) : ChildEvent
  | stderrData (chunk : String) : ChildEvent
  | error (message : String) : ChildEvent
  | close (code : Option Int) : ChildEvent
  | timerFired : ChildEvent
  deriving DecidableEq

/-- The interface `ExecResult`. -/
structure ExecResult where
  code : Int
  stdout : String
  stderr : String
  deriving DecidableEq

/-- The variables of the promise executor of `exec`: the two buffers, whether
the timer is pending (`timeoutId` holds a timer that has not fired), and how the
promise has been settled, if it has. -/
structure ExecState where
  stdout : String
  stderr : String
  timerPending : Bool
  settled : Option (Except String ExecResult)

/-- The calls `resolve(...)` and `reject(...)`: only the first one settles the
promise. -/
def ExecState.settle (st : ExecState) (outcome : Except String ExecResult) : ExecState :=
  match st.settled with
  | none => { st with settled := some outcome }
  | some _ => st

/-- The function `cleanup`: the pending timer is cleared. -/
def ExecState.cleanup (st : ExecState) : ExecState :=
  { st with timerPending := false }

/-- The test `if (options.timeout)`: a timer is set for a defined, non-zero
timeout. -/
def timeoutSet (timeout : Option Nat) : Bool :=
  match timeout with
  | some t => t != 0
  | none => false

/-- The state after `spawn` and the optional `setTimeout`. -/
def execStart (timeout : Option Nat) : ExecState :=
  ⟨"", "", timeoutSet timeout, none⟩

/-- The listeners of `exec`, one event at a time. A rejection is recorded by the
message of its `Error`. The timer fires only while it is pending. -/
def execStep (command : String) (timeout : Option Nat) (st : ExecState) :
    ChildEvent → ExecState
  | .stdoutData chunk => { st with stdout := st.stdout ++ chunk }
  | .stderrData chunk => { st with stderr := st.stderr ++ chunk }
  | .error message =>
    st.cleanup.settle (.error ("Failed to execute " ++ command ++ ": " ++ message))
  | .close code =>
    st.cleanup.settle (.ok ⟨code.getD 0, jsTrim st.stdout, jsTrim st.stderr⟩)
  | .timerFired =>
    if st.timerPending then
      { st with timerPending := false }.settle
        (.error ("Command timed out after " ++ toString (timeout.getD 0) ++ "ms"))
    else st

/-- Source: `exec` (exec.ts lines 15-69), as a function of the events that
follow `spawn`: `none` while the promise is pending, `some (.ok result)` when it
is resolved, `some (.error message)` when it is rejected. -/
def exec (command : String) (timeout : Option Nat) (events : List ChildEvent) :
    Option (Except String ExecResult) :=
  (events.foldl (execStep command timeout) (execStart timeout)).settled

/-- The event is a chunk of data on one of the two streams. -/
def ChildEvent.isData : ChildEvent → Bool
  | .stdoutData _ => true
  | .stderrData _ => true
  | _ => false

/-- The chunks received on the standard output, concatenated in arrival order. -/
def stdoutOf : List ChildEvent → String
  | [] => ""
  | .stdoutData chunk :: rest => chunk ++ stdoutOf rest
  | _ :: rest => stdoutOf rest

/-- The chunks received on the standard error, concatenated in arrival order. -/
def stderrOf : List ChildEvent → String
  | [] => ""
  | .stderrData chunk :: rest => chunk ++ stderrOf rest
  | _ :: rest => stderrOf rest

/-- A child that writes to both streams and exits with code 2. -/
def failingChildEvents : List ChildEvent :=
  [.stdoutData " he", .stderrData "warn\n", .stdoutData "llo\n", .close (some 2)]

/-! ## Non-interactive execution: `executeNonInteractive` -/

/-- One write of the program. `console.log` and `process.stdout.write` write to
the standard output, `console.error` and `process.stderr.write` to the standard
error. The colours that `chalk` adds are left out. -/
inductive Printed where
  | out (text : String) : Printed
  | err (text : String) : Printed
  deriving DecidableEq

/-- The call `console.log(...args)` on texts: the arguments joined by a blank,
then a newline. -/
def consoleLog (args : List String) : Printed :=
  .out (" ".intercalate args ++ "\n")

/-- The call `console.error(...args)` on texts. -/
def consoleError (args : List String) : Printed :=
  .err (" ".intercalate args ++ "\n")

/-- The method `split` with a one-character separator, on the characters of the
text: the pieces between the separators; one empty piece for the empty text. -/
def splitOnChar (sep : Char) : List Char → List (List Char)
  | [] => [[]]
  | c :: rest =>
    if c = sep then [] :: splitOnChar sep rest
    else
      match splitOnChar sep rest with
      | [] => [[c]]
      | piece :: pieces => (c :: piece) :: pieces

/-- The call `text.split('\n')`. -/
def splitLines (text : String) : List String :=
  (splitOnChar (Char.ofNat 10) text.toList).map String.mk

/-- The method `split(/\s+/)` on the characters of the text: the pieces between
the maximal runs of whitespace. `inRun` tells that the previous character was
whitespace. -/
def splitWhitespaceAux : Bool → List Char → List (List Char)
  | _, [] => [[]]
  | inRun, c :: rest =>
    if isJSWhitespace c then
      if inRun then splitWhitespaceAux true rest else [] :: splitWhitespaceAux true rest
    else
      match splitWhitespaceAux false rest with
      | [] => [[c]]
      | piece :: pieces => (c :: piece) :: pieces

/-- The call `text.split(/\s+/)`. -/
def splitWhitespace (text : String) : List String :=
  (splitWhitespaceAux false text.toList).map String.mk

/-- The variables `hasOutput`, `hasError` and `isThinking` of
`executeNonInteractive`. -/
structure RenderFlags where
  hasOutput : Bool
  hasError : Bool
  isThinking : Bool
  deriving DecidableEq

/-- The text `'\r\x1b[K'` that clears the current line. -/
def clearLine : String := "\r\x1b[K"

/-- The block `if (isThinking) ...` that clears the thinking indicator. -/
def clearThinking (flags : RenderFlags) : RenderFlags × List Printed :=
  if flags.isThinking then ({ flags with isThinking := false }, [.err clearLine])
  else (flags, [])

/-- The expression `Object.values(toolArgs || \x7b\x7d).join(', ')`. An element that is
`null` or `undefined` gives the empty text; `display` gives the text of any other
value. -/
def renderToolArgs (display : JSValue → String) (toolArgs : JSValue) : String :=
  let source := if toolArgs.truthy then toolArgs else .obj []
  let values := match objectEntries source with
    | .ok entries => entries.map Prod.snd
    | .error _ => []
  ", ".intercalate (values.map fun v => if v.isNullish then "" else display v)

/-- The case `tool_call_result` of the event handler (source lines 293-307):
the first five lines of the result, then the count of the lines left out, then
an empty line. -/
def renderToolResult (result : Option String) : List Printed :=
  let lines := match result with
    | some text => splitLines text
    | none => []
  let maxLines := 5
  let displayLines := lines.take maxLines
  [consoleLog ["  ⎿", displayLines.head?.getD ""]]
    ++ (displayLines.drop 1).map (fun line => consoleLog ["    ", line])
    ++ (if lines.length > maxLines then
          [consoleLog ["     … +" ++ toString (lines.length - maxLines) ++ " lines"]]
        else [])
    ++ [consoleLog []]

/-- The event handler passed to `chatStream` (source lines 256-341): the flags
after the event and what the event makes the handler write. -/
def renderEvent (display : JSValue → String) (flags : RenderFlags) :
    StreamEvent → RenderFlags × List Printed
  | .thinking_start =>
    if !flags.isThinking then ({ flags with isThinking := true }, [.err "(thinking...)"])
    else (flags, [])
  | .thinking_end => clearThinking flags
  | .content_chunk content =>
    let cleared := clearThinking flags
    ({ cleared.1 with hasOutput := true }, cleared.2 ++ [.out content])
  | .tool_call_start toolName toolArgs =>
    let cleared := clearThinking flags
    (cleared.1, cleared.2 ++
      [consoleLog [], consoleLog ["⏺", toolName ++ "(" ++ renderToolArgs display toolArgs ++ ")"]])
  | .tool_call_result _ result => (flags, renderToolResult result)
  | .tool_call_error _ error => (flags, [consoleLog ["⏺ Error:", error], consoleLog []])
  | .complete =>
    let cleared := clearThinking flags
    (cleared.1, cleared.2 ++ (if cleared.1.hasOutput then [consoleLog []] else []))
  | .error error =>
    let cleared := clearThinking { flags with hasError := true }
    (cleared.1, cleared.2 ++ [consoleError ["Error:", error]])
  | .cancelled =>
    let cleared := clearThinking flags
    (cleared.1, cleared.2 ++ [consoleLog [], consoleLog ["Execution cancelled."]])

/-- The handler applied to the events of a run, in order. -/
def renderEvents (display : JSValue → String) :
    RenderFlags → List StreamEvent → RenderFlags × List Printed
  | flags, [] => (flags, [])
  | flags, event :: rest =>
    let step := renderEvent display flags event
    let more := renderEvents display step.1 rest
    (more.1, step.2 ++ more.2)

/-- How `executeNonInteractive` ends the process: what it has written and the
code passed to `process.exit`. -/
structure ProcessExit where
  printed : List Printed
  exitCode : Nat
  deriving DecidableEq

/-- The branch of `executeNonInteractive` for a task that starts with a slash
(source lines 217-235). -/
def runSlashTask (execSync : ExecRequest → ExecOutcome) (task : String) : ProcessExit :=
  let parts := splitWhitespace (String.mk (task.toList.drop 1))
  let command := parts.headD ""
  let args := parts.drop 1
  let header :=
    [consoleLog ["Executing command: /" ++ command ++ " " ++ " ".intercalate args], consoleLog []]
  match CodeMieCode.executeSlashCommand execSync command args with
  | .ok result => ⟨header ++ [consoleLog [result]], 0⟩
  | .error error => ⟨header ++ [consoleError ["Error:", error.message]], 1⟩

/-- The branch of `executeNonInteractive` for an agent task (source lines
237-362). The message that the `SIGINT` handler writes is left out. -/
def runAgentTask (chatStream : String → ChatStreamRun) (display : JSValue → String)
    (task : String) : ProcessExit :=
  let header := [consoleLog ["Task:", task], consoleLog []]
  let run := chatStream task
  let rendered := renderEvents display ⟨false, false, false⟩ run.events
  match run.outcome with
  | .ok _ => ⟨header ++ rendered.2, if rendered.1.hasError then 1 else 0⟩
  | .error error =>
    let cleared : List Printed := if rendered.1.isThinking then [.err clearLine] else []
    if error.message = "Execution cancelled by user" then
      ⟨header ++ rendered.2 ++ cleared, 130⟩
    else
      ⟨header ++ rendered.2 ++ cleared ++ [consoleError ["Error:", error.message]], 1⟩

/-- Source: `CodeMieCode.executeNonInteractive` (source lines 212-363). `agent`
is the `chatStream` of the agent, `none` before `initialize`. -/
def CodeMieCode.executeNonInteractive (agent : Option (String → ChatStreamRun))
    (execSync : ExecRequest → ExecOutcome) (display : JSValue → String) (task : String) :
    Except JSError ProcessExit :=
  match agent with
  | none => .error (.other "Agent not initialized. Call initialize() first.")
  | some chatStream =>
    if task.toList.head? = some (Char.ofNat 47) then .ok (runSlashTask execSync task)
    else .ok (runAgentTask chatStream display task)

/-- The pieces joined by the separator, as `join` does on the characters. -/
def joinChars (sep : List Char) : List (List Char) → List Char
  | [] => []
  | [piece] => piece
  | piece :: pieces => piece ++ sep ++ joinChars sep pieces

/-- The event is an `error` event. -/
def StreamEvent.isError : StreamEvent → Bool
  | .error _ => true
  | _ => false

/-- A result of seven lines. -/
def sevenLines : String := "a\nb\nc\nd\ne\nf\ng"

/-- A run that is cancelled: `chatStream` delivers `cancelled` and returns. -/
def cancelledRun : ChatStreamRun :=
  ⟨[.thinking_start, .content_chunk "Looking", .cancelled], .ok ()⟩

/-- An `execSync` that prints the command line it is given. -/
def echoExec : ExecRequest → ExecOutcome :=
  fun request => .success request.commandLine

/-! ## The session history -/

/-- Modelled from the spec: the role of a `Message` (section 3). The module of
the agent, which keeps the session history, is not among the sources. -/
inductive Role where
  | user : Role
  | assistant : Role
  | tool : Role
  | system : Role
  deriving DecidableEq

/-- Modelled from the spec: a `Message` of the session history (section 3), with
its role and its content; the timestamp is left out. -/
structure Message where
  role : Role
  content : String
  deriving DecidableEq

/-- Modelled from the spec: what is finalised during a turn before its final
answer (section 4.4): an assistant text fragment or a tool outcome. -/
inductive TurnItem where
  | assistantText (text : String) : TurnItem
  | toolOutcome (text : String) : TurnItem

/-- Modelled from the spec: the message appended for a finalised item: role
`assistant` for a text fragment, role `tool` for a tool outcome. -/
def TurnItem.toMessage : TurnItem → Message
  | .assistantText text => ⟨.assistant, text⟩
  | .toolOutcome text => ⟨.tool, text⟩

/-- Modelled from the spec: what the model and the tools do in one turn: the
items finalised in chronological order, and the end of the turn, which is the
final answer or the failure of the model client (section 7, fatal). -/
structure TurnScript where
  items : List TurnItem
  final : Except JSError String

/-- Modelled from the spec: the `chat` of the agent (section 4.4). The user
message is appended first, then every finalised item in order, then the final
answer as an assistant message; a failure of the model client is thrown after
what was finalised. The result is the history afterwards and the outcome. -/
def agentChat (script : TurnScript) (history : List Message) (message : String) :
    List Message × Except JSError String :=
  let started := history ++ [⟨.user, message⟩] ++ script.items.map TurnItem.toMessage
  match script.final with
  | .ok answer => (started ++ [⟨.assistant, answer⟩], .ok answer)
  | .error error => (started, .error error)

/-- Source: `CodeMieCode.chat` (index.ts lines 204-210): it throws when there is
no agent and forwards to the `chat` of the agent otherwise. `agent` is the
history of the agent, `none` before `initialize`. -/
def CodeMieCode.chat (agent : Option (List Message)) (script : TurnScript) (message : String) :
    Option (List Message) × Except JSError String :=
  match agent with
  | none => (none, .error (.other "Agent not initialized. Call initialize() first."))
  | some history =>
    let result := agentChat script history message
    (some result.1, result.2)

/-- Messages submitted one after another through `CodeMieCode.chat`, each with
the script of its turn: the history of the agent afterwards. -/
def chatAll : Option (List Message) → List (String × TurnScript) → Option (List Message)
  | agent, [] => agent
  | agent, turn :: rest => chatAll (CodeMieCode.chat agent turn.2 turn.1).1 rest

/-- The contents of `history.filter(m => m.role === 'user')`, as the test of the
conversation flow reads them. -/
def userMessages (history : List Message) : List String :=
  (history.filter fun m => m.role = Role.user).map fun m => m.content

/-- The three turns of the test of the conversation flow; the third one calls a
tool. -/
def threeTurns : List (String × TurnScript) :=
  [("What is 2+2?", ⟨[], .ok "4"⟩),
   ("What is the capital of France?", ⟨[], .ok "Paris"⟩),
   ("List the files in the current directory", ⟨[.assistantText "Listing the files", .toolOutcome "README.md"],
      .ok "There is one file"⟩)]

/-! # Theorems -/

/-! ## Property lists -/

theorem setKey_fresh {α : Type} (acc : List (String × α)) (k : String) (v : α)
    (h : k ∉ acc.map Prod.fst) : setKey acc k v = acc ++ [(k, v)] := by
  induction acc with
  | nil => rfl
  | cons p rest ih =>
    obtain ⟨k1, w⟩ := p
    simp only [List.map_cons, List.mem_cons, not_or] at h
    have hne : ¬ k1 = k := fun e => h.1 e.symm
    simp [setKey, hne, ih h.2]

theorem lookupProp_fresh (acc : List (String × JSValue)) (k : String)
    (h : k ∉ acc.map Prod.fst) : lookupProp acc k = .undefined := by
  induction acc with
  | nil => rfl
  | cons p rest ih =>
    obtain ⟨k1, w⟩ := p
    simp only [List.map_cons, List.mem_cons, not_or] at h
    have hne : (k == k1) = false := by simpa using h.1
    have := ih h.2
    simp only [lookupProp, List.lookup, hne] at this ⊢
    exact this

theorem foldl_setKey_distinct (es acc : List (String × JSValue))
    (h : DistinctKeys (acc ++ es)) :
    es.foldl (fun a p => setKey a p.1 p.2) acc = acc ++ es := by
  induction es generalizing acc with
  | nil => simp
  | cons p rest ih =>
    have hk : p.1 ∉ acc.map Prod.fst := by
      unfold DistinctKeys at h
      simp only [List.map_append, List.map_cons] at h
      have := (List.nodup_append.mp h).2.2
      intro hm
      exact this hm (List.mem_cons_self _ _)
    simp only [List.foldl_cons]
    rw [setKey_fresh acc p.1 p.2 hk, ih]
    · simp
    · simpa using h

theorem objectPrototypeMember_truthy (receiver : JSValue) (name : String)
    (hr : receiver.truthy = true) (h : name ∈ objectPrototypeNames) :
    (objectPrototypeMember receiver name).truthy = true := by
  unfold objectPrototypeMember
  split
  · exact hr
  · split
    · rfl
    · simp [h, JSValue.truthy]

theorem objectPrototypeMember_plain (receiver : JSValue) (name : String)
    (h : name ∉ objectPrototypeNames) : objectPrototypeMember receiver name = .undefined := by
  have h1 : name ≠ "__proto__" := fun e => h (e ▸ by decide)
  have h2 : name ≠ "constructor" := fun e => h (e ▸ by decide)
  simp [objectPrototypeMember, h1, h2, h]

theorem lookup_eq_none_of_not_mem (acc : List (String × JSValue)) (k : String)
    (h : k ∉ acc.map Prod.fst) : acc.lookup k = none := by
  induction acc with
  | nil => rfl
  | cons p rest ih =>
    obtain ⟨k1, w⟩ := p
    simp only [List.map_cons, List.mem_cons, not_or] at h
    have hne : (k == k1) = false := by simpa using h.1
    simp only [List.lookup, hne]
    exact ih h.2

theorem readComputed_own (props : List (String × JSValue)) (proto : Prototype) (k : String)
    (h : k ∈ props.map Prod.fst) : readComputed props proto k = lookupProp props k := by
  have : ∃ v, props.lookup k = some v := by
    induction props with
    | nil => simp at h
    | cons p rest ih =>
      obtain ⟨k1, w⟩ := p
      by_cases hk : k = k1
      · subst hk
        exact ⟨w, by simp [List.lookup]⟩
      · have hb : (k == k1) = false := by simpa using hk
        simp only [List.map_cons, List.mem_cons, hk, false_or] at h
        simpa [List.lookup, hb] using ih h
  obtain ⟨v, hv⟩ := this
  simp [readComputed, lookupProp, hv]

theorem readComputed_standard_fresh (acc : List (String × JSValue)) (k : String)
    (h : k ∉ acc.map Prod.fst) :
    readComputed acc .standard k = objectPrototypeMember (.obj []) k := by
  simp [readComputed, lookup_eq_none_of_not_mem acc k h]

theorem readComputed_standard_plain (props : List (String × JSValue)) (k : String)
    (h : k ∉ objectPrototypeNames) : readComputed props .standard k = lookupProp props k := by
  unfold readComputed lookupProp
  cases props.lookup k with
  | some v => rfl
  | none => simp [objectPrototypeMember_plain _ k h]

theorem foldl_bundled_distinct (es acc : List (String × JSValue))
    (h : DistinctKeys (acc ++ es)) :
    es.foldl
      (fun a p => if !(readComputed a .standard p.1).truthy then setKey a p.1 p.2 else a) acc
      = acc ++ es.filter (fun p => !decide (p.1 ∈ objectPrototypeNames)) := by
  induction es generalizing acc with
  | nil => simp
  | cons p rest ih =>
    have hk : p.1 ∉ acc.map Prod.fst := by
      unfold DistinctKeys at h
      simp only [List.map_append, List.map_cons] at h
      have := (List.nodup_append.mp h).2.2
      intro hm
      exact this hm (List.mem_cons_self _ _)
    simp only [List.foldl_cons]
    rw [readComputed_standard_fresh acc p.1 hk]
    by_cases hp : p.1 ∈ objectPrototypeNames
    · have ht : (!(objectPrototypeMember (.obj []) p.1).truthy) = false := by
        rw [objectPrototypeMember_truthy (.obj []) p.1 rfl hp]
        rfl
      rw [ht]
      simp only [Bool.false_eq_true, if_false, List.filter_cons, hp, decide_True, Bool.not_true]
      apply ih
      unfold DistinctKeys at h ⊢
      simp only [List.map_append, List.map_cons] at h ⊢
      exact (List.nodup_append.mpr ⟨(List.nodup_append.mp h).1,
        ((List.nodup_cons.mp (List.nodup_append.mp h).2.1).2),
        fun a ha hb => (List.nodup_append.mp h).2.2 ha (List.mem_cons_of_mem _ hb)⟩)
    · have ht : (!(objectPrototypeMember (.obj []) p.1).truthy) = true := by
        rw [objectPrototypeMember_plain _ _ hp]
        rfl
      rw [if_pos ht, setKey_fresh acc p.1 p.2 hk, ih]
      · simp [List.filter_cons, hp]
      · simpa using h

theorem filter_not_proto (es : List (String × JSValue)) (h : "__proto__" ∉ es.map Prod.fst) :
    es.filter (fun p => p.1 != "__proto__") = es := by
  apply List.filter_eq_self.mpr
  intro p hp
  have : p.1 ≠ "__proto__" := fun e => h (e ▸ List.mem_map_of_mem _ hp)
  simpa using this

theorem filter_not_member (es : List (String × JSValue))
    (h : ∀ p ∈ es, p.1 ∉ objectPrototypeNames) :
    es.filter (fun p => !decide (p.1 ∈ objectPrototypeNames)) = es := by
  apply List.filter_eq_self.mpr
  intro p hp
  simpa using h p hp

theorem distinctKeys_filter (es : List (String × JSValue)) (f : String × JSValue → Bool)
    (h : DistinctKeys es) : DistinctKeys (es.filter f) := by
  unfold DistinctKeys at h ⊢
  exact List.Nodup.sublist ((List.filter_sublist es).map Prod.fst) h

theorem injectConfig_ok (E : ProcessEnv) (c : JSValue) (h : c.isNullish = false) :
    ∃ c1, injectConfig E c = .ok c1 := by
  cases c <;> simp [JSValue.isNullish] at h <;>
    simp only [injectConfig, JSValue.getField, bind, Except.bind, pure, Except.pure]
  all_goals first
    | exact ⟨_, rfl⟩
    | (split <;> exact ⟨_, rfl⟩)

theorem injectAll_ok (E : ProcessEnv) (l : List (String × JSValue))
    (h : ∀ p ∈ l, p.2.isNullish = false) :
    ∃ r, injectAll E l = .ok r ∧ r.map Prod.fst = l.map Prod.fst ∧
      ∀ name ∈ l.map Prod.fst, injectConfig E (lookupProp l name) = .ok (lookupProp r name) := by
  induction l with
  | nil => exact ⟨[], rfl, rfl, by simp⟩
  | cons p rest ih =>
    obtain ⟨k, c⟩ := p
    obtain ⟨c1, hc1⟩ := injectConfig_ok E c (h (k, c) (List.mem_cons_self _ _))
    obtain ⟨r, hr, hkeys, hlook⟩ := ih (fun q hq => h q (List.mem_cons_of_mem _ hq))
    refine ⟨(k, c1) :: r, ?_, ?_, ?_⟩
    · simp [injectAll, hc1, hr]
    · simp [hkeys]
    · intro name hname
      by_cases hn : name = k
      · subst hn
        simpa [lookupProp, List.lookup] using hc1
      · have hb : (name == k) = false := by simpa using hn
        have hmem : name ∈ rest.map Prod.fst := by
          simp only [List.map_cons, List.mem_cons] at hname
          rcases hname with h1 | h1
          · exact absurd h1 hn
          · exact h1
        have := hlook name hmem
        simpa [lookupProp, List.lookup, hb] using this

theorem injectConfig_noEnv (E : ProcessEnv) (c env : JSValue)
    (h : c.getField "env" = .ok env) (hf : env.truthy = false) :
    injectConfig E c = .ok c := by
  simp [injectConfig, h, hf, bind, Except.bind, pure, Except.pure]

theorem loadGlobal_of_servers (g : JSValue) (servers : List (String × JSValue))
    (hg : g.getField "mcpServers" = .ok (.obj servers)) (hne : servers ≠ [])
    (hd : DistinctKeys servers) :
    loadGlobal ⟨[], false, .standard⟩ (.parsed g)
      = .ok ⟨servers.filter (fun p => p.1 != "__proto__"), true,
          assignedPrototype .standard (.obj servers)⟩ := by
  have hlen : 0 < servers.length := List.length_pos.mpr hne
  simp only [loadGlobal, readJSON, hg, bind, Except.bind, JSValue.truthy, if_true, objectKeys,
    objectEntries, Except.map, List.length_map, gt_iff_lt, hlen, pure, Except.pure, objectAssign]
  rw [foldl_setKey_distinct _ [] (by simpa using distinctKeys_filter servers _ hd)]
  rfl

theorem selectConfigs_global (g : JSValue) (bundledFile : ConfigFile)
    (servers : List (String × JSValue))
    (hg : g.getField "mcpServers" = .ok (.obj servers)) (hne : servers ≠ [])
    (hd : DistinctKeys servers) :
    selectConfigs (.parsed g) bundledFile = servers.filter (fun p => p.1 != "__proto__") := by
  simp [selectConfigs, loadGlobal_of_servers g servers hg hne hd]

theorem loadGlobal_none (g : ConfigFile) (h : GlobalDefinesNone g) (st : LoadState) :
    (match loadGlobal st g with
      | .ok st1 => st1
      | .error _ => st) = st := by
  cases h with
  | unreadable => rfl
  | unparseable => rfl
  | notAnObject v e h => simp [loadGlobal, readJSON, h, bind, Except.bind]
  | noProviderMap v m h hf => simp [loadGlobal, readJSON, h, hf, bind, Except.bind, pure, Except.pure]
  | emptyProviderMap v m h hk =>
    by_cases ht : m.truthy = true
    · simp [loadGlobal, readJSON, h, ht, hk, bind, Except.bind, pure, Except.pure]
    · simp [loadGlobal, readJSON, h, ht, bind, Except.bind, pure, Except.pure]

theorem selectConfigs_fallback (g b : ConfigFile) (bs : List (String × JSValue))
    (hg : GlobalDefinesNone g) (hb : BundledProviders b bs) :
    selectConfigs g b = bs.filter (fun p => !decide (p.1 ∈ objectPrototypeNames)) := by
  have h1 := loadGlobal_none g hg ⟨[], false, .standard⟩
  simp only [selectConfigs, h1, Bool.not_false, if_true]
  cases hb with
  | unreadable => rfl
  | unparseable => rfl
  | notAnObject v e h => simp [loadBundled, readJSON, h, bind, Except.bind]
  | noProviderMap v m h hf => simp [loadBundled, readJSON, h, hf, bind, Except.bind, pure, Except.pure]
  | providerMap v m _ h ht he hd =>
    simp only [loadBundled, readJSON, h, ht, he, bind, Except.bind, pure, Except.pure, if_true]
    rw [foldl_bundled_distinct bs [] (by simpa using hd)]
    rfl

theorem selectPrototype_fallback (g : ConfigFile) (hg : GlobalDefinesNone g) :
    selectPrototype g = .standard := by
  have h1 := loadGlobal_none g hg ⟨[], false, .standard⟩
  unfold selectPrototype
  cases h : loadGlobal ⟨[], false, .standard⟩ g with
  | error e => rfl
  | ok st =>
    rw [h] at h1
    simp only at h1
    rw [h1]

theorem spanName_append (name tail : List Char) (h : rbrace ∉ name) :
    spanName (name ++ rbrace :: tail) = (name, rbrace :: tail) := by
  induction name with
  | nil => simp [spanName]
  | cons c rest ih =>
    simp only [List.mem_cons, not_or] at h
    have hc : ¬ c = rbrace := fun e => h.1 e.symm
    simp [spanName, hc, ih h.2]

theorem spanName_split (l : List Char) :
    l = (spanName l).1 ++ (spanName l).2 ∧ rbrace ∉ (spanName l).1 ∧
      ((spanName l).2 = [] ∨ ∃ t, (spanName l).2 = rbrace :: t) := by
  induction l with
  | nil => simp [spanName]
  | cons c rest ih =>
    by_cases hc : c = rbrace
    · simp [spanName, hc]
    · obtain ⟨h1, h2, h3⟩ := ih
      simp only [spanName, hc, if_false]
      refine ⟨by simpa using h1, ?_, h3⟩
      simp only [List.mem_cons, not_or]
      exact ⟨fun e => hc e.symm, h2⟩

theorem matchPlaceholder_of (s name tail : List Char) (h : PlaceholderAt s name tail) :
    matchPlaceholder s = some name := by
  obtain ⟨hs, hne, hnot⟩ := h
  subst hs
  simp [matchPlaceholder, spanName_append name tail hnot, hne]

theorem matchPlaceholder_some (s name : List Char) (h : matchPlaceholder s = some name) :
    ∃ tail, PlaceholderAt s name tail := by
  match s, h with
  | c :: d :: body, h =>
    simp only [matchPlaceholder] at h
    split at h
    · rename_i hcd
      obtain ⟨h1, h2, h3⟩ := spanName_split body
      split at h
      · rename_i nm e t heq
        split at h
        · rename_i hcond
          simp only [Option.some.injEq] at h
          subst h
          rw [heq] at h1 h2
          refine ⟨t, ?_, hcond.1, h2⟩
          simp only at h1
          rw [hcd.1, hcd.2, h1, hcond.2]
        · exact absurd h (by simp)
      · exact absurd h (by simp)
    · exact absurd h (by simp)

theorem replacePlaceholders_skip (E : ProcessEnv) (k : Nat) (l : List Char) :
    replacePlaceholders E k l = replacePlaceholders E 0 (l.drop k) := by
  induction k generalizing l with
  | zero => simp
  | succ n ih =>
    cases l with
    | nil => simp [replacePlaceholders]
    | cons c rest => simp [replacePlaceholders, ih rest]

theorem replacePlaceholders_match (E : ProcessEnv) (s name tail : List Char)
    (h : PlaceholderAt s name tail) :
    replacePlaceholders E 0 s = envOrEmpty E name ++ replacePlaceholders E 0 tail := by
  have hm := matchPlaceholder_of s name tail h
  obtain ⟨hs, -, -⟩ := h
  subst hs
  rw [replacePlaceholders, hm]
  simp only
  rw [replacePlaceholders_skip]
  congr 2
  simp [List.drop_append]

theorem replacePlaceholders_noMatch (E : ProcessEnv) (s : List Char)
    (h : ∀ pre suf, s = pre ++ suf → matchPlaceholder suf = none) :
    replacePlaceholders E 0 s = s := by
  induction s with
  | nil => rfl
  | cons c rest ih =>
    have h0 : matchPlaceholder (c :: rest) = none := h [] (c :: rest) rfl
    rw [replacePlaceholders, h0]
    simp only
    rw [ih (fun pre suf hps => h (c :: pre) suf (by simp [hps]))]

theorem replacePlaceholders_leftmost (E : ProcessEnv) (pre rest name tail : List Char)
    (hleft : ∀ p q, pre = p ++ q → q ≠ [] → matchPlaceholder (q ++ rest) = none)
    (hm : PlaceholderAt rest name tail) :
    replacePlaceholders E 0 (pre ++ rest)
      = pre ++ (envOrEmpty E name ++ replacePlaceholders E 0 tail) := by
  induction pre with
  | nil => simpa using replacePlaceholders_match E rest name tail hm
  | cons c pre1 ih =>
    have h0 : matchPlaceholder (c :: (pre1 ++ rest)) = none :=
      hleft [] (c :: pre1) rfl (by simp)
    rw [List.cons_append, replacePlaceholders, h0]
    simp only
    rw [ih (fun p q hpq hq => hleft (c :: p) q (by simp [hpq]) hq)]
    rfl

theorem envOrEmpty_eq (E : ProcessEnv) (name : String) :
    envOrEmpty E name.toList = ((E name).getD (inheritedEnvText name)).toList := by
  unfold envOrEmpty
  have : String.mk name.toList = name := rfl
  rw [this]
  cases h : E name with
  | none => rfl
  | some v =>
    by_cases hv : v = ""
    · subst hv; rfl
    · simp [hv]

theorem placeholderAt_of_string (name tail : String) (h : IsPlaceholderName name) :
    PlaceholderAt ("$\x7b" ++ name ++ "\x7d" ++ tail).toList name.toList tail.toList := by
  refine ⟨?_, ?_, h.2⟩
  · have h1 : ("$\x7b" : String).toList = [dollar, lbrace] := by decide
    have h2 : ("\x7d" : String).toList = [rbrace] := by decide
    simp only [String.toList, String.data_append] at h1 h2 ⊢
    rw [h1, h2]
    simp
  · intro hn
    apply h.1
    have : String.mk name.toList = String.mk [] := by rw [hn]
    exact this

theorem beginsWithPlaceholder_of_match (s : String) (name : List Char)
    (h : matchPlaceholder s.toList = some name) : BeginsWithPlaceholder s := by
  obtain ⟨tail, hs, hne, hnot⟩ := matchPlaceholder_some s.toList name h
  refine ⟨String.mk name, String.mk tail, ⟨?_, hnot⟩, ?_⟩
  · intro hn
    apply hne
    have : (String.mk name).toList = ("" : String).toList := by rw [hn]
    exact this
  · have h1 : ("$\x7b" : String).toList = [dollar, lbrace] := by decide
    have h2 : ("\x7d" : String).toList = [rbrace] := by decide
    apply String.ext
    simp only [String.toList, String.data_append] at h1 h2 hs ⊢
    rw [hs, h1, h2]
    simp

theorem interpolateEnvVars_noPlaceholder (E : ProcessEnv) (s : String)
    (h : ∀ pre suf : String, s = pre ++ suf → ¬ BeginsWithPlaceholder suf) :
    MCPTools.interpolateEnvVars E s = s := by
  unfold MCPTools.interpolateEnvVars
  rw [replacePlaceholders_noMatch]
  · rfl
  · intro pre suf hps
    cases hm : matchPlaceholder suf with
    | none => rfl
    | some name =>
      exfalso
      refine h (String.mk pre) (String.mk suf) ?_ (beginsWithPlaceholder_of_match (String.mk suf) name hm)
      apply String.ext
      simpa [String.toList] using hps

theorem interpolateEnvVars_leftmost (E : ProcessEnv) (pre name tail : String)
    (hname : IsPlaceholderName name)
    (hleft : ∀ p q : String, pre = p ++ q → q ≠ "" →
      ¬ BeginsWithPlaceholder (q ++ ("$\x7b" ++ name ++ "\x7d" ++ tail))) :
    MCPTools.interpolateEnvVars E (pre ++ ("$\x7b" ++ name ++ "\x7d" ++ tail))
      = pre ++ (E name).getD (inheritedEnvText name) ++ MCPTools.interpolateEnvVars E tail := by
  have hm := placeholderAt_of_string name tail hname
  unfold MCPTools.interpolateEnvVars
  apply String.ext
  have hsplit : (pre ++ ("$\x7b" ++ name ++ "\x7d" ++ tail)).toList
      = pre.toList ++ ("$\x7b" ++ name ++ "\x7d" ++ tail).toList := by
    simp [String.toList]
  rw [hsplit, replacePlaceholders_leftmost E pre.toList _ name.toList tail.toList ?_ hm,
    envOrEmpty_eq]
  · simp [String.toList]
  · intro p q hpq hq
    cases hmq : matchPlaceholder (q ++ ("$\x7b" ++ name ++ "\x7d" ++ tail).toList) with
    | none => rfl
    | some nm =>
      exfalso
      refine hleft (String.mk p) (String.mk q) ?_ ?_ ?_
      · apply String.ext
        simpa [String.toList] using hpq
      · intro hq2
        apply hq
        have : (String.mk q).toList = ("" : String).toList := by rw [hq2]
        exact this
      · apply beginsWithPlaceholder_of_match _ nm
        have : (String.mk q ++ ("$\x7b" ++ name ++ "\x7d" ++ tail)).toList
            = q ++ ("$\x7b" ++ name ++ "\x7d" ++ tail).toList := by
          simp [String.toList]
        rw [this]
        exact hmq

theorem setKey_mid {α : Type} (a b : List (String × α)) (k : String) (w v : α)
    (h : k ∉ a.map Prod.fst) : setKey (a ++ (k, w) :: b) k v = a ++ (k, v) :: b := by
  induction a with
  | nil => simp [setKey]
  | cons p rest ih =>
    obtain ⟨k1, w1⟩ := p
    simp only [List.map_cons, List.mem_cons, not_or] at h
    have hne : ¬ k1 = k := fun e => h.1 e.symm
    simp [setKey, hne, ih h.2]

theorem injectEntry_mid (E : ProcessEnv) (a b : List (String × JSValue)) (p : String × JSValue)
    (h : p.1 ∉ a.map Prod.fst) :
    injectEntry E (a ++ p :: b) p = a ++ (p.1, injectElement E p.2) :: b := by
  obtain ⟨k, v⟩ := p
  cases v <;> simp only [injectEntry, injectElement]
  rename_i s
  by_cases hs : jsIncludes s "$\x7b" = true
  · simp only [hs, if_true]
    exact setKey_mid a b k _ _ h
  · simp [hs]

theorem foldl_injectEntry (E : ProcessEnv) (es a : List (String × JSValue))
    (h : DistinctKeys (a ++ es)) :
    es.foldl (injectEntry E) (a ++ es)
      = a ++ es.map (fun p => (p.1, injectElement E p.2)) := by
  induction es generalizing a with
  | nil => simp
  | cons p rest ih =>
    have hk : p.1 ∉ a.map Prod.fst := by
      unfold DistinctKeys at h
      simp only [List.map_append, List.map_cons] at h
      have := (List.nodup_append.mp h).2.2
      intro hm
      exact this hm (List.mem_cons_self _ _)
    simp only [List.foldl_cons, List.map_cons]
    rw [injectEntry_mid E a rest p hk]
    have := ih (a ++ [(p.1, injectElement E p.2)]) (by
      unfold DistinctKeys at h ⊢
      simpa using h)
    simpa using this

theorem injectEnvMap_obj (E : ProcessEnv) (envProps : List (String × JSValue))
    (h : DistinctKeys envProps) :
    injectEnvMap E (.obj envProps)
      = .obj (envProps.map (fun p => (p.1, injectElement E p.2))) := by
  have := foldl_injectEntry E envProps [] (by simpa using h)
  simp only [List.nil_append] at this
  simp [injectEnvMap, this]

theorem lookupProp_setKey_self (props : List (String × JSValue)) (k : String) (v : JSValue) :
    lookupProp (setKey props k v) k = v := by
  induction props with
  | nil => simp [setKey, lookupProp, List.lookup]
  | cons p rest ih =>
    obtain ⟨k1, w⟩ := p
    by_cases hk : k1 = k
    · subst hk
      simp [setKey, lookupProp, List.lookup]
    · have hb : (k == k1) = false := by simpa using fun e => hk e.symm
      simp only [setKey, hk, if_false]
      simp only [lookupProp, List.lookup, hb] at ih ⊢
      exact ih

theorem lookupProp_of_mem (props : List (String × JSValue)) (k : String) (v : JSValue)
    (hd : DistinctKeys props) (hm : (k, v) ∈ props) : lookupProp props k = v := by
  induction props with
  | nil => simp at hm
  | cons p rest ih =>
    obtain ⟨k1, w⟩ := p
    unfold DistinctKeys at hd
    simp only [List.map_cons, List.nodup_cons] at hd
    rcases List.mem_cons.mp hm with h1 | h1
    · cases h1
      simp [lookupProp, List.lookup]
    · have hne : ¬ k = k1 := by
        intro e
        subst e
        exact hd.1 (List.mem_map_of_mem Prod.fst h1)
      have hb : (k == k1) = false := by simpa using hne
      have := ih hd.2 h1
      simp only [lookupProp, List.lookup, hb] at this ⊢
      exact this

theorem injectConfig_env (E : ProcessEnv) (props envProps : List (String × JSValue))
    (henv : lookupProp props "env" = .obj envProps) (hd : DistinctKeys envProps) :
    injectConfig E (.obj props) = .ok (.obj (setKey props "env"
      (.obj (envProps.map (fun p => (p.1, injectElement E p.2)))))) := by
  simp [injectConfig, JSValue.getField, henv, JSValue.truthy, bind, Except.bind, pure,
    Except.pure, injectEnvMap_obj E envProps hd]

/-! ## Claims on `loadMCPConfigs` and `interpolateEnvVars` -/

/-- Support for C1: when the global source defines at least one provider (a
non-empty provider map whose entries are not `null`) and none of them is named
`__proto__`, `loadMCPConfigs` resolves, whatever the bundled source holds, to a
mapping whose provider names are exactly the global names, each bound to its
global definition as the final interpolation loop leaves it, and verbatim when
that definition has no `env`; in particular no bundled entry appears. -/
theorem loadMCPConfigs_global_exclusive (E : ProcessEnv) (bundledFile : ConfigFile)
    (g : JSValue) (servers : List (String × JSValue))
    (hg : g.getField "mcpServers" = .ok (.obj servers)) (hne : servers ≠ [])
    (hd : DistinctKeys servers) (hnn : ∀ p ∈ servers, p.2.isNullish = false)
    (hproto : "__proto__" ∉ servers.map Prod.fst) :
    ∃ result, MCPTools.loadMCPConfigs E (.parsed g) bundledFile = .ok result ∧
      result.map Prod.fst = servers.map Prod.fst ∧
      (∀ name ∈ servers.map Prod.fst,
        injectConfig E (lookupProp servers name) = .ok (lookupProp result name)) ∧
      (∀ name ∈ servers.map Prod.fst, ∀ env,
        (lookupProp servers name).getField "env" = .ok env → env.truthy = false →
          lookupProp result name = lookupProp servers name) := by
  obtain ⟨r, hr, hkeys, hlook⟩ := injectAll_ok E servers hnn
  refine ⟨r, ?_, hkeys, hlook, ?_⟩
  · unfold MCPTools.loadMCPConfigs
    rw [selectConfigs_global g bundledFile servers hg hne hd, filter_not_proto servers hproto]
    exact hr
  · intro name hname env henv hf
    have h1 := hlook name hname
    rw [injectConfig_noEnv E _ env henv hf] at h1
    exact (Except.ok.inj h1).symm

/-- The example of the specification: global `{serverA: X}`, bundled
`{serverA: Y, serverB: Z}`. -/
theorem loadMCPConfigs_global_exclusive_witness :
    sampleGlobal.getField "mcpServers" = .ok (.obj [("serverA", sampleX)]) ∧
    ∃ result, MCPTools.loadMCPConfigs tokenEnv (.parsed sampleGlobal) (.parsed sampleBundled)
        = .ok result ∧
      result.map Prod.fst = [("serverA", sampleX)].map Prod.fst ∧
      (∀ name ∈ [("serverA", sampleX)].map Prod.fst,
        injectConfig tokenEnv (lookupProp [("serverA", sampleX)] name)
          = .ok (lookupProp result name)) ∧
      (∀ name ∈ [("serverA", sampleX)].map Prod.fst, ∀ env,
        (lookupProp [("serverA", sampleX)] name).getField "env" = .ok env → env.truthy = false →
          lookupProp result name = lookupProp [("serverA", sampleX)] name) :=
  ⟨rfl, loadMCPConfigs_global_exclusive tokenEnv (.parsed sampleBundled) sampleGlobal
    [("serverA", sampleX)] rfl (fun h => List.cons_ne_nil _ _ h)
    (by unfold DistinctKeys; decide) (by decide) (by decide)⟩

/-- C1: the global source `{"mcpServers": {"__proto__": Y, "serverA": X}}`
defines the two providers `__proto__` and `serverA`, but `loadMCPConfigs`
resolves, whatever the bundled source, to a mapping with the name `serverA`
only: `Object.assign` makes `Y` the prototype of the mapping and adds no key
for it. With `__proto__` as the only provider the mapping is empty. -/
theorem loadMCPConfigs_proto_name_lost (E : ProcessEnv) (bundledFile : ConfigFile) :
    protoGlobal.getField "mcpServers"
      = .ok (.obj [("__proto__", sampleY), ("serverA", sampleX)]) ∧
    (∃ result, MCPTools.loadMCPConfigs E (.parsed protoGlobal) bundledFile = .ok result ∧
      result.map Prod.fst = ["serverA"]) ∧
    selectPrototype (.parsed protoGlobal) = .replaced sampleY ∧
    MCPTools.loadMCPConfigs E (.parsed (.obj [("mcpServers", .obj [("__proto__", sampleY)])]))
      bundledFile = .ok [] :=
  ⟨rfl, ⟨_, rfl, rfl⟩, rfl, rfl⟩

/-- Support for C2: when the global source is unreadable, unparseable, has no
provider map or has a provider map with zero entries, and no bundled provider
is named like a member of `Object.prototype`, `loadMCPConfigs` resolves to a
mapping with exactly the provider names of the bundled source (none when that
source is unusable), each bound to its bundled definition as the final
interpolation loop leaves it, and verbatim when that definition has no `env`;
the bundled entries are taken not to be `null`. -/
theorem loadMCPConfigs_bundled_fallback (E : ProcessEnv) (globalFile bundledFile : ConfigFile)
    (bs : List (String × JSValue))
    (hg : GlobalDefinesNone globalFile) (hb : BundledProviders bundledFile bs)
    (hnn : ∀ p ∈ bs, p.2.isNullish = false)
    (hplain : ∀ p ∈ bs, p.1 ∉ objectPrototypeNames) :
    ∃ result, MCPTools.loadMCPConfigs E globalFile bundledFile = .ok result ∧
      result.map Prod.fst = bs.map Prod.fst ∧
      (∀ name ∈ bs.map Prod.fst,
        injectConfig E (lookupProp bs name) = .ok (lookupProp result name)) ∧
      (∀ name ∈ bs.map Prod.fst, ∀ env,
        (lookupProp bs name).getField "env" = .ok env → env.truthy = false →
          lookupProp result name = lookupProp bs name) := by
  obtain ⟨r, hr, hkeys, hlook⟩ := injectAll_ok E bs hnn
  refine ⟨r, ?_, hkeys, hlook, ?_⟩
  · unfold MCPTools.loadMCPConfigs
    rw [selectConfigs_fallback globalFile bundledFile bs hg hb, filter_not_member bs hplain]
    exact hr
  · intro name hname env henv hf
    have h1 := hlook name hname
    rw [injectConfig_noEnv E _ env henv hf] at h1
    exact (Except.ok.inj h1).symm

/-- A global source with an empty provider map falls back to the bundled source
`{serverA: Y, serverB: Z}`. -/
theorem loadMCPConfigs_bundled_fallback_witness :
    GlobalDefinesNone (.parsed (.obj [("mcpServers", .obj [])])) ∧
    BundledProviders (.parsed sampleBundled) [("serverA", sampleY), ("serverB", sampleZ)] ∧
    ∃ result, MCPTools.loadMCPConfigs tokenEnv (.parsed (.obj [("mcpServers", .obj [])]))
        (.parsed sampleBundled) = .ok result ∧
      result.map Prod.fst = [("serverA", sampleY), ("serverB", sampleZ)].map Prod.fst ∧
      (∀ name ∈ [("serverA", sampleY), ("serverB", sampleZ)].map Prod.fst,
        injectConfig tokenEnv (lookupProp [("serverA", sampleY), ("serverB", sampleZ)] name)
          = .ok (lookupProp result name)) ∧
      (∀ name ∈ [("serverA", sampleY), ("serverB", sampleZ)].map Prod.fst, ∀ env,
        (lookupProp [("serverA", sampleY), ("serverB", sampleZ)] name).getField "env" = .ok env →
          env.truthy = false →
          lookupProp result name = lookupProp [("serverA", sampleY), ("serverB", sampleZ)] name) :=
  ⟨.emptyProviderMap _ (.obj []) rfl rfl,
   .providerMap _ (.obj [("serverA", sampleY), ("serverB", sampleZ)]) _ rfl rfl rfl
     (by unfold DistinctKeys; decide),
   loadMCPConfigs_bundled_fallback tokenEnv _ _ [("serverA", sampleY), ("serverB", sampleZ)]
     (.emptyProviderMap _ (.obj []) rfl rfl)
     (.providerMap _ (.obj [("serverA", sampleY), ("serverB", sampleZ)]) _ rfl rfl rfl
       (by unfold DistinctKeys; decide))
     (by decide) (by decide)⟩

/-- C2: with an unreadable global source and the bundled source
`{"mcpServers": {"toString": Y, "serverB": Z}}`, `loadMCPConfigs` resolves to
`{serverB: Z}`: the guard `!configs[name]` reads the member `toString` that the
empty mapping inherits from `Object.prototype`, so the bundled provider
`toString` is dropped, and so is one named `constructor`. -/
theorem loadMCPConfigs_member_name_dropped (E : ProcessEnv) :
    GlobalDefinesNone .unreadable ∧
    BundledProviders (.parsed memberBundled) [("toString", sampleY), ("serverB", sampleZ)] ∧
    MCPTools.loadMCPConfigs E .unreadable (.parsed memberBundled) = .ok [("serverB", sampleZ)] ∧
    MCPTools.loadMCPConfigs E .unreadable
      (.parsed (.obj [("mcpServers", .obj [("constructor", sampleY)])])) = .ok [] :=
  ⟨.unreadable,
   .providerMap _ (.obj [("toString", sampleY), ("serverB", sampleZ)]) _ rfl rfl rfl
     (by unfold DistinctKeys; decide),
   rfl, rfl⟩

theorem jsIncludes_of_placeholder (pre suf : String) (h : BeginsWithPlaceholder suf) :
    jsIncludes (pre ++ suf) "$\x7b" = true := by
  obtain ⟨name, tail, -, hs⟩ := h
  subst hs
  have h1 : ("$\x7b" : String).toList = [dollar, lbrace] := by decide
  have key : ∀ (l t : List Char), includesChars [dollar, lbrace] (l ++ dollar :: lbrace :: t) = true := by
    intro l t
    induction l with
    | nil => simp [includesChars, List.isPrefixOf]
    | cons c rest ih => simp [includesChars, ih]
  unfold jsIncludes
  simp only [String.toList, String.data_append] at h1 ⊢
  rw [h1]
  simpa using key pre.data (name.data ++ ("\x7d" : String).data ++ tail.data)

theorem mem_map_injectElement (E : ProcessEnv) (envProps : List (String × JSValue))
    (key : String) (v : JSValue) (hm : (key, v) ∈ envProps) :
    (key, injectElement E v) ∈ envProps.map (fun p => (p.1, injectElement E p.2)) :=
  List.mem_map.mpr ⟨(key, v), hm, rfl⟩

theorem distinctKeys_map_injectElement (E : ProcessEnv) (envProps : List (String × JSValue))
    (hd : DistinctKeys envProps) :
    DistinctKeys (envProps.map (fun p => (p.1, injectElement E p.2))) := by
  unfold DistinctKeys at hd ⊢
  simpa [List.map_map, Function.comp] using hd

theorem inheritedEnvText_plain (name : String) (h : name ∉ objectPrototypeNames) :
    inheritedEnvText name = "" := by
  have h1 : name ≠ "__proto__" := fun e => h (e ▸ by decide)
  have h2 : name ≠ "constructor" := fun e => h (e ▸ by decide)
  simp [inheritedEnvText, h1, h2, h]

/-- Support for C3: `interpolateEnvVars` leaves a string without placeholder
unchanged; it replaces the leftmost placeholder `${name}` by the value of the
variable `name`, or, when `name` is unset, by the text of what `process.env`
inherits under that name, which is empty unless `name` is a member name of
`Object.prototype`, keeps what precedes it and goes on with what follows it; `${TOKEN}` gives the value of `TOKEN` when set and the empty
string when unset; a string that contains a placeholder passes the test
`includes('${')`; and `loadMCPConfigs` stores the interpolated string for
every string value of a provider's `env` map that passes this test. -/
theorem interpolateEnvVars_spec (E : ProcessEnv) :
    (∀ s : String, (∀ pre suf : String, s = pre ++ suf → ¬ BeginsWithPlaceholder suf) →
      MCPTools.interpolateEnvVars E s = s) ∧
    (∀ pre name tail : String, IsPlaceholderName name →
      (∀ p q : String, pre = p ++ q → q ≠ "" →
        ¬ BeginsWithPlaceholder (q ++ ("$\x7b" ++ name ++ "\x7d" ++ tail))) →
      MCPTools.interpolateEnvVars E (pre ++ ("$\x7b" ++ name ++ "\x7d" ++ tail))
        = pre ++ (E name).getD (inheritedEnvText name) ++ MCPTools.interpolateEnvVars E tail) ∧
    (∀ v : String, E "TOKEN" = some v → MCPTools.interpolateEnvVars E "$\x7bTOKEN\x7d" = v) ∧
    (E "TOKEN" = none → MCPTools.interpolateEnvVars E "$\x7bTOKEN\x7d" = "") ∧
    (∀ pre suf : String, BeginsWithPlaceholder suf → jsIncludes (pre ++ suf) "$\x7b" = true) ∧
    (∀ (globalFile bundledFile : ConfigFile) (name : String)
        (props envProps : List (String × JSValue)) (key value : String),
      (∀ p ∈ selectConfigs globalFile bundledFile, p.2.isNullish = false) →
      name ∈ (selectConfigs globalFile bundledFile).map Prod.fst →
      lookupProp (selectConfigs globalFile bundledFile) name = .obj props →
      lookupProp props "env" = .obj envProps → DistinctKeys envProps →
      (key, JSValue.str value) ∈ envProps → jsIncludes value "$\x7b" = true →
      ∃ result props1 envProps1,
        MCPTools.loadMCPConfigs E globalFile bundledFile = .ok result ∧
        lookupProp result name = .obj props1 ∧
        lookupProp props1 "env" = .obj envProps1 ∧
        lookupProp envProps1 key = .str (MCPTools.interpolateEnvVars E value)) ∧
    (∀ name : String, name ∉ objectPrototypeNames → inheritedEnvText name = "") := by
  have htoken : inheritedEnvText "TOKEN" = "" := by decide
  refine ⟨interpolateEnvVars_noPlaceholder E, interpolateEnvVars_leftmost E, ?_, ?_,
    jsIncludes_of_placeholder, ?_, inheritedEnvText_plain⟩
  · intro v hv
    have hm : matchPlaceholder ("$\x7bTOKEN\x7d" : String).toList = some ("TOKEN" : String).toList := by
      decide
    have hl : ("$\x7bTOKEN\x7d" : String).toList =
        dollar :: lbrace :: ("TOKEN" : String).toList ++ [rbrace] := by decide
    unfold MCPTools.interpolateEnvVars
    apply String.ext
    rw [hl, List.cons_append, List.cons_append, replacePlaceholders, ← List.cons_append,
      ← List.cons_append, ← hl, hm]
    simp only
    rw [replacePlaceholders_skip, envOrEmpty_eq, hv]
    have hdrop : List.drop (("TOKEN" : String).toList.length + 2)
        (lbrace :: ("TOKEN" : String).toList ++ [rbrace]) = [] := by decide
    rw [hdrop]
    simp [replacePlaceholders, htoken]
  · intro hv
    have hm : matchPlaceholder ("$\x7bTOKEN\x7d" : String).toList = some ("TOKEN" : String).toList := by
      decide
    have hl : ("$\x7bTOKEN\x7d" : String).toList =
        dollar :: lbrace :: ("TOKEN" : String).toList ++ [rbrace] := by decide
    unfold MCPTools.interpolateEnvVars
    apply String.ext
    rw [hl, List.cons_append, List.cons_append, replacePlaceholders, ← List.cons_append,
      ← List.cons_append, ← hl, hm]
    simp only
    rw [replacePlaceholders_skip, envOrEmpty_eq, hv]
    have hdrop : List.drop (("TOKEN" : String).toList.length + 2)
        (lbrace :: ("TOKEN" : String).toList ++ [rbrace]) = [] := by decide
    rw [hdrop]
    simp [replacePlaceholders, htoken]
  · intro globalFile bundledFile name props envProps key value hnn hname hprops henv hd hmem hinc
    obtain ⟨r, hr, -, hlook⟩ := injectAll_ok E (selectConfigs globalFile bundledFile) hnn
    have h1 := hlook name hname
    rw [hprops, injectConfig_env E props envProps henv hd] at h1
    refine ⟨r, _, _, hr, (Except.ok.inj h1).symm, lookupProp_setKey_self _ _ _, ?_⟩
    have h2 := lookupProp_of_mem _ key _ (distinctKeys_map_injectElement E envProps hd)
      (mem_map_injectElement E envProps key (.str value) hmem)
    rw [h2]
    simp [injectElement, hinc]

theorem beginsWithPlaceholder_head (s : String) (h : BeginsWithPlaceholder s) :
    s.toList.head? = some dollar := by
  obtain ⟨name, tail, -, hs⟩ := h
  subst hs
  have h1 : ("$\x7b" : String).toList = [dollar, lbrace] := by decide
  simp only [String.toList, String.data_append] at h1 ⊢
  rw [h1]
  rfl

/-- The text `ab${TOKEN}z` with `TOKEN=abc`, and the sample global source whose
provider `serverA` has `API_KEY` set to `${TOKEN}`. -/
theorem interpolateEnvVars_spec_witness :
    (MCPTools.interpolateEnvVars tokenEnv ("ab" ++ ("$\x7b" ++ "TOKEN" ++ "\x7d" ++ "z"))
      = "ab" ++ (tokenEnv "TOKEN").getD (inheritedEnvText "TOKEN")
        ++ MCPTools.interpolateEnvVars tokenEnv "z") ∧
    (∃ result props1 envProps1,
      MCPTools.loadMCPConfigs tokenEnv (.parsed sampleGlobal) (.parsed sampleBundled) = .ok result ∧
      lookupProp result "serverA" = .obj props1 ∧
      lookupProp props1 "env" = .obj envProps1 ∧
      lookupProp envProps1 "API_KEY"
        = .str (MCPTools.interpolateEnvVars tokenEnv "$\x7bTOKEN\x7d")) :=
  ⟨(interpolateEnvVars_spec tokenEnv).2.1 "ab" "TOKEN" "z" ⟨by decide, by decide⟩ (by
      intro p q hpq hq hb
      have hh := beginsWithPlaceholder_head _ hb
      have hd : p.data ++ q.data = ['a', 'b'] := by
        have := congrArg String.data hpq
        simpa using this.symm
      have hqne : q.data ≠ [] := fun e => hq (String.ext e)
      simp only [String.toList, String.data_append] at hh
      rcases List.append_eq_cons_iff.mp hd with ⟨-, h2⟩ | ⟨t, -, h2⟩
      · rw [h2] at hh
        exact absurd hh (by decide)
      · rcases List.append_eq_cons_iff.mp h2.symm with ⟨-, h3⟩ | ⟨t2, -, h3⟩
        · rw [h3] at hh
          exact absurd hh (by decide)
        · exact hqne (List.append_eq_nil.mp h3.symm).2),
   (interpolateEnvVars_spec tokenEnv).2.2.2.2.2.1 (.parsed sampleGlobal) (.parsed sampleBundled)
     "serverA" [("command", .str "serve-x"),
       ("env", .obj [("API_KEY", .str "$\x7bTOKEN\x7d"), ("PORT", .num 8080)])]
     [("API_KEY", .str "$\x7bTOKEN\x7d"), ("PORT", .num 8080)] "API_KEY" "$\x7bTOKEN\x7d"
     (by decide) (by decide) rfl rfl (by unfold DistinctKeys; decide) (by simp) (by decide)⟩

/-- C3: in an environment without a variable `toString`, the text
`${toString}` is not replaced by the empty text: `process.env[varName]` finds
the function that `process.env` inherits from `Object.prototype`, which is
truthy, and `replace` inserts its source text; `${constructor}` and
`${__proto__}` behave alike, while `${TOKEN}` gives the empty text. -/
theorem interpolateEnvVars_member_name :
    emptyEnv "toString" = none ∧
    MCPTools.interpolateEnvVars emptyEnv "$\x7btoString\x7d"
      = "function toString() \x7b [native code] \x7d" ∧
    MCPTools.interpolateEnvVars emptyEnv "--scope=$\x7bconstructor\x7d;"
      = "--scope=function Object() \x7b [native code] \x7d;" ∧
    MCPTools.interpolateEnvVars emptyEnv "$\x7b__proto__\x7d" = "[object Object]" ∧
    MCPTools.interpolateEnvVars emptyEnv "$\x7bTOKEN\x7d" = "" := by
  refine ⟨rfl, ?_, ?_, ?_, ?_⟩ <;> decide

theorem injectAll_raises_of_null (E : ProcessEnv) (l : List (String × JSValue))
    (h : ∃ p ∈ l, p.2 = .null) : ∃ e, injectAll E l = .error e := by
  induction l with
  | nil =>
    obtain ⟨p, hp, -⟩ := h
    simp at hp
  | cons q rest ih =>
    obtain ⟨k, c⟩ := q
    cases hc : injectConfig E c with
    | error e => exact ⟨e, by simp [injectAll, hc]⟩
    | ok c1 =>
      have hrest : ∃ p ∈ rest, p.2 = .null := by
        obtain ⟨p, hp, hnull⟩ := h
        rcases List.mem_cons.mp hp with h1 | h1
        · subst h1
          simp only at hnull
          subst hnull
          simp [injectConfig, JSValue.getField, bind, Except.bind] at hc
        · exact ⟨p, h1, hnull⟩
      obtain ⟨e, he⟩ := ih hrest
      exact ⟨e, by simp [injectAll, hc, he]⟩

theorem loadMCPConfigs_raises_of_null (E : ProcessEnv) (globalFile bundledFile : ConfigFile)
    (h : ∃ p ∈ selectConfigs globalFile bundledFile, p.2 = .null) :
    ∃ e, MCPTools.loadMCPConfigs E globalFile bundledFile = .error e :=
  injectAll_raises_of_null E _ h

/-- C4: `loadMCPConfigs` raises when a provider entry of the selected source is
`null`: the interpolation loop reads `config.env` outside any `try`. A global
source `{"mcpServers": {"broken": null}}` gives a `TypeError` whatever the
bundled source, and so does the same document as bundled source when the
global file is unreadable. -/
theorem loadMCPConfigs_null_entry_raises (E : ProcessEnv) (bundledFile : ConfigFile) :
    MCPTools.loadMCPConfigs E (.parsed nullEntryGlobal) bundledFile
      = .error (.typeError "Cannot read properties of null (reading env)") ∧
    MCPTools.loadMCPConfigs E .unreadable (.parsed nullEntryGlobal)
      = .error (.typeError "Cannot read properties of null (reading env)") :=
  ⟨rfl, rfl⟩

/-! ## Schema adaptation -/

theorem getField_field (v : JSValue) (f : String) (h : v.isNullish = false) :
    v.getField f = .ok (v.field f) := by
  cases v <;> simp [JSValue.isNullish] at h <;> rfl

theorem isNullish_of_isObjectType (v : JSValue) (h : v.isObjectType = true) :
    v.isNullish = false := by
  cases v <;> simp [JSValue.isObjectType] at h <;> rfl

theorem declaredType_ok (prop : JSValue) (h : prop.isObjectType = true) :
    declaredType prop = .ok ⟨zodKindOfType (prop.field "type"), none, false⟩ := by
  simp [declaredType, getField_field prop _ (isNullish_of_isObjectType prop h), bind,
    Except.bind, pure, Except.pure]

theorem addDescription_ok (prop : JSValue) (t : ZodType) (h : prop.isObjectType = true) :
    addDescription prop t = .ok
      (if (prop.field "description").truthy then t.describe (prop.field "description") else t) := by
  simp only [addDescription, getField_field prop _ (isNullish_of_isObjectType prop h), bind,
    Except.bind, pure, Except.pure]
  split <;> rfl

theorem makeOptional_ok (mcpSchema : JSValue) (key : String) (t : ZodType)
    (hs : mcpSchema.isNullish = false) (hr : RequiredUsable (mcpSchema.field "required")) :
    makeOptional mcpSchema key t = .ok
      (if optionalFlag (mcpSchema.field "required") key then t.optional else t) := by
  simp only [makeOptional, getField_field mcpSchema _ hs, bind, Except.bind, pure, Except.pure]
  rcases hr with hf | ⟨items, hi⟩ | ⟨s, hstr⟩
  · rw [hf]
    have : optionalFlag (mcpSchema.field "required") key = false := by
      cases hv : mcpSchema.field "required" <;> rw [hv] at hf <;>
        simp [JSValue.truthy] at hf <;> simp [optionalFlag, hf]
    simp [this]
  · rw [hi]
    simp only [JSValue.truthy, requiredIncludes, optionalFlag, if_true]
    split <;> simp_all
  · rw [hstr]
    by_cases he : s = ""
    · simp [JSValue.truthy, optionalFlag, he]
    · simp only [JSValue.truthy, requiredIncludes, optionalFlag, he, bne_iff_ne, ne_eq,
        not_false_eq_true, decide_True, if_true, if_false]
      split <;> simp_all

theorem convertProperty_ok (mcpSchema : JSValue) (shape : ParameterContract) (key : String)
    (prop : JSValue) (hs : mcpSchema.isNullish = false)
    (hr : RequiredUsable (mcpSchema.field "required")) :
    convertProperty mcpSchema shape key prop = .ok
      (if prop.isObjectType then
        setKey shape key (contractEntry (optionalFlag (mcpSchema.field "required") key) prop)
       else shape) := by
  by_cases h : prop.isObjectType = true
  · simp only [convertProperty, h, if_true, declaredType_ok prop h, bind, Except.bind,
      addDescription_ok prop _ h, makeOptional_ok mcpSchema key _ hs hr, pure, Except.pure]
    congr 2
    unfold contractEntry ZodType.optional ZodType.describe
    by_cases hd : (prop.field "description").truthy = true <;>
      by_cases ho : optionalFlag (mcpSchema.field "required") key = true <;>
      simp [hd, ho]
  · simp [convertProperty, h, pure, Except.pure]

theorem convertEntries_ok (mcpSchema : JSValue) (entries : List (String × JSValue))
    (shape : ParameterContract) (hs : mcpSchema.isNullish = false)
    (hr : RequiredUsable (mcpSchema.field "required")) :
    convertEntries mcpSchema shape entries = .ok
      (entries.foldl (fun sh p =>
        if p.2.isObjectType then
          setKey sh p.1 (contractEntry (optionalFlag (mcpSchema.field "required") p.1) p.2)
        else sh) shape) := by
  induction entries generalizing shape with
  | nil => rfl
  | cons p rest ih =>
    obtain ⟨key, prop⟩ := p
    simp only [convertEntries, convertProperty_ok mcpSchema shape key prop hs hr, List.foldl_cons]
    exact ih _

theorem foldl_contract (required : JSValue) (entries : List (String × JSValue))
    (acc : ParameterContract)
    (h : (acc.map Prod.fst ++ entries.map Prod.fst).Nodup) :
    entries.foldl (fun sh p =>
        if p.2.isObjectType then setKey sh p.1 (contractEntry (optionalFlag required p.1) p.2)
        else sh) acc
      = acc ++ contractOf required entries := by
  induction entries generalizing acc with
  | nil => simp [contractOf]
  | cons p rest ih =>
    have hk : p.1 ∉ acc.map Prod.fst := by
      simp only [List.map_cons] at h
      have := (List.nodup_append.mp h).2.2
      intro hm
      exact this hm (List.mem_cons_self _ _)
    have hrest : (acc.map Prod.fst ++ rest.map Prod.fst).Nodup := by
      simp only [List.map_cons] at h
      exact h.sublist (List.Sublist.append_left (List.sublist_cons_self _ _) _)
    simp only [List.foldl_cons]
    by_cases ho : p.2.isObjectType = true
    · simp only [ho, if_true]
      rw [setKey_fresh acc p.1 _ hk, ih]
      · simp [contractOf, ho]
      · simpa using h
    · rw [if_neg ho, ih acc hrest]
      simp [contractOf, ho]

theorem convertSchema_entries (mcpSchema : JSValue) (entries : List (String × JSValue))
    (hs : mcpSchema.isNullish = false) (ht : (mcpSchema.field "properties").truthy = true)
    (he : objectEntries (mcpSchema.field "properties") = .ok entries)
    (hr : RequiredUsable (mcpSchema.field "required")) :
    WrappedMCPTool.convertSchema mcpSchema = .ok
      (entries.foldl (fun sh p =>
        if p.2.isObjectType then
          setKey sh p.1 (contractEntry (optionalFlag (mcpSchema.field "required") p.1) p.2)
        else sh) []) := by
  simp only [WrappedMCPTool.convertSchema, hs, getField_field mcpSchema _ hs, bind, Except.bind,
    ht, he, if_true, Bool.false_eq_true, if_false]
  exact convertEntries_ok mcpSchema entries [] hs hr

theorem isNullish_of_field (v : JSValue) (f : String) (props : List (String × JSValue))
    (h : v.field f = .obj props) : v.isNullish = false := by
  cases v <;> simp [JSValue.field] at h
  rfl

theorem convertSchema_obj (mcpSchema : JSValue) (props : List (String × JSValue))
    (hp : mcpSchema.field "properties" = .obj props) (hd : DistinctKeys props)
    (hr : RequiredUsable (mcpSchema.field "required")) :
    WrappedMCPTool.convertSchema mcpSchema
      = .ok (contractOf (mcpSchema.field "required") props) := by
  have hs := isNullish_of_field mcpSchema _ props hp
  rw [convertSchema_entries mcpSchema props hs (by rw [hp]; rfl) (by rw [hp]; rfl) hr,
    foldl_contract _ props [] (by simpa using hd)]
  rfl

theorem mem_contractOf (required : JSValue) (props : List (String × JSValue)) (key : String)
    (prop : JSValue) (hm : (key, prop) ∈ props) (ho : prop.isObjectType = true) :
    (key, contractEntry (optionalFlag required key) prop) ∈ contractOf required props := by
  unfold contractOf
  exact List.mem_filterMap.mpr ⟨(key, prop), hm, by simp [ho]⟩

theorem of_mem_contractOf (required : JSValue) (props : List (String × JSValue)) (key : String)
    (t : ZodType) (hm : (key, t) ∈ contractOf required props) :
    ∃ prop, (key, prop) ∈ props ∧ prop.isObjectType = true ∧
      t = contractEntry (optionalFlag required key) prop := by
  unfold contractOf at hm
  obtain ⟨p, hp, hq⟩ := List.mem_filterMap.mp hm
  by_cases ho : p.2.isObjectType = true
  · simp only [ho, if_true, Option.some.injEq, Prod.mk.injEq] at hq
    obtain ⟨h1, h2⟩ := hq
    subst h1
    exact ⟨p.2, hp, ho, h2.symm⟩
  · simp [ho] at hq

theorem keys_contractOf (required : JSValue) (props : List (String × JSValue)) :
    (contractOf required props).map Prod.fst
      = (props.filter fun p => p.2.isObjectType).map Prod.fst := by
  induction props with
  | nil => rfl
  | cons p rest ih =>
    unfold contractOf at ih ⊢
    by_cases ho : p.2.isObjectType = true
    · simp [List.filterMap_cons, List.filter_cons, ho, ih]
    · simp [List.filterMap_cons, List.filter_cons, ho, ih]

theorem any_strictEqStr (items : List JSValue) (key : String) :
    (items.any fun x => x.strictEqStr key) = true ↔ JSValue.str key ∈ items := by
  induction items with
  | nil => simp
  | cons x rest ih =>
    simp only [List.any_cons, Bool.or_eq_true, ih, List.mem_cons]
    constructor
    · rintro (h | h)
      · left
        cases x <;> simp [JSValue.strictEqStr] at h
        rw [h]
      · exact Or.inr h
    · rintro (h | h)
      · left
        rw [← h]
        simp [JSValue.strictEqStr]
      · exact Or.inr h

/-! ## Claims on `convertSchema` -/

theorem zodKindOfType_other (ty : JSValue)
    (h : ∀ name ∈ ["string", "number", "integer", "boolean", "array", "object"],
      ty ≠ .str name) : zodKindOfType ty = .any := by
  cases ty with
  | str s =>
    have h1 : s ≠ "string" := fun e => h "string" (by simp) (by rw [e])
    have h2 : s ≠ "number" := fun e => h "number" (by simp) (by rw [e])
    have h3 : s ≠ "integer" := fun e => h "integer" (by simp) (by rw [e])
    have h4 : s ≠ "boolean" := fun e => h "boolean" (by simp) (by rw [e])
    have h5 : s ≠ "array" := fun e => h "array" (by simp) (by rw [e])
    have h6 : s ≠ "object" := fun e => h "object" (by simp) (by rw [e])
    simp [zodKindOfType, JSValue.strictEqStr, h1, h2, h3, h4, h5, h6]
  | _ => simp [zodKindOfType, JSValue.strictEqStr]

/-- C5 (amended): for a schema with a properties map without the key
`__proto__` and a required-list `R`, validation against the contract of
`convertSchema` rejects every input that lacks a key listed in `R` whose
declared type is `string`, `number`, `integer`, `boolean`, `array` or `object`,
the contract entry of every key not listed in `R` accepts the value `undefined`
of an absent key, and so does the entry of a key of any other or missing
declared type, listed in `R` or not. -/
theorem convertSchema_required_list (mcpSchema : JSValue) (props : List (String × JSValue))
    (R : List JSValue)
    (hp : mcpSchema.field "properties" = .obj props) (hd : DistinctKeys props)
    (hR : mcpSchema.field "required" = .arr R)
    (hproto : "__proto__" ∉ props.map Prod.fst) :
    ∃ shape, WrappedMCPTool.convertSchema mcpSchema = .ok shape ∧
      (∀ key prop ty, (key, prop) ∈ props → prop.field "type" = .str ty →
        ty ∈ ["string", "number", "integer", "boolean", "array", "object"] →
        JSValue.str key ∈ R →
        ∀ input, lookupProp input key = .undefined →
          zodObjectAccepts shape (.obj input) = false) ∧
      (∀ key t, (key, t) ∈ shape → JSValue.str key ∉ R → t.accepts .undefined = true) ∧
      (∀ key prop, (key, prop) ∈ props → prop.isObjectType = true →
        (∀ name ∈ ["string", "number", "integer", "boolean", "array", "object"],
          prop.field "type" ≠ .str name) →
        ∃ t, (key, t) ∈ shape ∧ t.kind = .any ∧ t.accepts .undefined = true) := by
  have hr : RequiredUsable (mcpSchema.field "required") := Or.inr (Or.inl ⟨R, hR⟩)
  refine ⟨_, convertSchema_obj mcpSchema props hp hd hr, ?_, ?_, ?_⟩
  rotate_left 2
  · intro key prop hm ho hty
    refine ⟨_, mem_contractOf (mcpSchema.field "required") props key prop hm ho, ?_, ?_⟩
    · exact zodKindOfType_other _ hty
    · cases hflag : optionalFlag (mcpSchema.field "required") key <;>
        simp [ZodType.accepts, contractEntry, zodKindOfType_other _ hty, ZodKind.accepts]
  · intro key prop ty hm hty hmem hreq input hin
    have ho : prop.isObjectType = true := by
      cases prop <;> simp [JSValue.field] at hty
      rfl
    have hmem2 := mem_contractOf (mcpSchema.field "required") props key prop hm ho
    have hflag : optionalFlag (mcpSchema.field "required") key = false := by
      rw [hR]
      simp [optionalFlag, (any_strictEqStr R key).mpr hreq]
    rw [hflag] at hmem2
    have hrej : (contractEntry false prop).accepts .undefined = false := by
      simp only [List.mem_cons, List.mem_singleton, List.not_mem_nil, or_false] at hmem
      rcases hmem with h | h | h | h | h | h <;> subst h <;>
        simp [contractEntry, hty, ZodType.accepts, zodKindOfType, JSValue.strictEqStr,
          ZodKind.accepts]
    simp only [zodObjectAccepts]
    apply Bool.eq_false_iff.mpr
    intro hall
    have := List.all_eq_true.mp hall _ hmem2
    have hkey : (key == "__proto__") = false := by
      have : key ≠ "__proto__" := fun e => hproto (e ▸ List.mem_map_of_mem Prod.fst hm)
      simpa using this
    simp only [hin, hkey, Bool.false_or] at this
    rw [hrej] at this
    exact absurd this (by simp)
  · intro key t hm hnot
    obtain ⟨prop, -, -, ht⟩ := of_mem_contractOf _ props key t hm
    have hflag : optionalFlag (mcpSchema.field "required") key = true := by
      rw [hR]
      have : ¬ (R.any fun x => x.strictEqStr key) = true := fun h =>
        hnot ((any_strictEqStr R key).mp h)
      simp only [optionalFlag]
      simpa using this
    rw [ht, hflag]
    simp [contractEntry, ZodType.accepts]

/-- Witness of C5 (amended) on the example of the specification: properties
`{a: string, b: integer}` with required `[a]`; the input `{b: 3}` is rejected
and the input `{a: "x"}` is accepted. -/
theorem convertSchema_required_list_witness :
    sampleSchema.field "properties" = .obj sampleProps ∧
    sampleSchema.field "required" = .arr [.str "a"] ∧
    (∃ shape, WrappedMCPTool.convertSchema sampleSchema = .ok shape ∧
      (∀ key prop ty, (key, prop) ∈ sampleProps → prop.field "type" = .str ty →
        ty ∈ ["string", "number", "integer", "boolean", "array", "object"] →
        JSValue.str key ∈ [JSValue.str "a"] →
        ∀ input, lookupProp input key = .undefined →
          zodObjectAccepts shape (.obj input) = false) ∧
      (∀ key t, (key, t) ∈ shape → JSValue.str key ∉ [JSValue.str "a"] →
        t.accepts .undefined = true) ∧
      (∀ key prop, (key, prop) ∈ sampleProps → prop.isObjectType = true →
        (∀ name ∈ ["string", "number", "integer", "boolean", "array", "object"],
          prop.field "type" ≠ .str name) →
        ∃ t, (key, t) ∈ shape ∧ t.kind = .any ∧ t.accepts .undefined = true)) ∧
    ("__proto__" ∉ sampleProps.map Prod.fst) ∧
    (∃ shape, WrappedMCPTool.convertSchema sampleSchema = .ok shape ∧
      zodObjectAccepts shape (.obj [("b", .num 3)]) = false ∧
      zodObjectAccepts shape (.obj [("a", .str "x")]) = true) :=
  ⟨rfl, rfl,
   convertSchema_required_list sampleSchema sampleProps [.str "a"] rfl
     (by unfold DistinctKeys; decide) rfl (by decide),
   by decide,
   ⟨_, rfl, rfl, rfl⟩⟩

/-- Counterexample to C5 as stated: the key `order` is listed as required, is
declared by an `enum` without `type` and so becomes `z.any()`; the empty input,
which lacks `order`, is accepted. -/
theorem convertSchema_required_any_admits_absence :
    enumSchema.field "required" = .arr [.str "order"] ∧
    lookupProp [] "order" = .undefined ∧
    ∃ shape, WrappedMCPTool.convertSchema enumSchema = .ok shape ∧
      shape.map Prod.fst = ["order"] ∧
      zodObjectAccepts shape (.obj []) = true :=
  ⟨rfl, rfl, _, rfl, rfl, rfl⟩

theorem convertSchema_without_required (mcpSchema : JSValue) (props : List (String × JSValue))
    (hp : mcpSchema.field "properties" = .obj props) (hd : DistinctKeys props)
    (hreq : (mcpSchema.field "required").truthy = false) :
    ∃ shape, WrappedMCPTool.convertSchema mcpSchema = .ok shape ∧
      ∀ p ∈ shape, p.2.isOptional = false := by
  refine ⟨_, convertSchema_obj mcpSchema props hp hd (Or.inl hreq), ?_⟩
  intro p hpm
  obtain ⟨prop, -, -, ht⟩ := of_mem_contractOf _ props p.1 p.2 hpm
  have hflag : optionalFlag (mcpSchema.field "required") p.1 = false := by
    cases hv : mcpSchema.field "required" <;> rw [hv] at hreq <;>
      simp [JSValue.truthy] at hreq <;> simp [optionalFlag, hreq]
  rw [ht, hflag]
  rfl

/-- C6: without a required-list nothing is made optional. For properties
`{a: string, b: integer}` and no `required`, both entries of the contract are
non-optional, so the empty input and the input `{a: "x"}` are rejected; only an
input giving both keys is accepted. -/
theorem convertSchema_no_required_list_all_required :
    noRequiredSchema.field "required" = .undefined ∧
    WrappedMCPTool.convertSchema noRequiredSchema
      = .ok [("a", ⟨.string, none, false⟩), ("b", ⟨.number, none, false⟩)] ∧
    zodObjectAccepts [("a", ⟨.string, none, false⟩), ("b", ⟨.number, none, false⟩)]
      (.obj []) = false ∧
    zodObjectAccepts [("a", ⟨.string, none, false⟩), ("b", ⟨.number, none, false⟩)]
      (.obj [("a", .str "x")]) = false ∧
    zodObjectAccepts [("a", ⟨.string, none, false⟩), ("b", ⟨.number, none, false⟩)]
      (.obj [("a", .str "x"), ("b", .num 3)]) = true :=
  ⟨rfl, rfl, rfl, rfl, rfl⟩

/-- C7: for a property bound to an object in the properties map (and a
required field on which the loop does not throw), the contract entry built by
`convertSchema` has the kind given by the table: `string` gives string,
`number` and `integer` give number, `boolean` gives boolean, `array` gives an
array of any, `object` gives an open object, and every other or missing type
gives any; an array of any accepts every array, an open object every object
whatever its keys, and any every value. -/
theorem convertSchema_kind_table (mcpSchema : JSValue) (props : List (String × JSValue))
    (key : String) (prop : JSValue)
    (hp : mcpSchema.field "properties" = .obj props) (hd : DistinctKeys props)
    (hr : RequiredUsable (mcpSchema.field "required"))
    (hm : (key, prop) ∈ props) (ho : prop.isObjectType = true) :
    ∃ shape t, WrappedMCPTool.convertSchema mcpSchema = .ok shape ∧ (key, t) ∈ shape ∧
      (prop.field "type" = .str "string" → t.kind = .string) ∧
      (prop.field "type" = .str "number" ∨ prop.field "type" = .str "integer" →
        t.kind = .number) ∧
      (prop.field "type" = .str "boolean" → t.kind = .boolean) ∧
      (prop.field "type" = .str "array" → t.kind = .arrayOfAny) ∧
      (prop.field "type" = .str "object" → t.kind = .openObject) ∧
      ((∀ name ∈ ["string", "number", "integer", "boolean", "array", "object"],
        prop.field "type" ≠ .str name) → t.kind = .any) ∧
      (∀ items, ZodKind.arrayOfAny.accepts (.arr items) = true) ∧
      (∀ fields, ZodKind.openObject.accepts (.obj fields) = true) ∧
      (∀ v, ZodKind.any.accepts v = true) := by
  refine ⟨_, _, convertSchema_obj mcpSchema props hp hd hr,
    mem_contractOf (mcpSchema.field "required") props key prop hm ho, ?_, ?_, ?_, ?_, ?_, ?_,
    fun _ => rfl, fun _ => rfl, ?_⟩
  · intro h
    simp [contractEntry, h, zodKindOfType, JSValue.strictEqStr]
  · rintro (h | h) <;> simp [contractEntry, h, zodKindOfType, JSValue.strictEqStr]
  · intro h
    simp [contractEntry, h, zodKindOfType, JSValue.strictEqStr]
  · intro h
    simp [contractEntry, h, zodKindOfType, JSValue.strictEqStr]
  · intro h
    simp [contractEntry, h, zodKindOfType, JSValue.strictEqStr]
  · intro h
    exact zodKindOfType_other _ h
  · intro v
    cases v <;> rfl

/-- Witness of C7: the property `b` of the sample schema, declared `integer`. -/
theorem convertSchema_kind_table_witness :
    sampleSchema.field "properties" = .obj sampleProps ∧
    ∃ shape t, WrappedMCPTool.convertSchema sampleSchema = .ok shape ∧ ("b", t) ∈ shape ∧
      ((JSValue.obj [("type", .str "integer")]).field "type" = .str "string" →
        t.kind = .string) ∧
      ((JSValue.obj [("type", .str "integer")]).field "type" = .str "number" ∨
        (JSValue.obj [("type", .str "integer")]).field "type" = .str "integer" →
        t.kind = .number) ∧
      ((JSValue.obj [("type", .str "integer")]).field "type" = .str "boolean" →
        t.kind = .boolean) ∧
      ((JSValue.obj [("type", .str "integer")]).field "type" = .str "array" →
        t.kind = .arrayOfAny) ∧
      ((JSValue.obj [("type", .str "integer")]).field "type" = .str "object" →
        t.kind = .openObject) ∧
      ((∀ name ∈ ["string", "number", "integer", "boolean", "array", "object"],
        (JSValue.obj [("type", .str "integer")]).field "type" ≠ .str name) → t.kind = .any) ∧
      (∀ items, ZodKind.arrayOfAny.accepts (.arr items) = true) ∧
      (∀ fields, ZodKind.openObject.accepts (.obj fields) = true) ∧
      (∀ v, ZodKind.any.accepts v = true) :=
  ⟨rfl, convertSchema_kind_table sampleSchema sampleProps "b" (.obj [("type", .str "integer")])
    rfl (by unfold DistinctKeys; decide) (Or.inr (Or.inl ⟨_, rfl⟩)) (by simp [sampleProps]) rfl⟩

theorem contractKeys_of_no_proto (shape : ParameterContract)
    (h : "__proto__" ∉ shape.map Prod.fst) : contractKeys shape = shape.map Prod.fst := by
  unfold contractKeys
  apply List.filter_eq_self.mpr
  intro key hkey
  have : key ≠ "__proto__" := fun e => h (e ▸ hkey)
  simpa using this

/-- C8 (amended): when the loop does not throw and the properties map has no
key `__proto__`, the keys of the contract are exactly the keys of the
properties map that are bound to a non-null object, in the same order and each
exactly once; a key bound to `null` or to a primitive has no entry. -/
theorem convertSchema_keys (mcpSchema : JSValue) (props : List (String × JSValue))
    (hp : mcpSchema.field "properties" = .obj props) (hd : DistinctKeys props)
    (hr : RequiredUsable (mcpSchema.field "required"))
    (hproto : "__proto__" ∉ props.map Prod.fst) :
    ∃ shape, WrappedMCPTool.convertSchema mcpSchema = .ok shape ∧
      contractKeys shape = (props.filter fun p => p.2.isObjectType).map Prod.fst ∧
      (contractKeys shape).Nodup ∧
      (∀ key, key ∈ contractKeys shape ↔
        ∃ prop, (key, prop) ∈ props ∧ prop.isObjectType = true) := by
  have hkeys : contractKeys (contractOf (mcpSchema.field "required") props)
      = (props.filter fun p => p.2.isObjectType).map Prod.fst := by
    rw [contractKeys_of_no_proto, keys_contractOf]
    rw [keys_contractOf]
    intro hmem
    obtain ⟨p, hpm, hk⟩ := List.mem_map.mp hmem
    exact hproto (hk ▸ List.mem_map_of_mem Prod.fst (List.mem_filter.mp hpm).1)
  refine ⟨_, convertSchema_obj mcpSchema props hp hd hr, hkeys, ?_, ?_⟩
  · rw [hkeys]
    exact hd.sublist (List.Sublist.map _ (List.filter_sublist _))
  · intro key
    rw [hkeys]
    constructor
    · intro h
      obtain ⟨p, hpm, hk⟩ := List.mem_map.mp h
      obtain ⟨h1, h2⟩ := List.mem_filter.mp hpm
      exact ⟨p.2, by rw [← hk]; exact h1, h2⟩
    · rintro ⟨prop, h1, h2⟩
      exact List.mem_map.mpr ⟨(key, prop), List.mem_filter.mpr ⟨h1, h2⟩, rfl⟩

/-- Witness of C8 (amended): the properties `{a: {type: string}, b: null, c: "string"}`. -/
theorem convertSchema_keys_witness :
    mixedSchema.field "properties" = .obj mixedProps ∧
    ("__proto__" ∉ mixedProps.map Prod.fst) ∧
    ∃ shape, WrappedMCPTool.convertSchema mixedSchema = .ok shape ∧
      contractKeys shape = (mixedProps.filter fun p => p.2.isObjectType).map Prod.fst ∧
      (contractKeys shape).Nodup ∧
      (∀ key, key ∈ contractKeys shape ↔
        ∃ prop, (key, prop) ∈ mixedProps ∧ prop.isObjectType = true) :=
  ⟨rfl, by decide, convertSchema_keys mixedSchema mixedProps rfl (by unfold DistinctKeys; decide)
    (Or.inl rfl) (by decide)⟩

/-- The slip left out of C5 and C8: for the properties `__proto__` and `a`, both
declared `string` and both required, the assignment `shape['__proto__'] = ...`
makes the zod type the prototype of `shape`; the contract has the key `a` only,
and the input `{a: "x"}`, which lacks `__proto__`, is accepted. -/
theorem convertSchema_proto_key_not_in_contract :
    ∃ shape, WrappedMCPTool.convertSchema protoPropsSchema = .ok shape ∧
      contractKeys shape = ["a"] ∧
      zodObjectAccepts shape (.obj [("a", .str "x")]) = true ∧
      zodObjectAccepts shape (.obj []) = false :=
  ⟨_, rfl, rfl, rfl, rfl⟩

/-- Counterexample to C8 as stated: the keys `b` (bound to `null`) and `c`
(bound to a string) of the properties map are missing from the contract. -/
theorem convertSchema_drops_non_object_keys :
    mixedSchema.field "properties" = .obj mixedProps ∧
    mixedProps.map Prod.fst = ["a", "b", "c"] ∧
    ∃ shape, WrappedMCPTool.convertSchema mixedSchema = .ok shape ∧
      shape.map Prod.fst = ["a"] :=
  ⟨rfl, rfl, _, rfl, rfl⟩

theorem objectEntries_ok (v : JSValue) (h : v.truthy = true) :
    ∃ entries, objectEntries v = .ok entries := by
  cases v <;> simp [JSValue.truthy] at h <;> exact ⟨_, rfl⟩

theorem convertEntries_no_object (mcpSchema : JSValue) (entries : List (String × JSValue))
    (shape : ParameterContract) (h : ∀ p ∈ entries, p.2.isObjectType = false) :
    convertEntries mcpSchema shape entries = .ok shape := by
  induction entries with
  | nil => rfl
  | cons p rest ih =>
    obtain ⟨key, prop⟩ := p
    have hp : prop.isObjectType = false := h (key, prop) (List.mem_cons_self _ _)
    simp only [convertEntries, convertProperty, hp, Bool.false_eq_true, if_false, pure,
      Except.pure]
    exact ih (fun q hq => h q (List.mem_cons_of_mem _ hq))

theorem convertSchema_falsy_properties (mcpSchema : JSValue)
    (h : (mcpSchema.field "properties").truthy = false) :
    WrappedMCPTool.convertSchema mcpSchema = .ok [] := by
  by_cases hs : mcpSchema.isNullish = true
  · simp [WrappedMCPTool.convertSchema, hs, JSValue.truthy, bind, Except.bind, pure, Except.pure]
  · have hs2 : mcpSchema.isNullish = false := by simpa using hs
    simp [WrappedMCPTool.convertSchema, hs2, getField_field mcpSchema _ hs2, h, bind,
      Except.bind, pure, Except.pure]

/-- C9 (amended): `convertSchema` returns a contract without raising whenever
the `required` field is falsy (absent), a list or a string; and the contract is
empty when the value is not an object (`null`, `undefined`, a boolean, a
number, a string, an array), when it has no `properties` or a falsy one, and
when `properties` holds no entry bound to a non-null object, whatever
`required` is. -/
theorem convertSchema_malformed (mcpSchema : JSValue) :
    (RequiredUsable (mcpSchema.field "required") →
      ∃ shape, WrappedMCPTool.convertSchema mcpSchema = .ok shape) ∧
    ((∀ fields, mcpSchema ≠ .obj fields) → WrappedMCPTool.convertSchema mcpSchema = .ok []) ∧
    ((mcpSchema.field "properties").truthy = false →
      WrappedMCPTool.convertSchema mcpSchema = .ok []) ∧
    (∀ entries, objectEntries (mcpSchema.field "properties") = .ok entries →
      (∀ p ∈ entries, p.2.isObjectType = false) →
      WrappedMCPTool.convertSchema mcpSchema = .ok []) := by
  refine ⟨?_, ?_, convertSchema_falsy_properties mcpSchema, ?_⟩
  · intro hr
    by_cases ht : (mcpSchema.field "properties").truthy = true
    · have hs : mcpSchema.isNullish = false := by
        cases mcpSchema <;> simp [JSValue.field, JSValue.truthy] at ht
        rfl
      obtain ⟨entries, he⟩ := objectEntries_ok _ ht
      exact ⟨_, convertSchema_entries mcpSchema entries hs ht he hr⟩
    · exact ⟨[], convertSchema_falsy_properties mcpSchema (by simpa using ht)⟩
  · intro hno
    apply convertSchema_falsy_properties
    cases mcpSchema with
    | obj fields => exact absurd rfl (hno fields)
    | _ => rfl
  · intro entries he hall
    by_cases ht : (mcpSchema.field "properties").truthy = true
    · have hs : mcpSchema.isNullish = false := by
        cases mcpSchema <;> simp [JSValue.field, JSValue.truthy] at ht
        rfl
      simp only [WrappedMCPTool.convertSchema, hs, getField_field mcpSchema _ hs, bind,
        Except.bind, ht, he, if_true, Bool.false_eq_true, if_false]
      exact convertEntries_no_object mcpSchema entries [] hall
    · exact convertSchema_falsy_properties mcpSchema (by simpa using ht)

/-- Witness of C9 (amended): the sample schema is adapted without raising, a
string passed as schema gives the empty contract, and so does a schema whose
`properties` is a string, even with a `required` that is not a list. -/
theorem convertSchema_malformed_witness :
    (∃ shape, WrappedMCPTool.convertSchema sampleSchema = .ok shape) ∧
    WrappedMCPTool.convertSchema (.str "schema") = .ok [] ∧
    WrappedMCPTool.convertSchema (.obj [("type", .str "object")]) = .ok [] ∧
    WrappedMCPTool.convertSchema
      (.obj [("properties", .str "ab"), ("required", .bool true)]) = .ok [] :=
  ⟨(convertSchema_malformed sampleSchema).1 (Or.inr (Or.inl ⟨_, rfl⟩)),
   (convertSchema_malformed (.str "schema")).2.1 (fun _ h => by cases h),
   (convertSchema_malformed (.obj [("type", .str "object")])).2.2.1 rfl,
   (convertSchema_malformed (.obj [("properties", .str "ab"), ("required", .bool true)])).2.2.2
     [("0", .str "a"), ("1", .str "b")] rfl (by decide)⟩

/-- Counterexample to C9 as stated: a `properties` that is an array of property
objects gives a contract with the entry `0`, not the empty contract; and a
`required` that is `true` makes `convertSchema` raise a `TypeError`. -/
theorem convertSchema_malformed_not_empty :
    WrappedMCPTool.convertSchema arrayPropsSchema = .ok [("0", ⟨.string, none, false⟩)] ∧
    WrappedMCPTool.convertSchema badRequiredSchema
      = .error (.typeError "mcpSchema.required.includes is not a function") :=
  ⟨rfl, rfl⟩

/-! ## Claims on `performInitialization` -/

theorem collectMCPTools_error (env : InitEnvironment) (tools : List RegisteredTool) (e : JSError)
    (h : (mcpInitOutcome env).2 = .error e) :
    (collectMCPTools env tools).2 = .error e := by
  simp [collectMCPTools, h]

theorem collectMCPTools_ok (env : InitEnvironment) (tools : List RegisteredTool)
    (skipped : List String)
    (h : (mcpInitOutcome env).2 = .ok skipped) :
    (collectMCPTools env tools).2 = .ok (tools ++
      ((mcpInitOutcome env).1.getTools).map RegisteredTool.mcp) := by
  simp only [collectMCPTools, h]
  cases hl : (mcpInitOutcome env).1.getTools with
  | nil => simp
  | cons t rest => simp

theorem getTools_listing_error (self : MCPTools) (client : MCPClient) (e : JSError)
    (hc : self.mcpClient = some client) (he : client.getTools = .error e) :
    self.getTools = [] := by
  simp [MCPTools.getTools, hc, he, Except.bind]

/-- C10 (amended): when the filesystem, command and git sources list their
tools without throwing, `performInitialization` completes whatever the MCP
source does, and the registry handed to the agent is the descriptors of the
three local sources, in order, followed by the wrapped MCP tools; when the MCP
`initialize` throws, or when the listing of the MCP client throws, the registry
is exactly the local descriptors, and otherwise the MCP part is what
`getTools` returns. -/
theorem performInitialization_tolerates_mcp_failure (env : InitEnvironment)
    (fs cmd git : List LocalTool)
    (hfs : env.filesystemTools = .ok fs) (hcmd : env.commandTools = .ok cmd)
    (hgit : env.gitTools = .ok git) :
    ∃ app, CodeMieCode.performInitialization env = .ok app ∧
      (∃ mcpPart : List WrappedMCPTool, app.agentTools
        = fs.map RegisteredTool.builtin ++ cmd.map RegisteredTool.builtin
          ++ git.map RegisteredTool.builtin ++ mcpPart.map RegisteredTool.mcp) ∧
      (∀ e, (mcpInitOutcome env).2 = .error e →
        app.agentTools = fs.map RegisteredTool.builtin ++ cmd.map RegisteredTool.builtin
          ++ git.map RegisteredTool.builtin) ∧
      (∀ skipped client e, (mcpInitOutcome env).2 = .ok skipped →
        (mcpInitOutcome env).1.mcpClient = some client → client.getTools = .error e →
        app.agentTools = fs.map RegisteredTool.builtin ++ cmd.map RegisteredTool.builtin
          ++ git.map RegisteredTool.builtin) ∧
      (∀ skipped, (mcpInitOutcome env).2 = .ok skipped →
        app.agentTools = fs.map RegisteredTool.builtin ++ cmd.map RegisteredTool.builtin
          ++ git.map RegisteredTool.builtin
          ++ ((mcpInitOutcome env).1.getTools).map RegisteredTool.mcp) := by
  simp only [CodeMieCode.performInitialization, hfs, hcmd, hgit, bind, Except.bind, pure,
    Except.pure, List.nil_append]
  refine ⟨_, rfl, ?_, ?_, ?_, ?_⟩
  · cases hi : (mcpInitOutcome env).2 with
    | error e =>
      refine ⟨[], ?_⟩
      simp only [collectMCPTools_error env _ e hi]
      simp
    | ok skipped =>
      refine ⟨(mcpInitOutcome env).1.getTools, ?_⟩
      simp only [collectMCPTools_ok env _ skipped hi]
  · intro e he
    simp only [collectMCPTools_error env _ e he]
  · intro skipped client e hs hc he
    simp only [collectMCPTools_ok env _ skipped hs, getTools_listing_error _ client e hc he]
    simp
  · intro skipped hs
    simp only [collectMCPTools_ok env _ skipped hs]

/-- Witness of C10 (amended): the MCP configuration has a `null` entry, so
`initialize` throws; the registry holds the four local descriptors. -/
theorem performInitialization_tolerates_mcp_failure_witness :
    (∃ e, (mcpInitOutcome mcpFailsEnv).2 = .error e) ∧
    ∃ app, CodeMieCode.performInitialization mcpFailsEnv = .ok app ∧
      (∃ mcpPart : List WrappedMCPTool, app.agentTools
        = ([⟨"read_file", "Read a file"⟩, ⟨"write_file", "Write a file"⟩] :
            List LocalTool).map RegisteredTool.builtin
          ++ ([⟨"execute_command", "Run a shell command"⟩] :
            List LocalTool).map RegisteredTool.builtin
          ++ ([⟨"git_status", "Show the git status"⟩] :
            List LocalTool).map RegisteredTool.builtin
          ++ mcpPart.map RegisteredTool.mcp) ∧
      (∀ e, (mcpInitOutcome mcpFailsEnv).2 = .error e →
        app.agentTools
          = ([⟨"read_file", "Read a file"⟩, ⟨"write_file", "Write a file"⟩] :
              List LocalTool).map RegisteredTool.builtin
            ++ ([⟨"execute_command", "Run a shell command"⟩] :
              List LocalTool).map RegisteredTool.builtin
            ++ ([⟨"git_status", "Show the git status"⟩] :
              List LocalTool).map RegisteredTool.builtin) ∧
      (∀ skipped client e, (mcpInitOutcome mcpFailsEnv).2 = .ok skipped →
        (mcpInitOutcome mcpFailsEnv).1.mcpClient = some client → client.getTools = .error e →
        app.agentTools
          = ([⟨"read_file", "Read a file"⟩, ⟨"write_file", "Write a file"⟩] :
              List LocalTool).map RegisteredTool.builtin
            ++ ([⟨"execute_command", "Run a shell command"⟩] :
              List LocalTool).map RegisteredTool.builtin
            ++ ([⟨"git_status", "Show the git status"⟩] :
              List LocalTool).map RegisteredTool.builtin) ∧
      (∀ skipped, (mcpInitOutcome mcpFailsEnv).2 = .ok skipped →
        app.agentTools
          = ([⟨"read_file", "Read a file"⟩, ⟨"write_file", "Write a file"⟩] :
              List LocalTool).map RegisteredTool.builtin
            ++ ([⟨"execute_command", "Run a shell command"⟩] :
              List LocalTool).map RegisteredTool.builtin
            ++ ([⟨"git_status", "Show the git status"⟩] :
              List LocalTool).map RegisteredTool.builtin
            ++ ((mcpInitOutcome mcpFailsEnv).1.getTools).map RegisteredTool.mcp) :=
  ⟨⟨_, rfl⟩, performInitialization_tolerates_mcp_failure mcpFailsEnv _ _ _ rfl rfl rfl⟩

/-- Counterexample to C10 as stated: the filesystem source throws while the
command, git and MCP sources are healthy; `performInitialization` fails with
the error of the filesystem source and no registry is handed to the agent. -/
theorem performInitialization_local_failure_aborts :
    filesystemFailsEnv.commandTools = .ok [⟨"execute_command", "Run a shell command"⟩] ∧
    filesystemFailsEnv.gitTools = .ok [⟨"git_status", "Show the git status"⟩] ∧
    CodeMieCode.performInitialization filesystemFailsEnv
      = .error (.other "filesystem tools unavailable") :=
  ⟨rfl, rfl, rfl⟩

/-! ## Claims on `MCPTools.initialize` -/

theorem lookupProp_setKey_ne (props : List (String × JSValue)) (k k1 : String) (v : JSValue)
    (h : k1 ≠ k) : lookupProp (setKey props k v) k1 = lookupProp props k1 := by
  induction props with
  | nil =>
    have hb : (k1 == k) = false := by simpa using h
    simp [setKey, lookupProp, List.lookup, hb]
  | cons p rest ih =>
    obtain ⟨k2, w⟩ := p
    by_cases hk : k2 = k
    · subst hk
      have hb : (k1 == k2) = false := by simpa using h
      simp [setKey, lookupProp, List.lookup, hb]
    · simp only [setKey, hk, if_false]
      by_cases h2 : k1 = k2
      · subst h2
        simp [lookupProp, List.lookup]
      · have hb : (k1 == k2) = false := by simpa using h2
        simp only [lookupProp, List.lookup, hb] at ih ⊢
        exact ih

theorem keys_setKey {α : Type} (props : List (String × α)) (k : String) (v : α) :
    (setKey props k v).map Prod.fst
      = if k ∈ props.map Prod.fst then props.map Prod.fst else props.map Prod.fst ++ [k] := by
  induction props with
  | nil => simp [setKey]
  | cons p rest ih =>
    obtain ⟨k2, w⟩ := p
    by_cases hk : k2 = k
    · subst hk
      simp [setKey]
    · have hne : ¬ k = k2 := fun e => hk e.symm
      simp only [setKey, hk, if_false, List.map_cons, ih, List.mem_cons, hne, false_or]
      split <;> simp

theorem distinctKeys_setKey {α : Type} (props : List (String × α)) (k : String) (v : α)
    (h : DistinctKeys props) : DistinctKeys (setKey props k v) := by
  unfold DistinctKeys at h ⊢
  rw [keys_setKey]
  split
  · exact h
  · rename_i hk
    exact List.nodup_append.mpr ⟨h, List.nodup_singleton k, by
      intro a ha hb
      simp only [List.mem_singleton] at hb
      subst hb
      exact hk ha⟩

theorem writeComputed_plain (props : List (String × JSValue)) (proto : Prototype)
    (name : String) (v : JSValue) (h : name ≠ "__proto__") :
    writeComputed props proto name v = (setKey props name v, proto) := by
  simp [writeComputed, h]

theorem selectStep_truthy (configs : List (String × JSValue)) (P : Prototype) (acc : Selection)
    (s : String) (hs : s ≠ "__proto__") (ht : (readComputed configs P s).truthy = true) :
    selectStep configs P acc s
      = ⟨setKey acc.serverConfigs s (readComputed configs P s), acc.prototype,
          acc.failedServers⟩ := by
  simp [selectStep, ht, writeComputed_plain _ _ s _ hs]

theorem selectStep_falsy (configs : List (String × JSValue)) (P : Prototype) (acc : Selection)
    (s : String) (ht : ¬ (readComputed configs P s).truthy = true) :
    selectStep configs P acc s
      = ⟨acc.serverConfigs, acc.prototype, acc.failedServers ++ [s]⟩ := by
  simp [selectStep, ht]

/-- The loop of `selectServers` on names other than `__proto__`. -/
theorem selectServers_fold (configs : List (String × JSValue)) (P : Prototype)
    (L : List String) (hL : "__proto__" ∉ L) (acc : Selection) :
    (∀ name, name ∈ (L.foldl (selectStep configs P) acc).serverConfigs.map Prod.fst ↔
      name ∈ acc.serverConfigs.map Prod.fst ∨
        (name ∈ L ∧ (readComputed configs P name).truthy = true)) ∧
    ((∀ name ∈ acc.serverConfigs.map Prod.fst,
        lookupProp acc.serverConfigs name = readComputed configs P name) →
      ∀ name ∈ (L.foldl (selectStep configs P) acc).serverConfigs.map Prod.fst,
        lookupProp (L.foldl (selectStep configs P) acc).serverConfigs name
          = readComputed configs P name) ∧
    (L.foldl (selectStep configs P) acc).failedServers
      = acc.failedServers ++ L.filter (fun name => !(readComputed configs P name).truthy) ∧
    (DistinctKeys acc.serverConfigs →
      DistinctKeys (L.foldl (selectStep configs P) acc).serverConfigs) := by
  induction L generalizing acc with
  | nil => simp
  | cons s rest ih =>
    have hs : s ≠ "__proto__" := fun e => hL (e ▸ List.mem_cons_self _ _)
    have hrest : "__proto__" ∉ rest := fun h => hL (List.mem_cons_of_mem _ h)
    simp only [List.foldl_cons]
    by_cases ht : (readComputed configs P s).truthy = true
    · rw [selectStep_truthy configs P acc s hs ht]
      obtain ⟨h1, h2, h3, h4⟩ := ih hrest
        ⟨setKey acc.serverConfigs s (readComputed configs P s), acc.prototype,
          acc.failedServers⟩
      refine ⟨?_, ?_, ?_, ?_⟩
      · intro name
        rw [h1 name]
        simp only [keys_setKey, List.mem_cons]
        by_cases hm : s ∈ acc.serverConfigs.map Prod.fst
        · simp only [hm, if_true]
          constructor
          · rintro (h | ⟨h, ht2⟩)
            · exact Or.inl h
            · exact Or.inr ⟨Or.inr h, ht2⟩
          · rintro (h | ⟨h | h, ht2⟩)
            · exact Or.inl h
            · subst h
              exact Or.inl hm
            · exact Or.inr ⟨h, ht2⟩
        · simp only [hm, if_false, List.mem_append, List.mem_singleton]
          constructor
          · rintro ((h | h) | ⟨h, ht2⟩)
            · exact Or.inl h
            · subst h
              exact Or.inr ⟨Or.inl rfl, ht⟩
            · exact Or.inr ⟨Or.inr h, ht2⟩
          · rintro (h | ⟨h | h, ht2⟩)
            · exact Or.inl (Or.inl h)
            · exact Or.inl (Or.inr h)
            · exact Or.inr ⟨h, ht2⟩
      · intro hacc
        apply h2
        intro name hname
        by_cases hn : name = s
        · subst hn
          exact lookupProp_setKey_self _ _ _
        · rw [lookupProp_setKey_ne _ _ _ _ hn]
          apply hacc
          simp only [keys_setKey] at hname
          split at hname
          · exact hname
          · rcases List.mem_append.mp hname with h | h
            · exact h
            · simp only [List.mem_singleton] at h
              exact absurd h hn
      · rw [h3]
        simp [List.filter_cons, ht]
      · intro hd
        exact h4 (distinctKeys_setKey _ _ _ hd)
    · rw [selectStep_falsy configs P acc s ht]
      obtain ⟨h1, h2, h3, h4⟩ := ih hrest
        ⟨acc.serverConfigs, acc.prototype, acc.failedServers ++ [s]⟩
      refine ⟨?_, h2, ?_, h4⟩
      · intro name
        rw [h1 name]
        simp only [List.mem_cons]
        constructor
        · rintro (h | ⟨h, ht2⟩)
          · exact Or.inl h
          · exact Or.inr ⟨Or.inr h, ht2⟩
        · rintro (h | ⟨h | h, ht2⟩)
          · exact Or.inl h
          · subst h
            exact absurd ht2 ht
          · exact Or.inr ⟨h, ht2⟩
      · rw [h3]
        simp [List.filter_cons, ht]

theorem truthy_lookup_iff_mem (configs : List (String × JSValue))
    (h : ∀ p ∈ configs, p.2.truthy = true) (name : String) :
    (lookupProp configs name).truthy = true ↔ name ∈ configs.map Prod.fst := by
  induction configs with
  | nil => simp [lookupProp, JSValue.truthy]
  | cons p rest ih =>
    obtain ⟨k, v⟩ := p
    by_cases hk : name = k
    · subst hk
      have hv : v.truthy = true := h (name, v) (List.mem_cons_self _ _)
      simp [lookupProp, List.lookup, hv]
    · have hb : (name == k) = false := by simpa using hk
      have := ih (fun q hq => h q (List.mem_cons_of_mem _ hq))
      simp only [lookupProp, List.lookup, hb, List.map_cons, List.mem_cons, hk, false_or] at this ⊢
      exact this

theorem selectServers_all_fold (configs : List (String × JSValue)) (P Q : Prototype)
    (todo done : List (String × JSValue)) (fails : List String)
    (hd : DistinctKeys (done ++ todo))
    (hl : ∀ p ∈ todo, readComputed configs P p.1 = p.2 ∧ p.2.truthy = true ∧
      p.1 ≠ "__proto__") :
    (todo.map Prod.fst).foldl (selectStep configs P) ⟨done, Q, fails⟩
      = ⟨done ++ todo, Q, fails⟩ := by
  induction todo generalizing done with
  | nil => simp
  | cons p rest ih =>
    obtain ⟨h1, h2, h3⟩ := hl p (List.mem_cons_self _ _)
    have hk : p.1 ∉ done.map Prod.fst := by
      unfold DistinctKeys at hd
      simp only [List.map_append, List.map_cons] at hd
      have := (List.nodup_append.mp hd).2.2
      intro hm
      exact this hm (List.mem_cons_self _ _)
    simp only [List.map_cons, List.foldl_cons]
    rw [selectStep_truthy configs P _ p.1 h3 (by rw [h1]; exact h2), h1]
    simp only
    rw [setKey_fresh done p.1 p.2 hk, ih (done ++ [(p.1, p.2)])
      (by simpa using hd) (fun q hq => hl q (List.mem_cons_of_mem _ hq))]
    simp

theorem selectServers_all (configs : List (String × JSValue)) (P : Prototype)
    (hd : DistinctKeys configs) (ht : ∀ p ∈ configs, p.2.truthy = true)
    (hproto : "__proto__" ∉ configs.map Prod.fst) :
    selectServers configs P (configs.map Prod.fst) = (configs, []) := by
  have := selectServers_all_fold configs P .standard configs [] [] (by simpa using hd)
    (fun p hp => ⟨(readComputed_own configs P p.1 (List.mem_map_of_mem Prod.fst hp)).trans
        (lookupProp_of_mem configs p.1 p.2 hd hp), ht p hp,
      fun e => hproto (e ▸ List.mem_map_of_mem Prod.fst hp)⟩)
  simp [selectServers, this]

theorem mem_keys_foldl_setKey (es acc : List (String × JSValue)) (k : String)
    (h : k ∈ (es.foldl (fun a p => setKey a p.1 p.2) acc).map Prod.fst) :
    k ∈ acc.map Prod.fst ∨ k ∈ es.map Prod.fst := by
  induction es generalizing acc with
  | nil => exact Or.inl h
  | cons p rest ih =>
    simp only [List.foldl_cons] at h
    rcases ih _ h with h1 | h1
    · rw [keys_setKey] at h1
      split at h1
      · exact Or.inl h1
      · rcases List.mem_append.mp h1 with h2 | h2
        · exact Or.inl h2
        · rw [List.mem_singleton.mp h2]
          exact Or.inr (by simp)
    · exact Or.inr (by simp [h1])

theorem objectAssign_no_proto (src : JSValue) :
    "__proto__" ∉ (objectAssign [] src).map Prod.fst := by
  unfold objectAssign
  cases objectEntries src with
  | error e => simp
  | ok es =>
    intro h
    rcases mem_keys_foldl_setKey _ _ _ h with h1 | h1
    · simp at h1
    · obtain ⟨p, hp, hk⟩ := List.mem_map.mp h1
      have := (List.mem_filter.mp hp).2
      simp [hk] at this

theorem loadGlobal_no_proto (g : ConfigFile) (st : LoadState)
    (h : loadGlobal ⟨[], false, .standard⟩ g = .ok st) :
    "__proto__" ∉ st.configs.map Prod.fst := by
  unfold loadGlobal at h
  cases hj : readJSON g with
  | error e => simp [hj, bind, Except.bind] at h
  | ok v =>
    cases hm : v.getField "mcpServers" with
    | error e => simp [hj, hm, bind, Except.bind] at h
    | ok m =>
      by_cases ht : m.truthy = true
      · cases hk : objectKeys m with
        | error e => simp [hj, hm, ht, hk, bind, Except.bind] at h
        | ok keys =>
          by_cases hl : keys.length > 0
          · simp only [hj, hm, ht, hk, hl, bind, Except.bind, if_true, pure, Except.pure,
              Except.ok.injEq] at h
            rw [← h]
            exact objectAssign_no_proto m
          · simp only [hj, hm, ht, hk, hl, bind, Except.bind, if_true, if_false, pure,
              Except.pure, Except.ok.injEq] at h
            rw [← h]
            simp
      · simp only [hj, hm, ht, bind, Except.bind, if_false, pure, Except.pure,
          Except.ok.injEq, Bool.false_eq_true] at h
        rw [← h]
        simp

theorem bundledFold_no_proto (es acc : List (String × JSValue))
    (h : "__proto__" ∉ acc.map Prod.fst) :
    "__proto__" ∉ (es.foldl
      (fun a p => if !(readComputed a .standard p.1).truthy then setKey a p.1 p.2 else a)
      acc).map Prod.fst := by
  induction es generalizing acc with
  | nil => exact h
  | cons p rest ih =>
    simp only [List.foldl_cons]
    apply ih
    split
    · rename_i hf
      have hp : p.1 ≠ "__proto__" := by
        intro e
        rw [e, readComputed_standard_fresh acc "__proto__" h] at hf
        simp [objectPrototypeMember, JSValue.truthy] at hf
      rw [keys_setKey]
      split
      · exact h
      · intro hm
        rcases List.mem_append.mp hm with h1 | h1
        · exact h h1
        · exact hp (List.mem_singleton.mp h1).symm
    · exact h

theorem loadBundled_no_proto (configs : List (String × JSValue)) (b : ConfigFile)
    (cs : List (String × JSValue)) (h : loadBundled configs b = .ok cs)
    (hc : "__proto__" ∉ configs.map Prod.fst) : "__proto__" ∉ cs.map Prod.fst := by
  unfold loadBundled at h
  cases hj : readJSON b with
  | error e => simp [hj, bind, Except.bind] at h
  | ok v =>
    cases hm : v.getField "mcpServers" with
    | error e => simp [hj, hm, bind, Except.bind] at h
    | ok m =>
      by_cases ht : m.truthy = true
      · cases he : objectEntries m with
        | error e => simp [hj, hm, ht, he, bind, Except.bind] at h
        | ok es =>
          simp only [hj, hm, ht, he, bind, Except.bind, if_true, pure, Except.pure,
            Except.ok.injEq] at h
          rw [← h]
          exact bundledFold_no_proto es configs hc
      · simp only [hj, hm, ht, bind, Except.bind, if_false, pure, Except.pure,
          Except.ok.injEq, Bool.false_eq_true] at h
        rw [← h]
        exact hc

theorem selectConfigs_no_proto (g b : ConfigFile) :
    "__proto__" ∉ (selectConfigs g b).map Prod.fst := by
  unfold selectConfigs
  simp only
  cases hg : loadGlobal ⟨[], false, .standard⟩ g with
  | error e =>
    simp only [Bool.not_false, if_true]
    cases hb : loadBundled [] b with
    | error e2 => simp
    | ok cs => exact loadBundled_no_proto [] b cs hb (by simp)
  | ok st =>
    have h1 := loadGlobal_no_proto g st hg
    simp only
    split
    · cases hb : loadBundled st.configs b with
      | error e2 => exact h1
      | ok cs => exact loadBundled_no_proto st.configs b cs hb h1
    · exact h1

theorem injectAll_keys (E : ProcessEnv) (l r : List (String × JSValue))
    (h : injectAll E l = .ok r) : r.map Prod.fst = l.map Prod.fst := by
  induction l generalizing r with
  | nil =>
    simp only [injectAll, Except.ok.injEq] at h
    rw [← h]
  | cons p rest ih =>
    obtain ⟨k, c⟩ := p
    simp only [injectAll] at h
    cases hc : injectConfig E c with
    | error e => simp [hc] at h
    | ok c1 =>
      cases hr : injectAll E rest with
      | error e => simp [hc, hr] at h
      | ok r1 =>
        simp only [hc, hr, Except.ok.injEq] at h
        rw [← h]
        simp [ih r1 hr]

theorem loadMCPConfigs_no_proto (E : ProcessEnv) (g b : ConfigFile)
    (configs : List (String × JSValue))
    (h : MCPTools.loadMCPConfigs E g b = .ok configs) :
    "__proto__" ∉ configs.map Prod.fst := by
  unfold MCPTools.loadMCPConfigs at h
  rw [injectAll_keys E _ configs h]
  exact selectConfigs_no_proto g b

/-- Support for C12: for a list `L` of names other than `__proto__`,
`initialize(L)` on a resolved configuration map `C` selects for the MCP client
exactly the names of `L` for which the read `C[name]` is truthy, each with what
that read gives, and lists as skipped the other names of `L`, in the order of
`L`; the client constructor receives this selection, and `initialize` fails
only when that constructor fails: with no name selected no client is made and
the call succeeds. When the prototype of `C` is `Object.prototype`, the read
`C[name]` of a name that is not a member name of `Object.prototype` is the own
property; and when every definition of `C` is an object (truthy), an own
property is truthy exactly for the keys of `C`. -/
theorem initialize_explicit_names (E : ProcessEnv) (globalFile bundledFile : ConfigFile)
    (newClient : List (String × JSValue) → Except JSError MCPClient) (self : MCPTools)
    (L : List String) (configs : List (String × JSValue))
    (hload : MCPTools.loadMCPConfigs E globalFile bundledFile = .ok configs)
    (hL : "__proto__" ∉ L) :
    (∀ name, name ∈ (selectServers configs (selectPrototype globalFile) L).1.map Prod.fst ↔
      name ∈ L ∧ (readComputed configs (selectPrototype globalFile) name).truthy = true) ∧
    (∀ name ∈ (selectServers configs (selectPrototype globalFile) L).1.map Prod.fst,
      lookupProp (selectServers configs (selectPrototype globalFile) L).1 name
        = readComputed configs (selectPrototype globalFile) name) ∧
    DistinctKeys (selectServers configs (selectPrototype globalFile) L).1 ∧
    (selectServers configs (selectPrototype globalFile) L).2
      = L.filter (fun name => !(readComputed configs (selectPrototype globalFile) name).truthy) ∧
    (selectPrototype globalFile = .standard → ∀ name, name ∉ objectPrototypeNames →
      readComputed configs (selectPrototype globalFile) name = lookupProp configs name) ∧
    ((∀ p ∈ configs, p.2.truthy = true) →
      ∀ name, (lookupProp configs name).truthy = true ↔ name ∈ configs.map Prod.fst) ∧
    ((selectServers configs (selectPrototype globalFile) L).1 = [] →
      ( MCPTools.initialize E globalFile bundledFile newClient self (some L))
        = ({ self with enabledServers := L },
            .ok (selectServers configs (selectPrototype globalFile) L).2)) ∧
    (∀ client, (selectServers configs (selectPrototype globalFile) L).1 ≠ [] →
      newClient (selectServers configs (selectPrototype globalFile) L).1 = .ok client →
      ( MCPTools.initialize E globalFile bundledFile newClient self (some L))
        = (⟨some client, L⟩, .ok (selectServers configs (selectPrototype globalFile) L).2)) ∧
    (∀ e, (selectServers configs (selectPrototype globalFile) L).1 ≠ [] →
      newClient (selectServers configs (selectPrototype globalFile) L).1 = .error e →
      ( MCPTools.initialize E globalFile bundledFile newClient self (some L))
        = ({ self with enabledServers := L }, .error e)) := by
  obtain ⟨h1, h2, h3, h4⟩ :=
    selectServers_fold configs (selectPrototype globalFile) L hL ⟨[], .standard, []⟩
  refine ⟨?_, ?_, ?_, ?_, ?_, truthy_lookup_iff_mem configs, ?_, ?_, ?_⟩
  · intro name
    have := h1 name
    simpa [selectServers] using this
  · exact h2 (by simp)
  · exact h4 (by simp [DistinctKeys])
  · simpa [selectServers] using h3
  · intro hstd name hname
    rw [hstd]
    exact readComputed_standard_plain configs name hname
  · intro hempty
    simp [ MCPTools.initialize, hload, hempty]
  · intro client hne hc
    have hlen : 0 < (selectServers configs (selectPrototype globalFile) L).1.length :=
      List.length_pos.mpr hne
    simp [ MCPTools.initialize, hload, hlen, hc]
  · intro e hne hc
    have hlen : 0 < (selectServers configs (selectPrototype globalFile) L).1.length :=
      List.length_pos.mpr hne
    simp [ MCPTools.initialize, hload, hlen, hc]

/-- The map `{time: Y}` and the names `time` and `missing`: the client
receives the entry `time` and `missing` is skipped. -/
theorem initialize_explicit_names_witness :
    MCPTools.loadMCPConfigs emptyEnv (.parsed (.obj [("mcpServers", .obj timeConfigs)]))
      .unreadable = .ok timeConfigs ∧
    (selectServers timeConfigs .standard ["time", "missing"]).1 = [("time", sampleY)] ∧
    (selectServers timeConfigs .standard ["time", "missing"]).2 = ["missing"] ∧
    ( MCPTools.initialize emptyEnv (.parsed (.obj [("mcpServers", .obj timeConfigs)]))
        .unreadable (fun _ => .ok timeClient) MCPTools.fresh (some ["time", "missing"]))
      = (⟨some timeClient, ["time", "missing"]⟩, .ok ["missing"]) :=
  ⟨rfl, rfl, rfl,
   (initialize_explicit_names emptyEnv (.parsed (.obj [("mcpServers", .obj timeConfigs)]))
     .unreadable (fun _ => .ok timeClient) MCPTools.fresh ["time", "missing"] timeConfigs
     rfl (by decide)).2.2.2.2.2.2.2.1 timeClient (fun h => List.cons_ne_nil _ _ h) rfl⟩

/-- C12: on the configuration map `{time: Y}`, `initialize(['toString'])`
does not skip the name `toString`, which the map does not define: the read
`configs['toString']` gives the function that every object inherits from
`Object.prototype`, which is truthy, so the client constructor is handed the
entry `toString` bound to that function and nothing is reported as skipped; a
name that no object inherits, such as `missing`, is skipped. -/
theorem initialize_member_name_selected
    (newClient : List (String × JSValue) → Except JSError MCPClient) :
    MCPTools.loadMCPConfigs emptyEnv (.parsed (.obj [("mcpServers", .obj timeConfigs)]))
      .unreadable = .ok timeConfigs ∧
    "toString" ∉ timeConfigs.map Prod.fst ∧
    selectServers timeConfigs .standard ["toString", "missing"]
      = ([("toString", .native "toString")], ["missing"]) ∧
    ( MCPTools.initialize emptyEnv (.parsed (.obj [("mcpServers", .obj timeConfigs)]))
        .unreadable newClient MCPTools.fresh (some ["toString"]))
      = (match newClient [("toString", .native "toString")] with
          | .ok client => (⟨some client, ["toString"]⟩, .ok [])
          | .error e => (⟨none, ["toString"]⟩, .error e)) := by
  refine ⟨rfl, by decide, rfl, ?_⟩
  have hsel : selectServers timeConfigs (selectPrototype
      (.parsed (.obj [("mcpServers", .obj timeConfigs)]))) ["toString"]
      = ([("toString", .native "toString")], []) := rfl
  have hload : MCPTools.loadMCPConfigs emptyEnv
      (.parsed (.obj [("mcpServers", .obj timeConfigs)])) .unreadable = .ok timeConfigs := rfl
  simp only [ MCPTools.initialize, hload, Option.getD_some, hsel]
  cases h : newClient [("toString", .native "toString")] <;> simp [MCPTools.fresh]

/-- C13: `initialize([])` on a fresh `MCPTools` creates no MCP client, whatever
the configuration and the client constructor, so a following `getTools` returns
the empty list; when the configuration resolves, the call succeeds with nothing
skipped. An absent argument is different: it selects every configured server,
and the client constructor then receives the whole map. -/
theorem initialize_empty_list (E : ProcessEnv) (globalFile bundledFile : ConfigFile)
    (newClient : List (String × JSValue) → Except JSError MCPClient) :
    ( MCPTools.initialize E globalFile bundledFile newClient MCPTools.fresh
      (some [])).1.mcpClient = none ∧
    ( MCPTools.initialize E globalFile bundledFile newClient MCPTools.fresh
      (some [])).1.getTools = [] ∧
    (∀ configs, MCPTools.loadMCPConfigs E globalFile bundledFile = .ok configs →
      ( MCPTools.initialize E globalFile bundledFile newClient MCPTools.fresh (some []))
        = (⟨none, []⟩, .ok [])) ∧
    (∀ configs client, MCPTools.loadMCPConfigs E globalFile bundledFile = .ok configs →
      configs ≠ [] → DistinctKeys configs → (∀ p ∈ configs, p.2.truthy = true) →
      newClient configs = .ok client →
      ( MCPTools.initialize E globalFile bundledFile newClient MCPTools.fresh none)
        = (⟨some client, configs.map Prod.fst⟩, .ok [])) := by
  have hstate : ( MCPTools.initialize E globalFile bundledFile newClient MCPTools.fresh
      (some [])).1.mcpClient = none := by
    unfold MCPTools.initialize
    cases MCPTools.loadMCPConfigs E globalFile bundledFile with
    | error e => rfl
    | ok configs => rfl
  refine ⟨hstate, ?_, ?_, ?_⟩
  · simp [MCPTools.getTools, hstate]
  · intro configs hload
    simp only [ MCPTools.initialize, hload]
    rfl
  · intro configs client hload hne hd ht hc
    have hlen : 0 < configs.length := List.length_pos.mpr hne
    simp [ MCPTools.initialize, hload,
      selectServers_all configs _ hd ht (loadMCPConfigs_no_proto E _ _ configs hload), hlen, hc,
      MCPTools.fresh]

/-- Witness of C13: with the map `{time: Y}`, the empty list makes no client,
while the absent argument hands the whole map to the client constructor. -/
theorem initialize_empty_list_witness :
    ( MCPTools.initialize emptyEnv (.parsed (.obj [("mcpServers", .obj timeConfigs)]))
        .unreadable (fun _ => .ok timeClient) MCPTools.fresh (some []))
      = (⟨none, []⟩, .ok []) ∧
    ( MCPTools.initialize emptyEnv (.parsed (.obj [("mcpServers", .obj timeConfigs)]))
        .unreadable (fun _ => .ok timeClient) MCPTools.fresh none)
      = (⟨some timeClient, timeConfigs.map Prod.fst⟩, .ok []) :=
  ⟨(initialize_empty_list emptyEnv (.parsed (.obj [("mcpServers", .obj timeConfigs)]))
      .unreadable (fun _ => .ok timeClient)).2.2.1 timeConfigs rfl,
   (initialize_empty_list emptyEnv (.parsed (.obj [("mcpServers", .obj timeConfigs)]))
      .unreadable (fun _ => .ok timeClient)).2.2.2 timeConfigs timeClient rfl
      (fun h => List.cons_ne_nil _ _ h) (by unfold DistinctKeys; decide) (by decide) rfl⟩

/-! ## Claims on `WrappedMCPTool` -/

theorem wrappedTool_of_contract (mcpTool : RemoteTool) (contract : ParameterContract)
    (h : WrappedMCPTool.convertSchema mcpTool.schema = .ok contract) :
    WrappedMCPTool.new mcpTool
      = .ok ⟨"mcp_" ++ mcpTool.name, "[MCP Tool] " ++ mcpTool.description, contract⟩ := by
  simp [WrappedMCPTool.new, h, bind, Except.bind, pure, Except.pure]

theorem wrappedTool_fields (mcpTool : RemoteTool) (w : WrappedMCPTool)
    (h : WrappedMCPTool.new mcpTool = .ok w) :
    w.name = "mcp_" ++ mcpTool.name ∧ w.description = "[MCP Tool] " ++ mcpTool.description := by
  cases hc : WrappedMCPTool.convertSchema mcpTool.schema with
  | error e => simp [WrappedMCPTool.new, hc, bind, Except.bind] at h
  | ok contract =>
    rw [wrappedTool_of_contract mcpTool contract hc] at h
    cases h
    exact ⟨rfl, rfl⟩

theorem wrapAll_fields (tools : List RemoteTool) (wrapped : List WrappedMCPTool)
    (h : wrapAll tools = .ok wrapped) :
    wrapped.map (fun w => w.name) = tools.map (fun t => "mcp_" ++ t.name) ∧
    wrapped.map (fun w => w.description)
      = tools.map (fun t => "[MCP Tool] " ++ t.description) := by
  induction tools generalizing wrapped with
  | nil =>
    simp only [wrapAll] at h
    cases h
    exact ⟨rfl, rfl⟩
  | cons t rest ih =>
    simp only [wrapAll] at h
    cases hn : WrappedMCPTool.new t with
    | error e => simp [hn] at h
    | ok w =>
      cases hr : wrapAll rest with
      | error e => simp [hn, hr] at h
      | ok ws =>
        simp only [hn, hr] at h
        cases h
        obtain ⟨h1, h2⟩ := ih ws hr
        obtain ⟨h3, h4⟩ := wrappedTool_fields t w hn
        simp [h1, h2, h3, h4]

theorem getTools_of_listing (self : MCPTools) (client : MCPClient) (tools : List RemoteTool)
    (wrapped : List WrappedMCPTool) (hc : self.mcpClient = some client)
    (hl : client.getTools = .ok tools) (hw : wrapAll tools = .ok wrapped) :
    self.getTools = wrapped := by
  simp [MCPTools.getTools, hc, hl, hw, Except.bind]

theorem convertSchema_returns (mcpSchema : JSValue)
    (hr : RequiredUsable (mcpSchema.field "required")) :
    ∃ shape, WrappedMCPTool.convertSchema mcpSchema = .ok shape := by
  by_cases ht : (mcpSchema.field "properties").truthy = true
  · have hs : mcpSchema.isNullish = false := by
      cases mcpSchema <;> simp [JSValue.field, JSValue.truthy] at ht
      rfl
    obtain ⟨entries, he⟩ := objectEntries_ok _ ht
    exact ⟨_, convertSchema_entries mcpSchema entries hs ht he hr⟩
  · exact ⟨[], convertSchema_falsy_properties mcpSchema (by simpa using ht)⟩

/-- C14: the descriptor built by `WrappedMCPTool` from a remote tool with name
`n` and description `d` has the name `mcp_` followed by `n` and the description
`[MCP Tool] ` followed by `d`: the constructor returns it whenever the schema
adapter returns a contract, which it does when `required` is absent, a list or
a string; and the names and descriptions listed by `getTools` are those of the
remote tools with these two texts put in front. -/
theorem wrappedTool_name_and_description (mcpTool : RemoteTool) :
    (∀ contract, WrappedMCPTool.convertSchema mcpTool.schema = .ok contract →
      WrappedMCPTool.new mcpTool
        = .ok ⟨"mcp_" ++ mcpTool.name, "[MCP Tool] " ++ mcpTool.description, contract⟩) ∧
    (RequiredUsable (mcpTool.schema.field "required") →
      ∃ w, WrappedMCPTool.new mcpTool = .ok w ∧ w.name = "mcp_" ++ mcpTool.name ∧
        w.description = "[MCP Tool] " ++ mcpTool.description) ∧
    (∀ (self : MCPTools) (client : MCPClient) (tools : List RemoteTool)
        (wrapped : List WrappedMCPTool),
      self.mcpClient = some client → client.getTools = .ok tools →
      wrapAll tools = .ok wrapped →
      self.getTools.map (fun w => w.name) = tools.map (fun t => "mcp_" ++ t.name) ∧
      self.getTools.map (fun w => w.description)
        = tools.map (fun t => "[MCP Tool] " ++ t.description)) := by
  refine ⟨wrappedTool_of_contract mcpTool, ?_, ?_⟩
  · intro hr
    obtain ⟨contract, hc⟩ := convertSchema_returns mcpTool.schema hr
    exact ⟨_, wrappedTool_of_contract mcpTool contract hc, rfl, rfl⟩
  · intro self client tools wrapped hc hl hw
    rw [getTools_of_listing self client tools wrapped hc hl hw]
    exact wrapAll_fields tools wrapped hw

/-- Witness of C14: the remote tool `get_current_time` is wrapped under the name
`mcp_get_current_time`, and a client listing it gives a registry with exactly
that name. -/
theorem wrappedTool_name_and_description_witness :
    (∃ w, WrappedMCPTool.new timeTool = .ok w ∧ w.name = "mcp_" ++ timeTool.name ∧
      w.description = "[MCP Tool] " ++ timeTool.description) ∧
    "mcp_" ++ timeTool.name = "mcp_get_current_time" ∧
    ((⟨some timeClient, ["time"]⟩ : MCPTools).getTools.map (fun w => w.name)
        = [timeTool].map (fun t => "mcp_" ++ t.name) ∧
      (⟨some timeClient, ["time"]⟩ : MCPTools).getTools.map (fun w => w.description)
        = [timeTool].map (fun t => "[MCP Tool] " ++ t.description)) :=
  ⟨(wrappedTool_name_and_description timeTool).2.1 (Or.inr (Or.inl ⟨_, rfl⟩)),
   by decide,
   (wrappedTool_name_and_description timeTool).2.2 ⟨some timeClient, ["time"]⟩ timeClient
     [timeTool] _ rfl rfl rfl⟩

theorem mcp_append_cancel (a b : String) (h : "mcp_" ++ a = "mcp_" ++ b) : a = b := by
  have := congrArg String.data h
  simp only [String.data_append, List.append_cancel_left_eq] at this
  exact String.ext this

/-- C15 (amended): the exposed name of a remote descriptor is the fixed tag
`mcp_` followed by its remote name, whatever its provider. Two remote
descriptors share their exposed name exactly when their remote names are equal,
a local descriptor shares the name of a remote one exactly when its name is
`mcp_` followed by the remote name, and a local descriptor whose name does not
begin with `mcp_` shares it with no remote descriptor. -/
theorem wrappedTool_names_collide_iff (t1 t2 : RemoteTool) (w1 w2 : WrappedMCPTool)
    (h1 : WrappedMCPTool.new t1 = .ok w1) (h2 : WrappedMCPTool.new t2 = .ok w2) :
    w1.name = "mcp_" ++ t1.name ∧
    (w1.name = w2.name ↔ t1.name = t2.name) ∧
    (∀ l : LocalTool, (RegisteredTool.builtin l).name = (RegisteredTool.mcp w1).name ↔
      l.name = "mcp_" ++ t1.name) ∧
    (∀ l : LocalTool, (∀ rest : String, l.name ≠ "mcp_" ++ rest) →
      (RegisteredTool.builtin l).name ≠ (RegisteredTool.mcp w1).name) := by
  obtain ⟨hn1, -⟩ := wrappedTool_fields t1 w1 h1
  obtain ⟨hn2, -⟩ := wrappedTool_fields t2 w2 h2
  refine ⟨hn1, ?_, ?_, ?_⟩
  · rw [hn1, hn2]
    exact ⟨mcp_append_cancel _ _, fun h => by rw [h]⟩
  · intro l
    simp only [RegisteredTool.name, hn1]
  · intro l hl
    simp only [RegisteredTool.name, hn1]
    exact hl t1.name

/-- Witness of C15 (amended): the tools `search` of the servers `alpha` and
`beta`. -/
theorem wrappedTool_names_collide_iff_witness :
    WrappedMCPTool.new ⟨"search", "Search the alpha index", .obj []⟩
      = .ok ⟨"mcp_search", "[MCP Tool] Search the alpha index", []⟩ ∧
    WrappedMCPTool.new ⟨"search", "Search the beta index", .obj []⟩
      = .ok ⟨"mcp_search", "[MCP Tool] Search the beta index", []⟩ ∧
    ((⟨"mcp_search", "[MCP Tool] Search the alpha index", []⟩ : WrappedMCPTool).name
        = (⟨"mcp_search", "[MCP Tool] Search the beta index", []⟩ : WrappedMCPTool).name ↔
      (⟨"search", "Search the alpha index", .obj []⟩ : RemoteTool).name
        = (⟨"search", "Search the beta index", .obj []⟩ : RemoteTool).name) :=
  ⟨rfl, rfl,
   (wrappedTool_names_collide_iff ⟨"search", "Search the alpha index", .obj []⟩
     ⟨"search", "Search the beta index", .obj []⟩ _ _ rfl rfl).2.1⟩

/-- Counterexample to C15 as stated: the servers `alpha` and `beta` both expose
a tool `search`; the two descriptors of the registry have the same exposed name
`mcp_search`, which carries the tag of neither server, and a local descriptor
named `mcp_search` has that name as well. -/
theorem remote_names_collide_across_servers :
    twoSearchServers.map (fun l => l.server) = ["alpha", "beta"] ∧
    (⟨some twoSearchClient, ["alpha", "beta"]⟩ : MCPTools).getTools.map (fun w => w.name)
      = ["mcp_search", "mcp_search"] ∧
    (RegisteredTool.builtin ⟨"mcp_search", "A local tool"⟩).name = "mcp_search" :=
  ⟨rfl, rfl, rfl⟩

/-! ## Claims on `WrappedMCPTool._call` -/

/-- C16: `_call` never raises; when the remote invocation fails with an error
whose message is `m`, it returns the text `MCP Error: ` followed by `m`. -/
theorem call_never_raises (invoke : JSValue → Except JSError JSValue)
    (serialize : JSValue → String) (inputs : JSValue) :
    (∃ v, WrappedMCPTool._call invoke serialize inputs = .ok v) ∧
    (∀ e, invoke inputs = .error e →
      WrappedMCPTool._call invoke serialize inputs
        = .ok (.str ("MCP Error: " ++ e.message))) := by
  constructor
  · unfold WrappedMCPTool._call
    cases invoke inputs with
    | error e => exact ⟨_, rfl⟩
    | ok result => cases result <;> exact ⟨_, rfl⟩
  · intro e he
    simp [WrappedMCPTool._call, he]

/-- Witness of C16: a remote tool that rejects with `connection lost`. -/
theorem call_never_raises_witness :
    WrappedMCPTool._call failingInvoke sampleSerialize (.obj [("timezone", .str "UTC")])
      = .ok (.str ("MCP Error: " ++ (JSError.other "connection lost").message)) :=
  (call_never_raises failingInvoke sampleSerialize (.obj [("timezone", .str "UTC")])).2
    (.other "connection lost") rfl

theorem call_text_result (invoke : JSValue → Except JSError JSValue)
    (serialize : JSValue → String) (inputs : JSValue) (s : String)
    (h : invoke inputs = .ok (.str s)) :
    WrappedMCPTool._call invoke serialize inputs = .ok (.str s) := by
  simp [WrappedMCPTool._call, h]

theorem call_serialized_result (invoke : JSValue → Except JSError JSValue)
    (serialize : JSValue → String) (inputs result : JSValue)
    (h : invoke inputs = .ok result) (hs : ∀ s, result ≠ .str s) (hu : result ≠ .undefined)
    (hf : ∀ name, result ≠ .native name) :
    WrappedMCPTool._call invoke serialize inputs = .ok (.str (serialize result)) := by
  cases result <;> simp_all [WrappedMCPTool._call, jsonStringify]

/-- C17: when the remote tool resolves to `undefined`, `JSON.stringify` gives
`undefined` and `_call` resolves to `undefined`, which is not a text. -/
theorem call_undefined_result_not_text (serialize : JSValue → String) (inputs : JSValue) :
    WrappedMCPTool._call voidInvoke serialize inputs = .ok .undefined ∧
    ∀ s, WrappedMCPTool._call voidInvoke serialize inputs ≠ .ok (.str s) := by
  refine ⟨rfl, ?_⟩
  intro s h
  have h2 : WrappedMCPTool._call voidInvoke serialize inputs = .ok .undefined := rfl
  rw [h2] at h
  cases h

/-! ## Claims on the slash-command bridge -/

theorem string_ne_empty_of_data {s : String} (h : s.data ≠ []) : s ≠ "" := by
  intro e
  apply h
  rw [e]

theorem data_ne_nil_of_ne_empty {s : String} (h : s ≠ "") : s.data ≠ [] := by
  intro e
  exact h (String.ext e)

theorem append_ne_empty_left (a b : String) (h : a ≠ "") : a ++ b ≠ "" := by
  apply string_ne_empty_of_data
  rw [String.data_append]
  intro e
  exact data_ne_nil_of_ne_empty h (List.append_eq_nil.mp e).1

theorem ne_empty_of_jsTrim {s : String} (h : jsTrim s ≠ "") : s ≠ "" := by
  intro e
  apply h
  rw [e]
  rfl

theorem combineOutputs_both (o e : String) (ho : o ≠ "") (he : e ≠ "") :
    combineOutputs o e = o ++ "\n" ++ e := by
  simp [combineOutputs, List.filter_cons, ho, he, String.intercalate, String.intercalate.go]

theorem combineOutputs_left (o e : String) (ho : o ≠ "") (he : e = "") :
    combineOutputs o e = o := by
  simp [combineOutputs, List.filter_cons, ho, he, String.intercalate, String.intercalate.go]

theorem combineOutputs_right (o e : String) (ho : o = "") (he : e ≠ "") :
    combineOutputs o e = e := by
  simp [combineOutputs, List.filter_cons, ho, he, String.intercalate, String.intercalate.go]

theorem combineOutputs_ne_empty (o e : String) (h : o ≠ "" ∨ e ≠ "") :
    combineOutputs o e ≠ "" := by
  by_cases ho : o = ""
  · have he : e ≠ "" := by
      rcases h with h | h
      · exact absurd ho h
      · exact h
    rw [combineOutputs_right o e ho he]
    exact he
  · by_cases he : e = ""
    · rw [combineOutputs_left o e ho he]
      exact ho
    · rw [combineOutputs_both o e ho he, String.append_assoc]
      exact append_ne_empty_left _ _ ho

/-- C18: when the command of `handleSlashCommand` fails and at least one of the
captured standard output `o` and standard error `e` is non-blank, the failure
raised carries the trimmed non-blank members of `[o, e]`, in that order, joined
by a newline: both when both are non-blank, the single one otherwise; the
message of the process error is not used. -/
theorem handleSlashCommand_failure_message (execSync : ExecRequest → ExecOutcome)
    (command : String) (args : List String) (error : ExecError)
    (hf : execSync ⟨slashCommandLine command args, true⟩ = .failure error)
    (hnb : jsTrim (orEmpty error.stdout) ≠ "" ∨ jsTrim (orEmpty error.stderr) ≠ "") :
    CodeMieCode.handleSlashCommand execSync command args
      = .error (.other (combineOutputs (jsTrim (orEmpty error.stdout))
          (jsTrim (orEmpty error.stderr)))) ∧
    (jsTrim (orEmpty error.stdout) ≠ "" → jsTrim (orEmpty error.stderr) ≠ "" →
      combineOutputs (jsTrim (orEmpty error.stdout)) (jsTrim (orEmpty error.stderr))
        = jsTrim (orEmpty error.stdout) ++ "\n" ++ jsTrim (orEmpty error.stderr)) ∧
    (jsTrim (orEmpty error.stdout) ≠ "" → jsTrim (orEmpty error.stderr) = "" →
      combineOutputs (jsTrim (orEmpty error.stdout)) (jsTrim (orEmpty error.stderr))
        = jsTrim (orEmpty error.stdout)) ∧
    (jsTrim (orEmpty error.stdout) = "" → jsTrim (orEmpty error.stderr) ≠ "" →
      combineOutputs (jsTrim (orEmpty error.stdout)) (jsTrim (orEmpty error.stderr))
        = jsTrim (orEmpty error.stderr)) := by
  refine ⟨?_, combineOutputs_both _ _, combineOutputs_left _ _, combineOutputs_right _ _⟩
  have hcond : (orEmpty error.stderr != "" || orEmpty error.stdout != "") = true := by
    rcases hnb with h | h
    · simp [ne_empty_of_jsTrim h]
    · simp [ne_empty_of_jsTrim h]
  have hc := combineOutputs_ne_empty _ _ hnb
  simp only [CodeMieCode.handleSlashCommand, hf, hcond, if_true]
  simp [hc]

/-- Witness of C18: standard output `Usage: codemie [options]` and standard
error `error: unknown command`, each followed by a newline. -/
theorem handleSlashCommand_failure_message_witness :
    CodeMieCode.handleSlashCommand failingExec "frobnicate" []
      = .error (.other (combineOutputs (jsTrim (orEmpty failedCommand.stdout))
          (jsTrim (orEmpty failedCommand.stderr)))) ∧
    combineOutputs (jsTrim (orEmpty failedCommand.stdout)) (jsTrim (orEmpty failedCommand.stderr))
      = "Usage: codemie [options]\nerror: unknown command" :=
  ⟨(handleSlashCommand_failure_message failingExec "frobnicate" [] failedCommand rfl
      (Or.inl (by decide))).1,
   by decide⟩

/-- C19: on a failing command the two entry points raise different messages.
With standard output `Usage: codemie [options]` and standard error
`error: unknown command`, `handleSlashCommand` raises the combined output and
`executeSlashCommand` lets the error of `execSync` through, with its own
message; both were given the same command line. -/
theorem slash_entry_points_differ_on_failure :
    CodeMieCode.handleSlashCommand failingExec "frobnicate" []
      = .error (.other "Usage: codemie [options]\nerror: unknown command") ∧
    CodeMieCode.executeSlashCommand failingExec "frobnicate" []
      = .error (.other "Command failed: codemie frobnicate \nerror: unknown command") ∧
    "Usage: codemie [options]\nerror: unknown command"
      ≠ "Command failed: codemie frobnicate \nerror: unknown command" :=
  ⟨by rfl, by rfl, by decide⟩

theorem slash_entry_points_agree_on_success (execSync : ExecRequest → ExecOutcome)
    (command : String) (args : List String) (output : String)
    (h1 : execSync ⟨slashCommandLine command args, true⟩ = .success output)
    (h2 : execSync ⟨slashCommandLine command args, false⟩ = .success output) :
    CodeMieCode.handleSlashCommand execSync command args = .ok output ∧
    CodeMieCode.executeSlashCommand execSync command args = .ok output := by
  simp [CodeMieCode.handleSlashCommand, CodeMieCode.executeSlashCommand, h1, h2]

/-! ## Claims on `dispose` -/

theorem mcpTools_dispose_eq (closeCall : MCPClient → Except JSError Unit) (self : MCPTools) :
    self.dispose closeCall = (self, .ok ()) := by
  unfold MCPTools.dispose
  cases self.mcpClient with
  | none => rfl
  | some client =>
    simp only
    cases h : closeCall client <;> rfl

theorem codeMieCode_dispose_eq (closeCall : MCPClient → Except JSError Unit)
    (self : CodeMieCode) : self.dispose closeCall = (self, .ok ()) := by
  unfold CodeMieCode.dispose
  cases h : self.mcpTools with
  | none => rfl
  | some mcpTools =>
    simp only [mcpTools_dispose_eq]
    cases self
    simp_all

theorem mcpTools_disposeRepeatedly_eq (closeCalls : List (MCPClient → Except JSError Unit))
    (self : MCPTools) :
    self.disposeRepeatedly closeCalls = (self, closeCalls.map fun _ => .ok ()) := by
  induction closeCalls with
  | nil => rfl
  | cons c rest ih => simp [MCPTools.disposeRepeatedly, mcpTools_dispose_eq, ih]

theorem codeMieCode_disposeRepeatedly_eq (closeCalls : List (MCPClient → Except JSError Unit))
    (self : CodeMieCode) :
    self.disposeRepeatedly closeCalls = (self, closeCalls.map fun _ => .ok ()) := by
  induction closeCalls with
  | nil => rfl
  | cons c rest ih => simp [CodeMieCode.disposeRepeatedly, codeMieCode_dispose_eq, ih]

/-- C20: for `n ≥ 1` consecutive calls of `MCPTools.dispose`, and of
`CodeMieCode.dispose`, whatever `close` does at each call (raising included),
all `n` calls complete without raising, and the state after the `n` calls is
the state after the first call. -/
theorem dispose_idempotent (n : Nat) (closeCalls : List (MCPClient → Except JSError Unit))
    (hn : 1 ≤ n) (hlen : closeCalls.length = n) (tools : MCPTools) (app : CodeMieCode) :
    (tools.disposeRepeatedly closeCalls).2.length = n ∧
    (∀ outcome ∈ (tools.disposeRepeatedly closeCalls).2, outcome = .ok ()) ∧
    (app.disposeRepeatedly closeCalls).2.length = n ∧
    (∀ outcome ∈ (app.disposeRepeatedly closeCalls).2, outcome = .ok ()) ∧
    ∃ first rest, closeCalls = first :: rest ∧
      (tools.disposeRepeatedly closeCalls).1 = (tools.dispose first).1 ∧
      (app.disposeRepeatedly closeCalls).1 = (app.dispose first).1 := by
  rw [mcpTools_disposeRepeatedly_eq, codeMieCode_disposeRepeatedly_eq]
  refine ⟨by simp [hlen], ?_, by simp [hlen], ?_, ?_⟩
  · intro outcome ho
    obtain ⟨_, _, h⟩ := List.mem_map.mp ho
    exact h.symm
  · intro outcome ho
    obtain ⟨_, _, h⟩ := List.mem_map.mp ho
    exact h.symm
  · cases closeCalls with
    | nil =>
      simp only [List.length_nil] at hlen
      omega
    | cons first rest =>
      exact ⟨first, rest, rfl, by rw [mcpTools_dispose_eq], by rw [codeMieCode_dispose_eq]⟩

/-- Witness of C20: three calls on a client whose `close` raises at each call. -/
theorem dispose_idempotent_witness :
    ((⟨some timeClient, ["time"]⟩ : MCPTools).disposeRepeatedly
      [raisingClose, raisingClose, raisingClose]).2.length = 3 ∧
    (∀ outcome ∈ ((⟨some timeClient, ["time"]⟩ : MCPTools).disposeRepeatedly
      [raisingClose, raisingClose, raisingClose]).2, outcome = .ok ()) ∧
    ((⟨[], some ⟨some timeClient, ["time"]⟩⟩ : CodeMieCode).disposeRepeatedly
      [raisingClose, raisingClose, raisingClose]).2.length = 3 ∧
    (∀ outcome ∈ ((⟨[], some ⟨some timeClient, ["time"]⟩⟩ : CodeMieCode).disposeRepeatedly
      [raisingClose, raisingClose, raisingClose]).2, outcome = .ok ()) ∧
    ∃ first rest, [raisingClose, raisingClose, raisingClose] = first :: rest ∧
      ((⟨some timeClient, ["time"]⟩ : MCPTools).disposeRepeatedly
        [raisingClose, raisingClose, raisingClose]).1
        = ((⟨some timeClient, ["time"]⟩ : MCPTools).dispose first).1 ∧
      ((⟨[], some ⟨some timeClient, ["time"]⟩⟩ : CodeMieCode).disposeRepeatedly
        [raisingClose, raisingClose, raisingClose]).1
        = ((⟨[], some ⟨some timeClient, ["time"]⟩⟩ : CodeMieCode).dispose first).1 :=
  dispose_idempotent 3 [raisingClose, raisingClose, raisingClose] (by decide) rfl
    ⟨some timeClient, ["time"]⟩ ⟨[], some ⟨some timeClient, ["time"]⟩⟩

/-! ## Claims on the streaming handler -/

theorem oneTerminalLast_append_error (events : List StreamEvent) (msg : String)
    (h : (events.filter StreamEvent.isTerminal).length = 0) :
    OneTerminalLast (events ++ [StreamEvent.error msg]) := by
  unfold OneTerminalLast
  constructor
  · simp [List.filter_append, h, List.filter_cons, StreamEvent.isTerminal]
  · simp [StreamEvent.isTerminal]

/-- C11 (amended): the handler `onSubmitStream` never rejects, and the event
sink receives the events `chatStream` delivered, followed by one `error` event
exactly when `chatStream` rejects with a message other than the cancellation
message. Hence the sink holds exactly one terminal event, as its last event,
when `chatStream` delivers exactly one terminal event as its last event and
returns or rejects with the cancellation message, and when `chatStream`
delivers no terminal event and rejects with another error. -/
theorem onSubmitStream_events (chatStream : String → ChatStreamRun) (message : String) :
    (onSubmitStream chatStream message).2 = .ok () ∧
    ((chatStream message).outcome = .ok () →
      (onSubmitStream chatStream message).1 = (chatStream message).events) ∧
    (∀ e, (chatStream message).outcome = .error e →
      e.message = "Execution cancelled by user" →
      (onSubmitStream chatStream message).1 = (chatStream message).events) ∧
    (∀ e, (chatStream message).outcome = .error e →
      e.message ≠ "Execution cancelled by user" →
      (onSubmitStream chatStream message).1 = (chatStream message).events ++
        [StreamEvent.error (if e.message != "" then e.message else "An error occurred")]) ∧
    (OneTerminalLast (chatStream message).events →
      ((chatStream message).outcome = .ok () ∨
        ∃ e, (chatStream message).outcome = .error e ∧
          e.message = "Execution cancelled by user") →
      OneTerminalLast (onSubmitStream chatStream message).1) ∧
    (((chatStream message).events.filter StreamEvent.isTerminal).length = 0 →
      (∃ e, (chatStream message).outcome = .error e ∧
        e.message ≠ "Execution cancelled by user") →
      OneTerminalLast (onSubmitStream chatStream message).1) := by
  have hok : (chatStream message).outcome = .ok () →
      (onSubmitStream chatStream message).1 = (chatStream message).events := by
    intro h
    simp [onSubmitStream, h]
  have hcancel : ∀ e, (chatStream message).outcome = .error e →
      e.message = "Execution cancelled by user" →
      (onSubmitStream chatStream message).1 = (chatStream message).events := by
    intro e h hm
    simp [onSubmitStream, h, hm]
  have hother : ∀ e, (chatStream message).outcome = .error e →
      e.message ≠ "Execution cancelled by user" →
      (onSubmitStream chatStream message).1 = (chatStream message).events ++
        [StreamEvent.error (if e.message != "" then e.message else "An error occurred")] := by
    intro e h hm
    simp [onSubmitStream, h, hm]
  refine ⟨?_, hok, hcancel, hother, ?_, ?_⟩
  · unfold onSubmitStream
    cases h : (chatStream message).outcome with
    | ok _ => simp [h]
    | error e =>
      by_cases hm : e.message = "Execution cancelled by user" <;> simp [h, hm]
  · rintro hone (h | ⟨e, h, hm⟩)
    · rw [hok h]
      exact hone
    · rw [hcancel e h hm]
      exact hone
  · rintro hnone ⟨e, h, hm⟩
    rw [hother e h hm]
    exact oneTerminalLast_append_error _ _ hnone

/-- Witness of C11 (amended): a run that delivers text and `complete` and then
returns. -/
theorem onSubmitStream_events_witness :
    OneTerminalLast (completedRun "What is 2+2?").events ∧
    OneTerminalLast (onSubmitStream completedRun "What is 2+2?").1 :=
  ⟨by decide,
   (onSubmitStream_events completedRun "What is 2+2?").2.2.2.2.1 (by decide) (Or.inl rfl)⟩

/-- Counterexample to C11 as stated: `chatStream` delivers an `error` event and
then rejects with that error; the handler delivers a second `error` event, so
the sink holds two terminal events, the second after the first. -/
theorem onSubmitStream_second_terminal_event :
    (errorThenRejectRun "What is 2+2?").outcome = .error (.other "Model request failed") ∧
    (onSubmitStream errorThenRejectRun "What is 2+2?").1
      = [.thinking_start, .error "Model request failed", .error "Model request failed"] ∧
    ¬ OneTerminalLast (onSubmitStream errorThenRejectRun "What is 2+2?").1 :=
  ⟨rfl, rfl, by decide⟩

/-! ## Claims on the assembled registry -/

theorem performInitialization_of_init_ok (env : InitEnvironment) (fs cmd git : List LocalTool)
    (skipped : List String)
    (hfs : env.filesystemTools = .ok fs) (hcmd : env.commandTools = .ok cmd)
    (hgit : env.gitTools = .ok git) (hinit : (mcpInitOutcome env).2 = .ok skipped) :
    ∃ app, CodeMieCode.performInitialization env = .ok app ∧
      app.agentTools = fs.map RegisteredTool.builtin ++ cmd.map RegisteredTool.builtin
        ++ git.map RegisteredTool.builtin
        ++ ((mcpInitOutcome env).1.getTools).map RegisteredTool.mcp := by
  simp only [CodeMieCode.performInitialization, hfs, hcmd, hgit, bind, Except.bind, pure,
    Except.pure, List.nil_append]
  refine ⟨_, rfl, ?_⟩
  simp only [collectMCPTools_ok env _ skipped hinit]

theorem performInitialization_local_part (env : InitEnvironment) (fs cmd git : List LocalTool)
    (hfs : env.filesystemTools = .ok fs) (hcmd : env.commandTools = .ok cmd)
    (hgit : env.gitTools = .ok git) :
    ∃ (app : CodeMieCode) (mcpPart : List WrappedMCPTool), CodeMieCode.performInitialization env = .ok app ∧
      app.agentTools = (fs ++ cmd ++ git).map RegisteredTool.builtin
        ++ mcpPart.map RegisteredTool.mcp := by
  cases hi : (mcpInitOutcome env).2 with
  | ok skipped =>
    obtain ⟨app, h1, h2⟩ := performInitialization_of_init_ok env fs cmd git skipped hfs hcmd hgit hi
    exact ⟨app, (mcpInitOutcome env).1.getTools, h1, by rw [h2]; simp⟩
  | error e =>
    simp only [CodeMieCode.performInitialization, hfs, hcmd, hgit, bind, Except.bind, pure,
      Except.pure, List.nil_append]
    refine ⟨_, [], rfl, ?_⟩
    simp only [collectMCPTools_error env _ e hi]
    simp

theorem wrapAll_length (tools : List RemoteTool) (wrapped : List WrappedMCPTool)
    (h : wrapAll tools = .ok wrapped) : wrapped.length = tools.length := by
  have := congrArg List.length (wrapAll_fields tools wrapped h).1
  simpa using this

/-- C21: when no tool source fails, the registry handed to the agent is the
filesystem descriptors, then the command descriptors, then the git descriptors,
then the wrapped MCP descriptors, each list in its own order; its length is the
sum of the four lengths, and the MCP part is one wrapped descriptor for each
tool the client lists, in the order of the listing. -/
theorem registry_is_concatenation (env : InitEnvironment) (fs cmd git : List LocalTool)
    (skipped : List String)
    (hfs : env.filesystemTools = .ok fs) (hcmd : env.commandTools = .ok cmd)
    (hgit : env.gitTools = .ok git) (hinit : (mcpInitOutcome env).2 = .ok skipped) :
    ∃ app, CodeMieCode.performInitialization env = .ok app ∧
      app.agentTools = fs.map RegisteredTool.builtin ++ cmd.map RegisteredTool.builtin
        ++ git.map RegisteredTool.builtin
        ++ ((mcpInitOutcome env).1.getTools).map RegisteredTool.mcp ∧
      app.agentTools.length
        = fs.length + cmd.length + git.length + (mcpInitOutcome env).1.getTools.length ∧
      (∀ client tools wrapped, (mcpInitOutcome env).1.mcpClient = some client →
        client.getTools = .ok tools → wrapAll tools = .ok wrapped →
        (mcpInitOutcome env).1.getTools = wrapped ∧ wrapped.length = tools.length ∧
        wrapped.map (fun w => w.name) = tools.map (fun t => "mcp_" ++ t.name)) ∧
      ((mcpInitOutcome env).1.mcpClient = none → (mcpInitOutcome env).1.getTools = []) := by
  obtain ⟨app, h1, h2⟩ := performInitialization_of_init_ok env fs cmd git skipped hfs hcmd hgit hinit
  refine ⟨app, h1, h2, ?_, ?_, ?_⟩
  · rw [h2]
    simp only [List.length_append, List.length_map]
  · intro client tools wrapped hc hl hw
    exact ⟨getTools_of_listing _ client tools wrapped hc hl hw, wrapAll_length tools wrapped hw,
      (wrapAll_fields tools wrapped hw).1⟩
  · intro hnone
    simp [MCPTools.getTools, hnone]

/-- Witness of C21: the healthy environment; the registry is the four local
descriptors followed by `mcp_get_current_time`. -/
theorem registry_is_concatenation_witness :
    (mcpInitOutcome healthyEnv).2 = .ok [] ∧
    ∃ app, CodeMieCode.performInitialization healthyEnv = .ok app ∧
      app.agentTools.map RegisteredTool.name
        = ["read_file", "write_file", "execute_command", "git_status", "mcp_get_current_time"] ∧
      app.agentTools.length = 2 + 1 + 1 + 1 := by
  refine ⟨rfl, ?_⟩
  obtain ⟨app, h1, h2, h3, -, -⟩ := registry_is_concatenation healthyEnv _ _ _ [] rfl rfl rfl rfl
  refine ⟨app, h1, ?_, ?_⟩
  · rw [h2]
    rfl
  · rw [h3]
    rfl

/-- C22 (amended): `performInitialization` makes no check on names. Whenever the
three local sources list their tools, it completes, and the registry begins
with every local descriptor, in source order; so when two local descriptors
have the same name, the registry holds both and its names are not distinct. -/
theorem registry_keeps_duplicate_names (env : InitEnvironment) (fs cmd git : List LocalTool)
    (hfs : env.filesystemTools = .ok fs) (hcmd : env.commandTools = .ok cmd)
    (hgit : env.gitTools = .ok git) :
    ∃ (app : CodeMieCode) (mcpPart : List WrappedMCPTool), CodeMieCode.performInitialization env = .ok app ∧
      app.agentTools = (fs ++ cmd ++ git).map RegisteredTool.builtin
        ++ mcpPart.map RegisteredTool.mcp ∧
      (¬ ((fs ++ cmd ++ git).map fun l => l.name).Nodup →
        ¬ (app.agentTools.map RegisteredTool.name).Nodup) := by
  obtain ⟨app, mcpPart, h1, h2⟩ := performInitialization_local_part env fs cmd git hfs hcmd hgit
  refine ⟨app, mcpPart, h1, h2, ?_⟩
  intro hdup hnodup
  apply hdup
  rw [h2, List.map_append, List.map_map] at hnodup
  exact (List.nodup_append.mp hnodup).1

/-- Witness of C22 (amended): the filesystem and the command source both list
`read_file`. -/
theorem registry_keeps_duplicate_names_witness :
    ∃ (app : CodeMieCode) (mcpPart : List WrappedMCPTool),
      CodeMieCode.performInitialization duplicateLocalEnv = .ok app ∧
      app.agentTools
        = ([LocalTool.mk "read_file" "Read a file", LocalTool.mk "write_file" "Write a file"]
            ++ [LocalTool.mk "read_file" "Read a file through the shell"]
            ++ [LocalTool.mk "git_status" "Show the git status"]).map RegisteredTool.builtin
          ++ mcpPart.map RegisteredTool.mcp ∧
      (¬ (([LocalTool.mk "read_file" "Read a file", LocalTool.mk "write_file" "Write a file"]
            ++ [LocalTool.mk "read_file" "Read a file through the shell"]
            ++ [LocalTool.mk "git_status" "Show the git status"]).map fun l => l.name).Nodup →
        ¬ (app.agentTools.map RegisteredTool.name).Nodup) :=
  registry_keeps_duplicate_names duplicateLocalEnv _ _ _ rfl rfl rfl

/-- Counterexample to C22 as stated: the filesystem and the command source both
list a descriptor named `read_file`; `performInitialization` completes and the
registry holds both. -/
theorem duplicate_local_names_accepted :
    ∃ app, CodeMieCode.performInitialization duplicateLocalEnv = .ok app ∧
      app.agentTools.map RegisteredTool.name
        = ["read_file", "write_file", "read_file", "git_status"] :=
  ⟨_, rfl, rfl⟩

/-! ## Claims on descriptions -/

theorem isObjectType_of_field_str (prop : JSValue) (name d : String)
    (h : prop.field name = .str d) : prop.isObjectType = true := by
  cases prop <;> simp [JSValue.field] at h
  rfl

/-- C23 (amended): for every property whose description is a non-empty text, the
entry of the contract built by `convertSchema` carries exactly that text as its
description, whatever kind the declared type gives and whether or not the entry
is made optional; making a described entry optional keeps the description. -/
theorem convertSchema_description_preserved (mcpSchema : JSValue)
    (props : List (String × JSValue)) (key : String) (prop : JSValue) (d : String)
    (hp : mcpSchema.field "properties" = .obj props) (hd : DistinctKeys props)
    (hr : RequiredUsable (mcpSchema.field "required"))
    (hm : (key, prop) ∈ props) (hdesc : prop.field "description" = .str d) (hne : d ≠ "") :
    ∃ shape t, WrappedMCPTool.convertSchema mcpSchema = .ok shape ∧ (key, t) ∈ shape ∧
      (∀ u, (key, u) ∈ shape → u = t) ∧
      t.description = some (.str d) ∧
      t.kind = zodKindOfType (prop.field "type") ∧
      t.isOptional = optionalFlag (mcpSchema.field "required") key ∧
      (∀ z : ZodType, ((z.describe (.str d)).optional).description = some (.str d)) := by
  have ho := isObjectType_of_field_str prop "description" d hdesc
  refine ⟨_, _, convertSchema_obj mcpSchema props hp hd hr,
    mem_contractOf (mcpSchema.field "required") props key prop hm ho, ?_, ?_, rfl, rfl,
    fun _ => rfl⟩
  · intro u hu
    obtain ⟨prop2, hm2, -, hu2⟩ := of_mem_contractOf (mcpSchema.field "required") props key u hu
    have : prop2 = prop := by
      have h1 := lookupProp_of_mem props key prop2 hd hm2
      have h2 := lookupProp_of_mem props key prop hd hm
      rw [h1] at h2
      exact h2
    rw [hu2, this]
  · simp [contractEntry, hdesc, JSValue.truthy, hne]

/-- Witness of C23 (amended): the property `limit`, declared `integer`, described
and not required; its entry is an optional number with the description. -/
theorem convertSchema_description_preserved_witness :
    ∃ shape t, WrappedMCPTool.convertSchema describedSchema = .ok shape ∧
      (("limit", t) ∈ shape) ∧ (∀ u, ("limit", u) ∈ shape → u = t) ∧
      t.description = some (.str "Maximum number of rows") ∧
      t.kind = zodKindOfType (.str "integer") ∧
      t.isOptional = optionalFlag (.arr []) "limit" ∧
      (∀ z : ZodType, ((z.describe (.str "Maximum number of rows")).optional).description
        = some (.str "Maximum number of rows")) :=
  convertSchema_description_preserved describedSchema describedProps "limit"
    (.obj [("type", .str "integer"), ("description", .str "Maximum number of rows")])
    "Maximum number of rows" rfl (by simp [DistinctKeys, describedProps])
    (Or.inr (Or.inl ⟨[], rfl⟩)) (by simp [describedProps]) rfl (by decide)

/-- Counterexample to C23 as stated: the property `q` carries the empty text as
its description; the guard `if (prop.description)` is false for it, and the
entry of the contract carries no description at all. -/
theorem convertSchema_empty_description_dropped :
    (JSValue.field (.obj [("type", .str "string"), ("description", .str "")]) "description"
      = .str "") ∧
    WrappedMCPTool.convertSchema emptyDescriptionSchema
      = .ok [("q", ⟨.string, none, false⟩)] := by
  constructor <;> rfl

/-! ## Claims on the code fence of `createUnifiedDiff` -/

theorem foldl_max_init (xs : List Nat) (a : Nat) :
    xs.foldl max a = max a (xs.foldl max 0) := by
  induction xs generalizing a with
  | nil => simp
  | cons x rest ih =>
    simp only [List.foldl_cons]
    rw [ih (max a x), ih (max 0 x)]
    simp [max_assoc]

theorem longest_nil (run : Nat) : (backtickRunsAux run []).foldl max 0 = run := by
  unfold backtickRunsAux
  by_cases h : run = 0 <;> simp [h]

theorem longest_tick (run : Nat) (rest : List Char) :
    (backtickRunsAux run (backtick :: rest)).foldl max 0
      = (backtickRunsAux (run + 1) rest).foldl max 0 := by
  rw [backtickRunsAux]
  simp

theorem longest_other (run : Nat) (c : Char) (rest : List Char) (hc : c ≠ backtick) :
    (backtickRunsAux run (c :: rest)).foldl max 0
      = max run ((backtickRunsAux 0 rest).foldl max 0) := by
  rw [backtickRunsAux]
  by_cases h : run = 0
  · simp [hc, h]
  · simp only [hc, h, if_false, List.foldl_cons]
    rw [foldl_max_init]
    simp

theorem replicate_prefix_cons (k : Nat) (c : Char) (rest : List Char)
    (h : List.replicate k backtick <+: c :: rest) :
    k = 0 ∨ (c = backtick ∧ ∃ j, k = j + 1 ∧ List.replicate j backtick <+: rest) := by
  cases k with
  | zero => exact Or.inl rfl
  | succ j =>
    right
    rw [List.replicate_succ, List.cons_prefix_cons] at h
    exact ⟨h.1.symm, j, rfl, h.2⟩

theorem runs_bound (l : List Char) : ∀ run k,
    (List.replicate k backtick <:+: l → k ≤ (backtickRunsAux run l).foldl max 0) ∧
    (List.replicate k backtick <+: l → run + k ≤ (backtickRunsAux run l).foldl max 0) := by
  induction l with
  | nil =>
    intro run k
    rw [longest_nil]
    constructor
    · intro h
      have := List.eq_nil_of_infix_nil h
      have hk : k = 0 := by simpa using congrArg List.length this
      omega
    · intro h
      have := List.eq_nil_of_prefix_nil h
      have hk : k = 0 := by simpa using congrArg List.length this
      omega
  | cons c rest ih =>
    intro run k
    by_cases hc : c = backtick
    · subst hc
      rw [longest_tick]
      have hpre : List.replicate k backtick <+: backtick :: rest →
          run + k ≤ (backtickRunsAux (run + 1) rest).foldl max 0 := by
        intro h
        rcases replicate_prefix_cons k backtick rest h with h0 | ⟨-, j, hj, hp⟩
        · have := (ih (run + 1) 0).2 (by simp)
          omega
        · have := (ih (run + 1) j).2 hp
          omega
      refine ⟨?_, hpre⟩
      intro h
      rcases List.infix_cons_iff.mp h with hp | hi
      · have := hpre hp
        omega
      · exact (ih (run + 1) k).1 hi
    · rw [longest_other run c rest hc]
      have hpre : List.replicate k backtick <+: c :: rest → k = 0 := by
        intro h
        rcases replicate_prefix_cons k c rest h with h0 | ⟨h1, -⟩
        · exact h0
        · exact absurd h1 hc
      constructor
      · intro h
        rcases List.infix_cons_iff.mp h with hp | hi
        · have := hpre hp
          omega
        · have := (ih 0 k).1 hi
          omega
      · intro h
        have := hpre h
        omega

theorem runs_attained (l : List Char) : ∀ run,
    (∃ k, (backtickRunsAux run l).foldl max 0 = run + k ∧ List.replicate k backtick <+: l) ∨
    List.replicate ((backtickRunsAux run l).foldl max 0) backtick <:+: l := by
  induction l with
  | nil =>
    intro run
    left
    exact ⟨0, by simp [longest_nil], by simp⟩
  | cons c rest ih =>
    intro run
    by_cases hc : c = backtick
    · subst hc
      rw [longest_tick]
      rcases ih (run + 1) with ⟨k, hk, hp⟩ | hi
      · left
        refine ⟨k + 1, by omega, ?_⟩
        rw [List.replicate_succ]
        exact (List.prefix_cons_inj backtick).mpr hp
      · right
        exact List.infix_cons hi
    · rw [longest_other run c rest hc]
      by_cases hle : (backtickRunsAux 0 rest).foldl max 0 ≤ run
      · left
        exact ⟨0, by simp [hle], by simp⟩
      · right
        have hmax : max run ((backtickRunsAux 0 rest).foldl max 0)
            = (backtickRunsAux 0 rest).foldl max 0 := by omega
        rw [hmax]
        rcases ih 0 with ⟨k, hk, hp⟩ | hi
        · have hk2 : (backtickRunsAux 0 rest).foldl max 0 = k := by omega
          rw [hk2]
          exact List.infix_cons hp.isInfix
        · exact List.infix_cons hi

/-- C27: for every patch text, the result of `createUnifiedDiff` is the fence,
`diff` and a newline, the patch, the same fence and two newlines; the fence is
`max(3, r + 1)` backticks, where `r` is the length of the longest run of
backticks in the patch: a run of `r` backticks occurs in the patch and no
longer one does, and `r` is 0 when the patch has no backtick; so the fence is at
least 3 long and strictly longer than every run of backticks in the patch. -/
theorem createUnifiedDiff_fence
    (createPatch : String → String → String → String → String → String)
    (oldContent newContent filePath : String) :
    createUnifiedDiff createPatch oldContent newContent filePath
      = fence (createPatch filePath oldContent newContent "original" "modified") ++ "diff\n"
        ++ createPatch filePath oldContent newContent "original" "modified"
        ++ fence (createPatch filePath oldContent newContent "original" "modified") ++ "\n\n" ∧
    ∀ patch : String,
      (fence patch).toList
        = List.replicate (max 3 (longestBacktickRun patch + 1)) backtick ∧
      (fence patch).length = max 3 (longestBacktickRun patch + 1) ∧
      List.replicate (longestBacktickRun patch) backtick <:+: patch.toList ∧
      (∀ k, List.replicate k backtick <:+: patch.toList → k ≤ longestBacktickRun patch) ∧
      (backtick ∉ patch.toList → longestBacktickRun patch = 0) ∧
      3 ≤ (fence patch).length ∧
      (∀ k, List.replicate k backtick <:+: patch.toList → k < (fence patch).length) := by
  refine ⟨rfl, ?_⟩
  intro patch
  have hlen : (fence patch).length = max 3 (longestBacktickRun patch + 1) := by
    simp [fence, numBackticks, String.length]
  have hbound : ∀ k, List.replicate k backtick <:+: patch.toList →
      k ≤ longestBacktickRun patch := fun k h => (runs_bound patch.toList 0 k).1 h
  have hatt : List.replicate (longestBacktickRun patch) backtick <:+: patch.toList := by
    rcases runs_attained patch.toList 0 with ⟨k, hk, hp⟩ | hi
    · have : longestBacktickRun patch = k := by
        unfold longestBacktickRun backtickRuns
        omega
      rw [this]
      exact hp.isInfix
    · exact hi
  refine ⟨rfl, hlen, hatt, hbound, ?_, ?_, ?_⟩
  · intro hnone
    by_contra hr
    have hmem : backtick ∈ List.replicate (longestBacktickRun patch) backtick :=
      List.mem_replicate.mpr ⟨hr, rfl⟩
    exact hnone (hatt.subset hmem)
  · rw [hlen]
    omega
  · intro k hk
    have := hbound k hk
    rw [hlen]
    omega

/-! ## Claims on `exec` -/

theorem execStep_settled (command : String) (timeout : Option Nat) (st : ExecState)
    (e : ChildEvent) (outcome : Except String ExecResult) (h : st.settled = some outcome) :
    (execStep command timeout st e).settled = some outcome := by
  cases e <;> simp [execStep, ExecState.settle, ExecState.cleanup, h]
  split <;> simp [h]

theorem execFold_settled (command : String) (timeout : Option Nat) (events : List ChildEvent) :
    ∀ (st : ExecState) (outcome : Except String ExecResult), st.settled = some outcome →
      (events.foldl (execStep command timeout) st).settled = some outcome := by
  induction events with
  | nil => intro st outcome h; exact h
  | cons e rest ih =>
    intro st outcome h
    exact ih _ outcome (execStep_settled command timeout st e outcome h)

theorem stdoutOf_data_cons (e : ChildEvent) (rest : List ChildEvent) (st : ExecState)
    (command : String) (timeout : Option Nat) (he : e.isData = true) :
    (execStep command timeout st e).stdout ++ stdoutOf rest = st.stdout ++ stdoutOf (e :: rest) ∧
    (execStep command timeout st e).stderr ++ stderrOf rest = st.stderr ++ stderrOf (e :: rest) ∧
    (execStep command timeout st e).settled = st.settled ∧
    (execStep command timeout st e).timerPending = st.timerPending := by
  cases e <;> simp [ChildEvent.isData] at he <;>
    simp [execStep, stdoutOf, stderrOf, String.append_assoc]

theorem execFold_data (command : String) (timeout : Option Nat) (pre : List ChildEvent) :
    ∀ st : ExecState, (∀ e ∈ pre, e.isData = true) →
      (pre.foldl (execStep command timeout) st).stdout = st.stdout ++ stdoutOf pre ∧
      (pre.foldl (execStep command timeout) st).stderr = st.stderr ++ stderrOf pre ∧
      (pre.foldl (execStep command timeout) st).settled = st.settled := by
  induction pre with
  | nil => intro st _; simp [stdoutOf, stderrOf]
  | cons e rest ih =>
    intro st h
    have he := h e (List.mem_cons_self _ _)
    obtain ⟨h1, h2, h3, -⟩ := stdoutOf_data_cons e rest st command timeout he
    obtain ⟨i1, i2, i3⟩ := ih (execStep command timeout st e)
      (fun x hx => h x (List.mem_cons_of_mem _ hx))
    simp only [List.foldl_cons]
    exact ⟨i1.trans h1, i2.trans h2, i3.trans h3⟩

theorem execFold_rejected (command : String) (timeout : Option Nat) (events : List ChildEvent) :
    ∀ (st : ExecState) (message : String),
      (st.timerPending = true → timeoutSet timeout = true) →
      (events.foldl (execStep command timeout) st).settled = some (.error message) →
      st.settled = some (.error message) ∨
      (∃ m, ChildEvent.error m ∈ events ∧
        message = "Failed to execute " ++ command ++ ": " ++ m) ∨
      (ChildEvent.timerFired ∈ events ∧ timeoutSet timeout = true ∧
        message = "Command timed out after " ++ toString (timeout.getD 0) ++ "ms") := by
  induction events with
  | nil => intro st message _ h; exact Or.inl h
  | cons e rest ih =>
    intro st message hp h
    simp only [List.foldl_cons] at h
    have hp2 : (execStep command timeout st e).timerPending = true →
        timeoutSet timeout = true := by
      cases e <;> simp only [execStep, ExecState.settle, ExecState.cleanup]
      · exact hp
      · exact hp
      · split <;> simp
      · split <;> simp
      · split
        · split <;> simp
        · exact hp
    rcases ih _ message hp2 h with h1 | ⟨m, hm, hmsg⟩ | ⟨ht, hs, hmsg⟩
    · cases hst : st.settled with
      | some outcome =>
        rw [execStep_settled command timeout st e outcome hst] at h1
        exact Or.inl h1
      | none =>
        right
        cases e with
        | stdoutData chunk => simp [execStep, hst] at h1
        | stderrData chunk => simp [execStep, hst] at h1
        | error m =>
          left
          simp only [execStep, ExecState.settle, ExecState.cleanup, hst, Option.some.injEq,
            Except.error.injEq] at h1
          exact ⟨m, List.mem_cons_self _ _, h1.symm⟩
        | close code =>
          simp [execStep, ExecState.settle, ExecState.cleanup, hst] at h1
        | timerFired =>
          right
          by_cases hpend : st.timerPending = true
          · simp only [execStep, hpend, if_true, ExecState.settle, hst, Option.some.injEq,
              Except.error.injEq] at h1
            exact ⟨List.mem_cons_self _ _, hp hpend, h1.symm⟩
          · simp [execStep, hpend, hst] at h1
    · exact Or.inr (Or.inl ⟨m, List.mem_cons_of_mem _ hm, hmsg⟩)
    · exact Or.inr (Or.inr ⟨List.mem_cons_of_mem _ ht, hs, hmsg⟩)

/-- C28: when the child closes after nothing but data chunks, `exec` resolves,
whatever the exit code: with the exit code, or 0 when the close event carries
none, and with the chunks of each stream concatenated in arrival order and
trimmed; what follows the close changes nothing. And whenever `exec` rejects,
an `error` event of the child or the expiry of the timer of a set timeout has
occurred, and the rejection carries the message of that case. -/
theorem exec_resolves_on_close (command : String) (timeout : Option Nat)
    (pre post : List ChildEvent) (code : Option Int) (hpre : ∀ e ∈ pre, e.isData = true) :
    exec command timeout (pre ++ ChildEvent.close code :: post)
      = some (.ok ⟨code.getD 0, jsTrim (stdoutOf pre), jsTrim (stderrOf pre)⟩) ∧
    (code = none → exec command timeout (pre ++ ChildEvent.close code :: post)
      = some (.ok ⟨0, jsTrim (stdoutOf pre), jsTrim (stderrOf pre)⟩)) ∧
    (∀ events message, exec command timeout events = some (.error message) →
      (∃ m, ChildEvent.error m ∈ events ∧
        message = "Failed to execute " ++ command ++ ": " ++ m) ∨
      (ChildEvent.timerFired ∈ events ∧ timeoutSet timeout = true ∧
        message = "Command timed out after " ++ toString (timeout.getD 0) ++ "ms")) := by
  have hmain : exec command timeout (pre ++ ChildEvent.close code :: post)
      = some (.ok ⟨code.getD 0, jsTrim (stdoutOf pre), jsTrim (stderrOf pre)⟩) := by
    obtain ⟨h1, h2, h3⟩ := execFold_data command timeout pre (execStart timeout) hpre
    unfold exec
    rw [List.foldl_append, List.foldl_cons]
    apply execFold_settled
    generalize List.foldl (execStep command timeout) (execStart timeout) pre = st at h1 h2 h3
    simp only [execStart] at h1 h2 h3
    simp [execStep, ExecState.settle, ExecState.cleanup, h3, h1, h2]
  refine ⟨hmain, ?_, ?_⟩
  · intro hc
    rw [hmain, hc]
    rfl
  · intro events message h
    rcases execFold_rejected command timeout events (execStart timeout) message
      (fun hp => hp) h with h1 | h2
    · simp [execStart] at h1
    · exact h2

/-- Witness of C28: a child that writes to both streams and exits with code 2;
`exec` resolves with code 2 and the trimmed texts. -/
theorem exec_resolves_on_close_witness :
    (∀ e ∈ [ChildEvent.stdoutData " he", .stderrData "warn\n", .stdoutData "llo\n"],
      e.isData = true) ∧
    exec "git" (some 1000) failingChildEvents = some (.ok ⟨2, "hello", "warn"⟩) :=
  ⟨by decide,
   (exec_resolves_on_close "git" (some 1000)
      [.stdoutData " he", .stderrData "warn\n", .stdoutData "llo\n"] [] (some 2)
      (by decide)).1⟩

/-! ## Claims on the non-interactive renderer -/

theorem intercalate_go_data (sep : String) (parts : List String) : ∀ acc : String,
    (String.intercalate.go acc sep parts).data
      = acc.data ++ (parts.map fun a => sep.data ++ a.data).flatten := by
  induction parts with
  | nil => intro acc; simp [String.intercalate.go]
  | cons a rest ih =>
    intro acc
    simp [String.intercalate.go, ih, String.data_append]

theorem joinChars_cons (sep piece : List Char) (pieces : List (List Char)) :
    joinChars sep (piece :: pieces)
      = piece ++ (pieces.map fun a => sep ++ a).flatten := by
  induction pieces generalizing piece with
  | nil => simp [joinChars]
  | cons q rest ih =>
    rw [joinChars, ih q]
    · simp
    · simp

theorem intercalate_data (sep : String) (parts : List String) :
    (sep.intercalate parts).data = joinChars sep.data (parts.map String.data) := by
  cases parts with
  | nil => rfl
  | cons a rest =>
    rw [String.intercalate, intercalate_go_data, List.map_cons, joinChars_cons]
    simp [List.map_map, Function.comp_def]

theorem splitOnChar_ne_nil (sep : Char) (l : List Char) : splitOnChar sep l ≠ [] := by
  induction l with
  | nil => simp [splitOnChar]
  | cons c rest ih =>
    rw [splitOnChar]
    split
    · simp
    · split <;> simp

theorem joinChars_splitOnChar (sep : Char) (l : List Char) :
    joinChars [sep] (splitOnChar sep l) = l := by
  induction l with
  | nil => rfl
  | cons c rest ih =>
    rw [splitOnChar]
    by_cases hc : c = sep
    · rw [if_pos hc]
      cases hs : splitOnChar sep rest with
      | nil => exact absurd hs (splitOnChar_ne_nil sep rest)
      | cons piece pieces =>
        rw [hs] at ih
        rw [joinChars, ih, hc]
        · rfl
        · simp
    · rw [if_neg hc]
      cases hs : splitOnChar sep rest with
      | nil => exact absurd hs (splitOnChar_ne_nil sep rest)
      | cons piece pieces =>
        rw [hs] at ih
        simp only
        rw [joinChars_cons] at ih ⊢
        rw [List.cons_append, ih]

theorem splitLines_ne_nil (text : String) : splitLines text ≠ [] := by
  simp [splitLines, splitOnChar_ne_nil]

theorem intercalate_splitLines (text : String) :
    "\n".intercalate (splitLines text) = text := by
  apply String.ext
  rw [intercalate_data, splitLines, List.map_map]
  have : (String.data ∘ String.mk) = (id : List Char → List Char) := rfl
  rw [this, List.map_id]
  exact joinChars_splitOnChar (Char.ofNat 10) text.toList

/-- C26: for every `tool_call_result` whose result is a text, with `n` lines
when split on the newline, the handler of `executeNonInteractive` writes the
first `min(n, 5)` lines, unchanged and in order, the first one after the corner
sign and the others indented, then the marker `+N lines` with `N = n - 5` when,
and only when, `n > 5`, then an empty line; the number of lines written plus the
number left out is `n`; the lines joined by newlines are the result text, and
the flags of the handler are unchanged. -/
theorem renderToolResult_first_five (display : JSValue → String) (flags : RenderFlags)
    (toolName text : String) :
    ∃ first rest,
      (splitLines text).take (min (splitLines text).length 5) = first :: rest ∧
      (first :: rest).length = min (splitLines text).length 5 ∧
      renderEvent display flags (.tool_call_result toolName (some text))
        = (flags,
           consoleLog ["  ⎿", first] :: rest.map (fun line => consoleLog ["    ", line])
            ++ (if 5 < (splitLines text).length then
                  [consoleLog ["     … +" ++ toString ((splitLines text).length - 5) ++ " lines"]]
                else [])
            ++ [consoleLog []]) ∧
      (first :: rest).length + ((splitLines text).length - 5) = (splitLines text).length ∧
      "\n".intercalate (splitLines text) = text := by
  cases hl : splitLines text with
  | nil => exact absurd hl (splitLines_ne_nil text)
  | cons first more =>
    have hmin : min (first :: more).length 5 = (more.take 4).length + 1 := by
      simp only [List.length_cons, List.length_take]
      omega
    refine ⟨first, more.take 4, ?_, ?_, ?_, ?_, ?_⟩
    · rw [hmin, List.length_take]
      rw [List.take_succ_cons]
      congr 1
      rcases Nat.le_total 4 more.length with h | h
      · rw [Nat.min_eq_left h]
      · rw [Nat.min_eq_right h, List.take_of_length_le (le_refl _), List.take_of_length_le h]
    · rw [hmin]
      rfl
    · simp only [renderEvent, renderToolResult, hl]
      rfl
    · simp only [List.length_cons, List.length_take]
      omega
    · rw [← hl]
      exact intercalate_splitLines text

/-- Witness of C26: a result of seven lines; five are written, then the marker
`+2 lines`. -/
theorem renderToolResult_first_five_witness :
    renderEvent (fun _ => "") ⟨false, false, false⟩ (.tool_call_result "read_file" (some sevenLines))
      = (⟨false, false, false⟩,
         [.out "  ⎿ a\n", .out "     b\n", .out "     c\n", .out "     d\n", .out "     e\n",
          .out "     … +2 lines\n", .out "\n"]) := by
  obtain ⟨first, rest, h1, -, h3, -, -⟩ :=
    renderToolResult_first_five (fun _ => "") ⟨false, false, false⟩ "read_file" sevenLines
  rw [h3]
  have h : first :: rest = ["a", "b", "c", "d", "e"] := h1.symm.trans (by decide)
  injection h with hf hr
  subst hf
  subst hr
  decide

/-! ## Claims on the exit code and on slash tasks -/

theorem clearThinking_hasError (flags : RenderFlags) :
    (clearThinking flags).1.hasError = flags.hasError := by
  unfold clearThinking
  split <;> rfl

theorem renderEvent_hasError (display : JSValue → String) (flags : RenderFlags)
    (event : StreamEvent) :
    (renderEvent display flags event).1.hasError = (flags.hasError || event.isError) := by
  cases event <;> simp [renderEvent, StreamEvent.isError, clearThinking_hasError]
  split <;> rfl

theorem renderEvents_hasError (display : JSValue → String) (events : List StreamEvent) :
    ∀ flags : RenderFlags,
      (renderEvents display flags events).1.hasError
        = (flags.hasError || events.any StreamEvent.isError) := by
  induction events with
  | nil => intro flags; simp [renderEvents]
  | cons event rest ih =>
    intro flags
    simp only [renderEvents, ih, renderEvent_hasError, List.any_cons, Bool.or_assoc]

theorem any_isError_iff (events : List StreamEvent) :
    events.any StreamEvent.isError = true ↔ ∃ message, StreamEvent.error message ∈ events := by
  rw [List.any_eq_true]
  constructor
  · rintro ⟨event, hm, he⟩
    cases event <;> simp [StreamEvent.isError] at he
    exact ⟨_, hm⟩
  · rintro ⟨message, hm⟩
    exact ⟨_, hm, rfl⟩

/-- C29: for every task that does not start with a slash, run with an
initialised agent, `executeNonInteractive` ends the process; when `chatStream`
returns, the exit code is 1 if an `error` event was delivered and 0 otherwise,
also when a `cancelled` event was delivered; when `chatStream` rejects, the exit
code is 130 if the message of the rejection is `Execution cancelled by user`
and 1 for any other rejection. -/
theorem executeNonInteractive_exit_code (chatStream : String → ChatStreamRun)
    (execSync : ExecRequest → ExecOutcome) (display : JSValue → String) (task : String)
    (htask : task.toList.head? ≠ some (Char.ofNat 47)) :
    ∃ exit, CodeMieCode.executeNonInteractive (some chatStream) execSync display task
        = .ok exit ∧
      ((chatStream task).outcome = .ok () →
        (exit.exitCode = 1 ↔ ∃ message, StreamEvent.error message ∈ (chatStream task).events) ∧
        (exit.exitCode = 0 ↔ ¬ ∃ message, StreamEvent.error message ∈ (chatStream task).events) ∧
        (exit.exitCode = 1 ∨ exit.exitCode = 0)) ∧
      (∀ error, (chatStream task).outcome = .error error →
        (exit.exitCode = 130 ↔ error.message = "Execution cancelled by user") ∧
        (exit.exitCode = 1 ↔ error.message ≠ "Execution cancelled by user") ∧
        (exit.exitCode = 130 ∨ exit.exitCode = 1)) := by
  refine ⟨runAgentTask chatStream display task, ?_, ?_, ?_⟩
  · simp only [CodeMieCode.executeNonInteractive, if_neg htask]
  · intro hok
    simp only [runAgentTask, hok, renderEvents_hasError, Bool.false_or]
    rw [← any_isError_iff]
    cases h : (chatStream task).events.any StreamEvent.isError <;> simp
  · intro error herr
    simp only [runAgentTask, herr]
    by_cases hm : error.message = "Execution cancelled by user" <;> simp [hm]

/-- Witness of C29: a run that delivers `cancelled` and returns; the exit code
is 0. -/
theorem executeNonInteractive_exit_code_witness :
    ("fix the failing test".toList.head? ≠ some (Char.ofNat 47)) ∧
    ∃ exit, CodeMieCode.executeNonInteractive (some fun _ => cancelledRun) echoExec
        (fun _ => "") "fix the failing test" = .ok exit ∧ exit.exitCode = 0 := by
  refine ⟨by decide, ?_⟩
  obtain ⟨exit, h1, h2, -⟩ := executeNonInteractive_exit_code (fun _ => cancelledRun) echoExec
    (fun _ => "") "fix the failing test" (by decide)
  refine ⟨exit, h1, (h2 rfl).2.1.mpr ?_⟩
  rintro ⟨message, hm⟩
  simp [cancelledRun] at hm

theorem splitWhitespaceAux_ne_nil (l : List Char) : ∀ inRun,
    splitWhitespaceAux inRun l ≠ [] := by
  induction l with
  | nil => intro inRun; simp [splitWhitespaceAux]
  | cons c rest ih =>
    intro inRun
    rw [splitWhitespaceAux]
    split
    · split
      · exact ih true
      · simp
    · split <;> simp

theorem splitWhitespaceAux_word_start (c : Char) (rest : List Char)
    (hc : isJSWhitespace c = false) :
    splitWhitespaceAux true (c :: rest) = splitWhitespaceAux false (c :: rest) := by
  rw [splitWhitespaceAux, splitWhitespaceAux]
  simp [hc]

theorem splitWhitespaceAux_word (word : List Char)
    (hw : ∀ c ∈ word, isJSWhitespace c = false) (rest : List Char) :
    ∃ piece pieces, splitWhitespaceAux false rest = piece :: pieces ∧
      splitWhitespaceAux false (word ++ rest) = (word ++ piece) :: pieces := by
  induction word with
  | nil =>
    cases h : splitWhitespaceAux false rest with
    | nil => exact absurd h (splitWhitespaceAux_ne_nil rest false)
    | cons piece pieces => exact ⟨piece, pieces, rfl, by simpa using h⟩
  | cons c more ih =>
    obtain ⟨piece, pieces, h1, h2⟩ := ih (fun x hx => hw x (List.mem_cons_of_mem _ hx))
    refine ⟨piece, pieces, h1, ?_⟩
    have hc := hw c (List.mem_cons_self _ _)
    rw [List.cons_append, splitWhitespaceAux]
    simp [hc, h2]

theorem splitWhitespaceAux_join (words : List (List Char)) (hne : words ≠ [])
    (hw : ∀ w ∈ words, w ≠ [] ∧ ∀ c ∈ w, isJSWhitespace c = false) :
    splitWhitespaceAux false (joinChars [Char.ofNat 32] words) = words := by
  induction words with
  | nil => exact absurd rfl hne
  | cons w rest ih =>
    cases rest with
    | nil =>
      obtain ⟨piece, pieces, h1, h2⟩ :=
        splitWhitespaceAux_word w (hw w (List.mem_cons_self _ _)).2 []
      simp only [splitWhitespaceAux, List.cons.injEq] at h1
      rw [joinChars]
      rw [List.append_nil] at h2
      rw [h2, ← h1.1, ← h1.2, List.append_nil]
    | cons w2 ws =>
      have ih2 := ih (List.cons_ne_nil _ _) (fun x hx => hw x (List.mem_cons_of_mem _ hx))
      have hw2 := hw w2 (List.mem_cons_of_mem _ (List.mem_cons_self _ _))
      obtain ⟨c, more, hcm⟩ : ∃ c more, joinChars [Char.ofNat 32] (w2 :: ws) = c :: more ∧
          isJSWhitespace c = false := by
        cases hw2e : w2 with
        | nil => exact absurd hw2e hw2.1
        | cons c more =>
          refine ⟨c, more ++ (ws.map fun a => [Char.ofNat 32] ++ a).flatten, ?_, ?_⟩
          · rw [joinChars_cons]
            rfl
          · exact hw2.2 c (hw2e ▸ List.mem_cons_self _ _)
      have hsp : splitWhitespaceAux false
          (Char.ofNat 32 :: joinChars [Char.ofNat 32] (w2 :: ws)) = [] :: w2 :: ws := by
        rw [splitWhitespaceAux]
        have h32 : isJSWhitespace (Char.ofNat 32) = true := by decide
        simp only [h32, if_true, Bool.false_eq_true, if_false]
        rw [hcm.1, splitWhitespaceAux_word_start c more hcm.2, ← hcm.1, ih2]
      obtain ⟨piece, pieces, h1, h2⟩ :=
        splitWhitespaceAux_word w (hw w (List.mem_cons_self _ _)).2
          (Char.ofNat 32 :: joinChars [Char.ofNat 32] (w2 :: ws))
      rw [hsp, List.cons.injEq] at h1
      rw [joinChars]
      · rw [List.append_assoc, List.singleton_append, h2, ← h1.1, ← h1.2, List.append_nil]
      · simp

theorem splitWhitespace_intercalate (words : List String) (hne : words ≠ [])
    (hw : ∀ w ∈ words, w ≠ "" ∧ ∀ c ∈ w.toList, isJSWhitespace c = false) :
    splitWhitespace (" ".intercalate words) = words := by
  unfold splitWhitespace
  have hd : (" ".intercalate words).toList = joinChars [Char.ofNat 32] (words.map String.data) :=
    intercalate_data " " words
  rw [hd, splitWhitespaceAux_join]
  · rw [List.map_map]
    have : (String.mk ∘ String.data) = (id : String → String) := rfl
    rw [this, List.map_id]
  · simpa using hne
  · intro w hwm
    obtain ⟨s, hs, rfl⟩ := List.mem_map.mp hwm
    refine ⟨?_, (hw s hs).2⟩
    intro h
    exact (hw s hs).1 (String.ext h)

/-- C30: for every task that is a slash followed by a text, run with an
initialised agent, `executeNonInteractive` runs the slash command and nothing
else: the outcome is that of `executeSlashCommand` on the command and the
arguments, exit code 0 when it returns and 1 when it throws, and it does not
depend on the agent; the command is the first element of the text split on
runs of whitespace and the arguments are the remaining elements in order; and
when the text is non-empty words without whitespace joined by single blanks,
command and arguments are these words, and joined by single blanks they give
back the text. -/
theorem executeNonInteractive_slash_task (chatStream : String → ChatStreamRun)
    (execSync : ExecRequest → ExecOutcome) (display : JSValue → String) (text : String) :
    ∃ command args, splitWhitespace text = command :: args ∧
      CodeMieCode.executeNonInteractive (some chatStream) execSync display ("/" ++ text)
        = .ok (match CodeMieCode.executeSlashCommand execSync command args with
          | .ok result =>
            ⟨[consoleLog ["Executing command: /" ++ command ++ " " ++ " ".intercalate args],
              consoleLog [], consoleLog [result]], 0⟩
          | .error error =>
            ⟨[consoleLog ["Executing command: /" ++ command ++ " " ++ " ".intercalate args],
              consoleLog [], consoleError ["Error:", error.message]], 1⟩) ∧
      (∀ other : String → ChatStreamRun,
        CodeMieCode.executeNonInteractive (some other) execSync display ("/" ++ text)
          = CodeMieCode.executeNonInteractive (some chatStream) execSync display ("/" ++ text)) ∧
      (∀ words : List String, words ≠ [] →
        (∀ w ∈ words, w ≠ "" ∧ ∀ c ∈ w.toList, isJSWhitespace c = false) →
        text = " ".intercalate words →
        command :: args = words ∧ " ".intercalate (command :: args) = text) := by
  have hhead : ("/" ++ text).toList.head? = some (Char.ofNat 47) := by
    simp [String.toList, String.data_append]
  have hdrop : String.mk (("/" ++ text).toList.drop 1) = text := by
    apply String.ext
    simp [String.toList, String.data_append]
  cases hs : splitWhitespace text with
  | nil =>
    unfold splitWhitespace at hs
    exact absurd (List.map_eq_nil_iff.mp hs) (splitWhitespaceAux_ne_nil text.toList false)
  | cons command args =>
    refine ⟨command, args, rfl, ?_, ?_, ?_⟩
    · simp only [CodeMieCode.executeNonInteractive, if_pos hhead, runSlashTask, hdrop, hs,
        List.headD_cons, List.drop_succ_cons, List.drop_zero]
      cases CodeMieCode.executeSlashCommand execSync command args <;> rfl
    · intro other
      simp only [CodeMieCode.executeNonInteractive, if_pos hhead]
    · intro words hne hw htext
      have h := splitWhitespace_intercalate words hne hw
      rw [← htext, hs] at h
      exact ⟨h, by rw [h, htext]⟩

/-- Witness of C30: the task `/doctor --verbose now`; the command is `doctor`,
the arguments are `--verbose` and `now`, and the agent is not run. -/
theorem executeNonInteractive_slash_task_witness :
    splitWhitespace "doctor --verbose now" = ["doctor", "--verbose", "now"] ∧
    " ".intercalate ["doctor", "--verbose", "now"] = "doctor --verbose now" ∧
    CodeMieCode.executeNonInteractive (some errorThenRejectRun) echoExec (fun _ => "")
        ("/" ++ "doctor --verbose now")
      = CodeMieCode.executeNonInteractive (some completedRun) echoExec (fun _ => "")
        ("/" ++ "doctor --verbose now") := by
  obtain ⟨command, args, h1, -, h3, h4⟩ :=
    executeNonInteractive_slash_task completedRun echoExec (fun _ => "") "doctor --verbose now"
  have h5 := h4 ["doctor", "--verbose", "now"] (by simp) (by decide) (by decide)
  exact ⟨h1.trans h5.1, by decide, h3 errorThenRejectRun⟩

/-! ## Claims on the session history -/

theorem userMessages_append (a b : List Message) :
    userMessages (a ++ b) = userMessages a ++ userMessages b := by
  simp [userMessages]

theorem userMessages_of_no_user (tail : List Message) (h : ∀ m ∈ tail, m.role ≠ Role.user) :
    userMessages tail = [] := by
  simp only [userMessages, List.map_eq_nil_iff, List.filter_eq_nil_iff]
  intro m hm
  simpa using h m hm

theorem toMessage_not_user (item : TurnItem) : item.toMessage.role ≠ Role.user := by
  cases item <;> simp [TurnItem.toMessage]

theorem agentChat_block (script : TurnScript) (before : List Message) (message : String) :
    ∃ tail, (agentChat script before message).1 = before ++ (⟨Role.user, message⟩ :: tail) ∧
      (∀ m ∈ tail, m.role ≠ Role.user) ∧
      (∀ answer, script.final = .ok answer →
        (agentChat script before message).2 = .ok answer ∧
        tail = script.items.map TurnItem.toMessage ++ [⟨Role.assistant, answer⟩]) := by
  have hitems : ∀ m ∈ script.items.map TurnItem.toMessage, m.role ≠ Role.user := by
    intro m hm
    obtain ⟨item, -, rfl⟩ := List.mem_map.mp hm
    exact toMessage_not_user item
  cases hf : script.final with
  | ok answer =>
    refine ⟨script.items.map TurnItem.toMessage ++ [⟨Role.assistant, answer⟩], ?_, ?_, ?_⟩
    · simp [agentChat, hf]
    · intro m hm
      rcases List.mem_append.mp hm with h | h
      · exact hitems m h
      · rw [List.mem_singleton.mp h]
        simp
    · intro other hother
      cases hother
      exact ⟨by simp [agentChat, hf], rfl⟩
  | error error =>
    refine ⟨script.items.map TurnItem.toMessage, ?_, hitems, ?_⟩
    · simp [agentChat, hf]
    · intro answer hanswer
      cases hanswer

/-- C24: for every sequence of user messages submitted one after another
through `CodeMieCode.chat` on an initialised agent, the history afterwards is
the history before followed by one block per turn, in submission order; the
block of a turn is its user message, with unchanged content, followed by
messages that are not user messages, and when the call of the turn returns, the
last of them is the assistant message with the answer; so the user messages of
the history are those of the history before followed by the submitted ones, in
order, and on a fresh agent they are exactly the submitted ones. -/
theorem chat_history_user_messages (turns : List (String × TurnScript)) :
    ∀ before : List Message,
    ∃ (history : List Message) (blocks : List (List Message)),
      chatAll (some before) turns = some history ∧
      history = before ++ blocks.flatten ∧
      List.Forall₂ (fun (turn : String × TurnScript) (block : List Message) =>
        ∃ tail, block = ⟨Role.user, turn.1⟩ :: tail ∧ (∀ m ∈ tail, m.role ≠ Role.user) ∧
          (∀ answer, turn.2.final = .ok answer →
            ∃ earlier, tail = earlier ++ [⟨Role.assistant, answer⟩])) turns blocks ∧
      userMessages history = userMessages before ++ turns.map Prod.fst ∧
      (before = [] → userMessages history = turns.map Prod.fst) := by
  induction turns with
  | nil =>
    intro before
    exact ⟨before, [], rfl, by simp, List.Forall₂.nil, by simp, fun h => by simp [h, userMessages]⟩
  | cons turn rest ih =>
    intro before
    obtain ⟨tail, htail, hnouser, hanswer⟩ := agentChat_block turn.2 before turn.1
    obtain ⟨history, blocks, h1, h2, h3, h4, -⟩ := ih (before ++ (⟨Role.user, turn.1⟩ :: tail))
    have hstep : (CodeMieCode.chat (some before) turn.2 turn.1).1
        = some (before ++ (⟨Role.user, turn.1⟩ :: tail)) := by
      simp only [CodeMieCode.chat, htail]
    have husers : userMessages history
        = userMessages before ++ (turn :: rest).map Prod.fst := by
      rw [h4, userMessages_append]
      have hblock : userMessages (⟨Role.user, turn.1⟩ :: tail) = [turn.1] := by
        rw [show (⟨Role.user, turn.1⟩ :: tail : List Message) = [⟨Role.user, turn.1⟩] ++ tail
          from rfl, userMessages_append, userMessages_of_no_user tail hnouser]
        simp [userMessages]
      rw [hblock]
      simp
    refine ⟨history, (⟨Role.user, turn.1⟩ :: tail) :: blocks, ?_, ?_, ?_, husers, ?_⟩
    · rw [chatAll, hstep]
      exact h1
    · rw [h2]
      simp
    · refine List.Forall₂.cons ⟨tail, rfl, hnouser, ?_⟩ h3
      intro answer ha
      exact ⟨_, (hanswer answer ha).2⟩
    · intro hb
      rw [husers, hb]
      simp [userMessages]

/-- Witness of C24: the three questions of the test of the conversation flow,
on a fresh agent; the user messages of the history are the three questions. -/
theorem chat_history_user_messages_witness :
    ∃ history, chatAll (some []) threeTurns = some history ∧
      userMessages history
        = ["What is 2+2?", "What is the capital of France?",
           "List the files in the current directory"] := by
  obtain ⟨history, blocks, h1, -, -, -, h5⟩ := chat_history_user_messages threeTurns []
  exact ⟨history, h1, h5 rfl⟩

end CodeMie
